import Mathlib

/-!
# Complexity metrics over a function's control-flow graph

A shallow embedding of `llvm/lib/Analysis/TestTaskAnalysis.cpp`.

* A `Function` is the list of its basic blocks; block `0` is `F.front()`.
* A `BasicBlock` carries its non-terminator instructions and the ordered successor list
  of its terminator (`getNumSuccessors` / `getSuccessor(I)`), as block indices.
* The `std::map` memo tables are finite maps from block index to value.
* The two recursive traversals are embedded by recursion on a call-depth budget; the entry
  points supply `F.size() + 1`, which is shown to be always sufficient.
* `assert(... && "Infinity recurse detected")` is embedded as the outcome `assertFailed`.
* `int` arithmetic is embedded in `Int` without wrap-around: signed overflow is undefined
  behaviour in the source language, so the embedding describes the runs that stay in range.
* The loop forest that `LoopInfo` hands to `geomean` (`unittests/Transforms/Scalar/LICMTest.cpp`,
  with `loopGeomeanDepth` also in the analysis file) is a list of `Loop` trees. The `double`
  accumulator is embedded in `ℚ` with exact arithmetic: rounding and overflow of `double` are
  left out, so the embedding describes the runs whose products of nesting depths are
  representable. The library function `pow` is a parameter of `geomean`.
* `Function::size()` and `Function::getInstructionCount()` belong to the IR library, which is not
  part of the analysis; they are modelled from the specification.
-/

namespace TestTaskAnalysis

/-! ## Data model -/

/-- Instruction kinds the analysis tells apart: `select` is a `SelectInst`, `debug` is a
debug-info pseudo instruction (skipped by `instructionsWithoutDebug`), `other` is anything else. -/
inductive Instruction where
  | select
  | debug
  | other
deriving DecidableEq, Repr

/-- Basic block: the instructions in front of the terminator, and the successors of the terminator
in `getSuccessor(0), getSuccessor(1), ...` order (indices into the function's block list). -/
structure BasicBlock where
  instructions : List Instruction
  successors : List Nat
deriving DecidableEq, Repr

/-- Function body: its basic blocks in layout order; `F.front()` is block `0`. -/
structure Function where
  blocks : List BasicBlock
deriving DecidableEq, Repr

/-- Block stored at an index (a terminator-only block without successors outside the list). -/
def Function.block (F : Function) (BB : Nat) : BasicBlock :=
  F.blocks.getD BB ⟨[], []⟩

/-- Successor list of the terminator of block `BB`. -/
def Function.succs (F : Function) (BB : Nat) : List Nat :=
  (F.block BB).successors

/-- Instructions of the block before the terminator, debug instructions filtered out. -/
def BasicBlock.instructionsWithoutDebug (BB : BasicBlock) : List Instruction :=
  BB.instructions.filter (fun i => i != Instruction.debug)

/-- Value of `BB->sizeWithoutDebug()`: the non-debug instructions and the terminator. -/
def BasicBlock.sizeWithoutDebug (BB : BasicBlock) : Nat :=
  BB.instructionsWithoutDebug.length + 1

/-- Value of the `Counter` after the `isa<SelectInst>` loop of `basicBlockMcCabeMeasure`. -/
def BasicBlock.selectCount (BB : BasicBlock) : Nat :=
  (BB.instructionsWithoutDebug.filter (fun i => i == Instruction.select)).length

/-- Well-formed function: it has an entry block and every successor is one of its blocks. -/
def Function.WellFormed (F : Function) : Prop :=
  0 < F.blocks.length ∧ ∀ BB ∈ F.blocks, ∀ s ∈ BB.successors, s < F.blocks.length

instance (F : Function) : Decidable F.WellFormed := by
  unfold Function.WellFormed; infer_instance

/-! ## Outcomes and memo tables -/

/-- Result of running a traversal: a value, the failed in-progress assertion, or an exhausted
call-depth budget (an artefact of the embedding, excluded by `F.size() + 1`). -/
inductive Outcome (α : Type) where
  | ok (val : α)
  | assertFailed
  | outOfFuel
deriving DecidableEq, Repr

/-- Sequencing of outcomes: the first failure aborts the run. -/
def Outcome.bind {α β : Type} (x : Outcome α) (f : α → Outcome β) : Outcome β :=
  match x with
  | .ok a => f a
  | .assertFailed => .assertFailed
  | .outOfFuel => .outOfFuel

/-- Finite map keyed by block, standing for `std::map<BasicBlock const *, T>`. -/
def Memo (α : Type) : Type := Nat → Option α

/-- The freshly constructed, empty map. -/
def Memo.empty {α : Type} : Memo α := fun _ => none

/-- Lookup `Was.find(BB)`: `none` stands for `Was.end()`. -/
def Memo.find {α : Type} (m : Memo α) (k : Nat) : Option α := m k

/-- Insertion `Was.insert({BB, v})`: it does not overwrite an existing entry. -/
def Memo.insert {α : Type} (m : Memo α) (k : Nat) (v : α) : Memo α :=
  fun x => if x = k then (match m k with | some old => some old | none => some v) else m x

/-- Assignment `Was[BB] = v`. -/
def Memo.assign {α : Type} (m : Memo α) (k : Nat) (v : α) : Memo α :=
  fun x => if x = k then some v else m x

/-! ## `basicBlockMcCabeMeasure` and `McCabeMeasure` -/

/-- The successor loop of `basicBlockMcCabeMeasure`: `Counter += call(Successor, Was)` for each
successor in order, threading the memo table. -/
def sumSuccessors (call : Nat → Memo Int → Outcome (Int × Memo Int)) :
    List Nat → Int → Memo Int → Outcome (Int × Memo Int)
  | [], Counter, Was => .ok (Counter, Was)
  | Successor :: rest, Counter, Was =>
    (call Successor Was).bind fun r => sumSuccessors call rest (Counter + r.1) r.2

/-- The recursive worker of the McCabe measure, with a call-depth budget as first argument. -/
def basicBlockMcCabeMeasure (F : Function) : Nat → Nat → Memo Int → Outcome (Int × Memo Int)
  | 0, _, _ => .outOfFuel
  | fuel + 1, BB, Was =>
    match Was.find BB with
    | some PrevMeasure =>
      if PrevMeasure ≠ -1 then .ok (PrevMeasure, Was) else .assertFailed
    | none =>
      let Was1 := Was.insert BB (-1)
      let Counter : Int := (F.block BB).selectCount
      if (F.succs BB).length = 0 then .ok (Counter + 1, Was1)
      else
        (sumSuccessors (basicBlockMcCabeMeasure F fuel) (F.succs BB) Counter Was1).bind
          fun r => .ok (r.1, r.2.assign BB r.1)

/-- The entry point `McCabeMeasure`: a fresh memo table, started at `F.front()`. -/
def McCabeMeasure (F : Function) : Outcome Int :=
  (basicBlockMcCabeMeasure F (F.blocks.length + 1) 0 Memo.empty).bind fun r => .ok r.1

/-! ## `instructionsOnLongestPath` and `countInstructionsOnLongestPath` -/

/-- Comparison `a < b` of `std::pair<int, int>`. -/
def pairLt (a b : Int × Int) : Bool :=
  decide (a.1 < b.1) || (!decide (b.1 < a.1) && decide (a.2 < b.2))

/-- Comparison `a <= b` of `std::pair<int, int>`, which is `!(b < a)`. -/
def pairLe (a b : Int × Int) : Bool := !pairLt b a

/-- The successor loop of `instructionsOnLongestPath`: the running `LongestSuccessor` is
replaced whenever it is `<=` the pair of the successor just visited. -/
def longestSuccessor (call : Nat → Memo (Int × Int) → Outcome ((Int × Int) × Memo (Int × Int))) :
    List Nat → Int × Int → Memo (Int × Int) → Outcome ((Int × Int) × Memo (Int × Int))
  | [], LongestSuccessor, Was => .ok (LongestSuccessor, Was)
  | Successor :: rest, LongestSuccessor, Was =>
    (call Successor Was).bind fun r =>
      longestSuccessor call rest (if pairLe LongestSuccessor r.1 then r.1 else LongestSuccessor) r.2

/-- The recursive worker of the longest-path count, with a call-depth budget as first argument.
The memo entry written at the end is `LongestSuccessor`, as in the source. -/
def instructionsOnLongestPath (F : Function) :
    Nat → Nat → Memo (Int × Int) → Outcome ((Int × Int) × Memo (Int × Int))
  | 0, _, _ => .outOfFuel
  | fuel + 1, BB, Was =>
    match Was.find BB with
    | some PrevMeasure =>
      if PrevMeasure.2 ≠ -1 then .ok (PrevMeasure, Was) else .assertFailed
    | none =>
      let Was1 := Was.insert BB (-1, -1)
      (longestSuccessor (instructionsOnLongestPath F fuel) (F.succs BB) (0, 0) Was1).bind
        fun r => .ok ((r.1.1 + 1, r.1.2 + ((F.block BB).sizeWithoutDebug : Int)),
                      r.2.assign BB r.1)

/-- The entry point `countInstructionsOnLongestPath`: the `.second` of the entry's pair. -/
def countInstructionsOnLongestPath (F : Function) : Outcome Int :=
  (instructionsOnLongestPath F (F.blocks.length + 1) 0 Memo.empty).bind fun r => .ok r.1.2

/-! ## Test functions of `TestTaskAnalysisTest.cpp` -/

/-- Block made of `k` plain instructions and a terminator with the given successors. -/
def plainBlock (k : Nat) (succs : List Nat) : BasicBlock :=
  ⟨List.replicate k Instruction.other, succs⟩

/-- The function of `McCabeMeasure.SwitchFunction`: entry, case0, case1, case2, default, end. -/
def switchFunction : Function :=
  ⟨[plainBlock 0 [4, 1, 2, 3], plainBlock 0 [], plainBlock 0 [], plainBlock 0 [],
    plainBlock 0 [], plainBlock 0 []]⟩

/-- The function of `InstructionsOnLongestPathCount.TwoPathWithOneEnd`:
entry -> bb1, bb3; bb1 -> bb2; bb2 -> bb3; bb3 holds two adds and `ret`. -/
def twoPathWithOneEnd : Function :=
  ⟨[plainBlock 0 [1, 3], plainBlock 0 [2], plainBlock 0 [3], plainBlock 2 []]⟩

/-- The same blocks with the two targets of the entry's branch exchanged. -/
def twoPathWithOneEndSwapped : Function :=
  ⟨[plainBlock 0 [3, 1], plainBlock 0 [2], plainBlock 0 [3], plainBlock 2 []]⟩

/-! ## Outcomes and memo tables: basic facts -/

/-- Frame order on memo tables: every entry of the first is kept, with its value. -/
def Memo.Keeps {α : Type} (W W' : Memo α) : Prop := ∀ z a, W z = some a → W' z = some a

/-! ## Graph notions -/

/-- Control-flow edge: `v` is a successor of `u`. -/
def Function.Edge (F : Function) (u v : Nat) : Prop := v ∈ F.succs u

instance (F : Function) (u v : Nat) : Decidable (F.Edge u v) := by
  unfold Function.Edge; infer_instance

/-- Reachability along control-flow edges (zero or more edges). -/
def Function.Reach (F : Function) (u v : Nat) : Prop := Relation.ReflTransGen F.Edge u v

/-- A block is reachable when the entry block reaches it. -/
def Function.Reachable (F : Function) (v : Nat) : Prop := F.Reach 0 v

/-- The function has a cycle reachable from the entry. -/
def Function.HasReachableCycle (F : Function) : Prop :=
  ∃ v, F.Reachable v ∧ Relation.TransGen F.Edge v v

/-- No cycle is reachable from the entry. -/
def Function.Acyclic (F : Function) : Prop :=
  ∀ v, F.Reachable v → ¬ Relation.TransGen F.Edge v v

/-! ## Memo states of the McCabe traversal -/

/-- Every stored value is the in-progress marker `-1` or a measure, which is at least `1`. -/
def ValuesOk (W : Memo Int) : Prop := ∀ z a, W z = some a → a = -1 ∨ 1 ≤ a

/-- The traversal is through with a block: it is finalized, or it is a marked sink (the sink
branch returns without overwriting the marker). -/
def Done (F : Function) (W : Memo Int) (z : Nat) : Prop :=
  ∃ a, W z = some a ∧ (a ≠ -1 ∨ F.succs z = [])

/-- What every successful call `basicBlockMcCabeMeasure(x, W)` returning `(v, W')` guarantees. -/
structure BasicPost (F : Function) (x : Nat) (W : Memo Int) (v : Int) (W' : Memo Int) : Prop where
  keeps : W.Keeps W'
  values : ValuesOk W'
  pos : 1 ≤ v
  done : Done F W' x
  called : W x ≠ some (-1)
  marked_sink : ∀ z, W z = none → W' z = some (-1) → F.succs z = []
  final_node : ∀ z a, W z = none → W' z = some a → a ≠ -1 → F.succs z ≠ []
  reach : ∀ z, W z = none → W' z ≠ none → F.Reach x z
  pred : ∀ z, W z = none → W' z ≠ none → z = x ∨ ∃ u, W u = none ∧ W' u ≠ none ∧ z ∈ F.succs u
  fresh_succ : ∀ u a, W u = none → W' u = some a → a ≠ -1 → ∀ s ∈ F.succs u, W s ≠ some (-1)

/-- Loop invariant behind `BasicPost`, for the successor loop of a block `x` entered with `W1`. -/
structure BasicLoop (F : Function) (x : Nat) (W1 : Memo Int) (c0 : Int)
    (pre : List Nat) (c : Int) (W : Memo Int) : Prop where
  keeps : W1.Keeps W
  values : ValuesOk W
  count : c0 + pre.length ≤ c
  done : ∀ s ∈ pre, Done F W s
  called : ∀ s ∈ pre, W1 s ≠ some (-1)
  marked_sink : ∀ z, W1 z = none → W z = some (-1) → F.succs z = []
  final_node : ∀ z a, W1 z = none → W z = some a → a ≠ -1 → F.succs z ≠ []
  reach : ∀ z, W1 z = none → W z ≠ none → ∃ s ∈ pre, F.Reach s z
  pred : ∀ z, W1 z = none → W z ≠ none → z ∈ pre ∨ ∃ u, W1 u = none ∧ W u ≠ none ∧ z ∈ F.succs u
  fresh_succ : ∀ u a, W1 u = none → W u = some a → a ≠ -1 → ∀ s ∈ F.succs u, W1 s ≠ some (-1)

/-! ## The call-depth budget `F.size() + 1` is never exhausted -/

/-- Number of blocks of the function without an entry in the memo table. -/
def unvisited {α : Type} (F : Function) (W : Memo α) : Nat :=
  (List.range F.blocks.length).countP (fun i => (W i).isNone)

/-! ## The reference recursion `M` of the cyclomatic measure -/

/-- Sum of a list of optional integers, defined when every summand is. -/
def sumDefined : List (Option Int) → Option Int
  | [] => some 0
  | none :: _ => none
  | some a :: rest => (sumDefined rest).map (fun t => a + t)

/-- The reference recursion, following the specification: `M(N) = decisionPointCount(N) + 1` for a
block without successors and `M(N) = decisionPointCount(N) + Σ M(S)` over the successor list
otherwise. The first argument bounds the depth of the recursion; `none` means "deeper than that". -/
def refM (F : Function) : Nat → Nat → Option Int
  | 0, _ => none
  | depth + 1, N =>
    if F.succs N = [] then some (((F.block N).selectCount : Int) + 1)
    else (sumDefined ((F.succs N).map (refM F depth))).map
      (fun t => ((F.block N).selectCount : Int) + t)

/-! ## The invariant of successful McCabe runs -/

/-- Invariant of the memo table along a successful run. A block is *finalized* when its entry is
not the marker `-1`. -/
structure Honest (F : Function) (W : Memo Int) : Prop where
  values : ValuesOk W
  final_node : ∀ z a, W z = some a → a ≠ -1 → F.succs z ≠ []
  closed : ∀ z a, W z = some a → a ≠ -1 → ∀ s ∈ F.succs z, Done F W s
  acyclic : ∀ z, Done F W z → ¬ Relation.TransGen F.Edge z z
  measure : ∀ z a, W z = some a → a ≠ -1 → ∃ k, refM F k z = some a
  unshared : ∀ z, F.succs z = [] → ∀ u u' a a', W u = some a → a ≠ -1 → W u' = some a' →
    a' ≠ -1 → z ∈ F.succs u → z ∈ F.succs u' → u = u' ∧ (F.succs u).count z = 1

/-- Loop invariant behind `Honest`, for the successor loop of a block entered with count `c0`. -/
structure HonestLoop (F : Function) (c0 : Int) (pre : List Nat) (c : Int) (W : Memo Int) :
    Prop where
  honest : Honest F W
  sum : ∃ k, sumDefined (pre.map (refM F k)) = some (c - c0)
  sink_once : ∀ z ∈ pre, F.succs z = [] → pre.count z = 1
  sink_fresh : ∀ z ∈ pre, F.succs z = [] → ∀ u a, W u = some a → a ≠ -1 → z ∉ F.succs u

/-! ## When does `McCabeMeasure` return a value? -/

/-- No sink is entered by two reachable edges: the reachable blocks that branch to a sink are a
single block, and the sink occurs once in its successor list. -/
def Function.UnsharedSinks (F : Function) : Prop :=
  ∀ z, F.succs z = [] → ∀ u u', F.Reachable u → F.Reachable u' →
    z ∈ F.succs u → z ∈ F.succs u' → u = u' ∧ (F.succs u).count z = 1

/-- One step of a path on which the traversal would descend: the source has no memo entry. -/
def LiveEdge {α : Type} (F : Function) (W : Memo α) (u v : Nat) : Prop :=
  W u = none ∧ v ∈ F.succs u

/-- No path of blocks without memo entry leads from `x` to a block marked in progress. -/
def NoPoison (F : Function) (W : Memo Int) (x : Nat) : Prop :=
  ∀ z, Relation.ReflTransGen (LiveEdge F W) x z → W z ≠ some (-1)

/-! ## Permuting successor lists -/

/-- The second function is the first with the successor list of each block permuted. -/
def SuccsPermuted (F F' : Function) : Prop :=
  F.blocks.length = F'.blocks.length ∧
    ∀ i < F.blocks.length, (F.block i).instructions = (F'.block i).instructions ∧
      (F.succs i).Perm (F'.succs i)

instance (F F' : Function) : Decidable (SuccsPermuted F F') := by
  unfold SuccsPermuted; infer_instance

/-! ## Tree-shaped control flow -/

/-- The part of the function reachable from the entry is a tree: no reachable cycle, and every
block is the target of at most one edge leaving a reachable block. -/
def Function.TreeLike (F : Function) : Prop :=
  F.Acyclic ∧ ∀ z u u', F.Reachable u → F.Reachable u' → z ∈ F.succs u → z ∈ F.succs u' →
    u = u' ∧ (F.succs u).count z = 1

/-- Contribution of one block to the measure of a tree: its selects, plus one if it is a sink. -/
def weight (F : Function) (z : Nat) : Int :=
  ((F.block z).selectCount : Int) + (if F.succs z = [] then 1 else 0)

/-- Pre-order listing of the unfolding of the control flow below a block, down to a depth. -/
def unfold (F : Function) : Nat → Nat → List Nat
  | 0, _ => []
  | depth + 1, x => x :: (F.succs x).flatMap (unfold F depth)

/-! ## The longest-path traversal: unfolding equations and loop rules -/

/-- What every successful call of the longest-path worker guarantees about the memo table. -/
structure PathPost (F : Function) (x : Nat) (W W' : Memo (Int × Int)) : Prop where
  keeps : W.Keeps W'
  entered : W' x ≠ none
  reach : ∀ z, W z = none → W' z ≠ none → F.Reach x z

/-- Loop invariant behind `PathPost`. -/
structure PathLoop (F : Function) (W1 : Memo (Int × Int)) (pre : List Nat)
    (W : Memo (Int × Int)) : Prop where
  keeps : W1.Keeps W
  reach : ∀ z, W1 z = none → W z ≠ none → ∃ s ∈ pre, F.Reach s z

/-! ## The reference recursion `L` of the longest-path count -/

/-- Lexicographic order on `(pathDepth, totalInstructions)`: depth first, then instructions. -/
def lexLe (a b : Int × Int) : Prop := a.1 < b.1 ∨ (a.1 = b.1 ∧ a.2 ≤ b.2)

instance (a b : Int × Int) : Decidable (lexLe a b) := by
  unfold lexLe; infer_instance

/-- The lexicographically greatest pair of a list (`none` for the empty list). -/
def lexGreatest : List (Int × Int) → Option (Int × Int)
  | [] => none
  | p :: ps =>
    match lexGreatest ps with
    | none => some p
    | some q => if lexLe p q then some q else some p

/-- All values of a list of optional values, when every one is defined. -/
def collect {α : Type} : List (Option α) → Option (List α)
  | [] => some []
  | none :: _ => none
  | some a :: rest => (collect rest).map (fun l => a :: l)

/-- The reference recursion, following the specification: `L(N) = (1, instructionCount(N))` for a
block without successors, otherwise `L(N) = (d + 1, t + instructionCount(N))` with `(d, t)` the
lexicographically greatest `L(S)` over the successors. The first argument bounds the depth of the
recursion; `none` means "deeper than that". -/
def refL (F : Function) : Nat → Nat → Option (Int × Int)
  | 0, _ => none
  | depth + 1, N =>
    if F.succs N = [] then some (1, ((F.block N).sizeWithoutDebug : Int))
    else ((collect ((F.succs N).map (refL F depth))).bind lexGreatest).map
      (fun p => (p.1 + 1, p.2 + ((F.block N).sizeWithoutDebug : Int)))

/-- A pair is the greatest of a list: it belongs to it and dominates every member. -/
def IsLexGreatest (l : List (Int × Int)) (m : Int × Int) : Prop :=
  m ∈ l ∧ ∀ q ∈ l, lexLe q m

/-! ## Paths from a block to a sink -/

/-- The list is a path along control-flow edges that starts at the block and ends in a sink. -/
def IsSinkPath (F : Function) : Nat → List Nat → Prop
  | _, [] => False
  | x, y :: P =>
    y = x ∧
      match P with
      | [] => F.succs x = []
      | z :: _ => z ∈ F.succs x ∧ IsSinkPath F z P

/-- Total instruction count of the blocks along a path. -/
def pathInstructions (F : Function) (P : List Nat) : Int :=
  (P.map (fun z => ((F.block z).sizeWithoutDebug : Int))).sum

/-! ## The longest-path traversal on acyclic functions: the assertion never fails -/

/-- Every stored pair is the in-progress marker `(-1, -1)` or has a non-negative second
component. -/
def PairsOk (W : Memo (Int × Int)) : Prop := ∀ z p, W z = some p → p = (-1, -1) ∨ 0 ≤ p.2

/-- Facts about the values of a successful call of the longest-path worker. -/
structure PathFinal (W : Memo (Int × Int)) (p : Int × Int) (W' : Memo (Int × Int)) : Prop where
  values : PairsOk W'
  ret : 0 ≤ p.2
  fresh : ∀ z q, W z = none → W' z = some q → 0 ≤ q.2

/-- No path of blocks without memo entry leads from `x` to a block marked in progress. -/
def NoPoisonPath (F : Function) (W : Memo (Int × Int)) (x : Nat) : Prop :=
  ∀ z, Relation.ReflTransGen (LiveEdge F W) x z → ∀ p, W z = some p → p.2 ≠ -1

/-! ## Chains of blocks -/

/-- The list is a chain: each block has the next one as its only successor and the last block is
a sink. -/
def IsChain (F : Function) : List Nat → Prop
  | [] => False
  | a :: rest =>
    match rest with
    | [] => F.succs a = []
    | b :: _ => F.succs a = [b] ∧ IsChain F rest

instance IsChain.decidable (F : Function) : ∀ c, Decidable (IsChain F c)
  | [] => isFalse (fun h => h)
  | [a] => inferInstanceAs (Decidable (F.succs a = []))
  | a :: b :: rest =>
    have := IsChain.decidable F (b :: rest)
    inferInstanceAs (Decidable (F.succs a = [b] ∧ IsChain F (b :: rest)))

/-! ## Instrumented traversals: counting calls and expansions -/

/-- Bookkeeping added to a run: the number of calls of the worker made so far, and the blocks the
worker has expanded so far (inserted into the memo table, to descend into their successors), most
recent first. -/
structure Ghost where
  calls : Nat
  expanded : List Nat
deriving DecidableEq, Repr

/-- The successor loop of either worker with bookkeeping: `upd` is the update of the running
value (`Counter += ...` or the replacement of `LongestSuccessor`). The state at a failure is the
state in which the run stops. -/
def foldSuccessorsT {α : Type} (upd : α → α → α)
    (call : Nat → Memo α → Ghost → Outcome α × Memo α × Ghost) :
    List Nat → α → Memo α → Ghost → Outcome α × Memo α × Ghost
  | [], acc, Was, g => (.ok acc, Was, g)
  | Successor :: rest, acc, Was, g =>
    match call Successor Was g with
    | (.ok v, Was', g') => foldSuccessorsT upd call rest (upd acc v) Was' g'
    | (.assertFailed, Was', g') => (.assertFailed, Was', g')
    | (.outOfFuel, Was', g') => (.outOfFuel, Was', g')

/-- The worker `basicBlockMcCabeMeasure` with bookkeeping. -/
def basicBlockMcCabeMeasureT (F : Function) :
    Nat → Nat → Memo Int → Ghost → Outcome Int × Memo Int × Ghost
  | 0, _, Was, g => (.outOfFuel, Was, g)
  | fuel + 1, BB, Was, g =>
    match Was.find BB with
    | some PrevMeasure =>
      (if PrevMeasure ≠ -1 then .ok PrevMeasure else .assertFailed, Was, ⟨g.calls + 1, g.expanded⟩)
    | none =>
      let Was1 := Was.insert BB (-1)
      let g1 : Ghost := ⟨g.calls + 1, BB :: g.expanded⟩
      let Counter : Int := (F.block BB).selectCount
      if (F.succs BB).length = 0 then (.ok (Counter + 1), Was1, g1)
      else
        match foldSuccessorsT (fun c v => c + v) (basicBlockMcCabeMeasureT F fuel) (F.succs BB)
            Counter Was1 g1 with
        | (.ok c, Was2, g2) => (.ok c, Was2.assign BB c, g2)
        | (.assertFailed, Was2, g2) => (.assertFailed, Was2, g2)
        | (.outOfFuel, Was2, g2) => (.outOfFuel, Was2, g2)

/-- The worker `instructionsOnLongestPath` with bookkeeping. -/
def instructionsOnLongestPathT (F : Function) :
    Nat → Nat → Memo (Int × Int) → Ghost → Outcome (Int × Int) × Memo (Int × Int) × Ghost
  | 0, _, Was, g => (.outOfFuel, Was, g)
  | fuel + 1, BB, Was, g =>
    match Was.find BB with
    | some PrevMeasure =>
      (if PrevMeasure.2 ≠ -1 then .ok PrevMeasure else .assertFailed, Was,
        ⟨g.calls + 1, g.expanded⟩)
    | none =>
      let Was1 := Was.insert BB (-1, -1)
      let g1 : Ghost := ⟨g.calls + 1, BB :: g.expanded⟩
      match foldSuccessorsT (fun m p => if pairLe m p then p else m)
          (instructionsOnLongestPathT F fuel) (F.succs BB) (0, 0) Was1 g1 with
      | (.ok m, Was2, g2) =>
        (.ok (m.1 + 1, m.2 + ((F.block BB).sizeWithoutDebug : Int)), Was2.assign BB m, g2)
      | (.assertFailed, Was2, g2) => (.assertFailed, Was2, g2)
      | (.outOfFuel, Was2, g2) => (.outOfFuel, Was2, g2)

/-- Forgetting the bookkeeping of an instrumented result. -/
def untrace {α : Type} (r : Outcome α × Memo α × Ghost) : Outcome (α × Memo α) :=
  match r with
  | (.ok v, W, _) => .ok (v, W)
  | (.assertFailed, _, _) => .assertFailed
  | (.outOfFuel, _, _) => .outOfFuel

/-- Number of control-flow edges: the successor counts of all blocks added up. -/
def edgeCount (F : Function) : Nat :=
  ((List.range F.blocks.length).map (fun z => (F.succs z).length)).sum

/-- Effect of a piece of an instrumented run on the memo table and the bookkeeping: entries stay,
the blocks newly expanded are distinct blocks of the function that had no entry before and have
one now, and at most `k` calls are made besides one call per successor of a newly expanded block. -/
structure Step {α : Type} (F : Function) (k : Nat) (W : Memo α) (g : Ghost) (W' : Memo α)
    (g' : Ghost) : Prop where
  dom : ∀ z, W z ≠ none → W' z ≠ none
  grow : ∃ new, g'.expanded = new ++ g.expanded ∧ new.Nodup ∧
    (∀ z ∈ new, W z = none ∧ W' z ≠ none ∧ z < F.blocks.length) ∧
    g'.calls ≤ g.calls + k + (new.map (fun z => (F.succs z).length)).sum

/-- The instrumented McCabe run of the entry point. -/
def McCabeMeasureT (F : Function) : Outcome Int × Memo Int × Ghost :=
  basicBlockMcCabeMeasureT F (F.blocks.length + 1) 0 Memo.empty ⟨0, []⟩

/-- The instrumented longest-path run of the entry point. -/
def countInstructionsOnLongestPathT (F : Function) :
    Outcome (Int × Int) × Memo (Int × Int) × Ghost :=
  instructionsOnLongestPathT F (F.blocks.length + 1) 0 Memo.empty ⟨0, []⟩

/-! ## Further test functions -/

/-- Block made of `k` selects and a terminator with the given successors. -/
def selectBlock (k : Nat) (succs : List Nat) : BasicBlock :=
  ⟨List.replicate k Instruction.select, succs⟩

/-- An if/else whose two branches jump to one common return block:
entry -> a, b; a -> ret; b -> ret. -/
def diamondFunction : Function :=
  ⟨[plainBlock 0 [1, 2], plainBlock 0 [3], plainBlock 0 [3], plainBlock 0 []]⟩

/-- The function of `InstructionsOnLongestPathCount.SmallerPathBiggerInstructions`:
entry -> bb1, bb3; bb1 -> bb2; bb2 is `ret`; bb3 holds two adds and `ret`. -/
def smallerPathBiggerInstructions : Function :=
  ⟨[plainBlock 0 [1, 3], plainBlock 0 [2], plainBlock 0 [], plainBlock 2 []]⟩

/-- A loop: entry -> header; header -> body, exit; body -> header; exit is `ret`. -/
def loopFunction : Function :=
  ⟨[plainBlock 0 [1], plainBlock 0 [2, 3], plainBlock 0 [1], plainBlock 0 []]⟩

/-- A conditional branch with both targets the same block, which jumps to a return block that
holds one select: entry -> mid, mid; mid -> ret. -/
def repeatedTarget : Function :=
  ⟨[plainBlock 0 [1, 1], plainBlock 0 [2], selectBlock 1 []]⟩

/-- A chain of three blocks holding two selects, none and one select. -/
def selectChain : Function :=
  ⟨[selectBlock 2 [1], plainBlock 1 [2], selectBlock 1 []]⟩

/-- The function `switchFunction` with the case targets listed in another order. -/
def switchFunctionPermuted : Function :=
  ⟨[plainBlock 0 [1, 2, 3, 4], plainBlock 0 [], plainBlock 0 [], plainBlock 0 [],
    plainBlock 0 [], plainBlock 0 []]⟩

/-! ## Decidable sufficient conditions for the graph notions -/

/-- Every edge goes from a block to a block later in the layout. -/
def Function.Forward (F : Function) : Prop :=
  ∀ u < F.blocks.length, ∀ v ∈ F.succs u, u < v

instance (F : Function) : Decidable F.Forward := by
  unfold Function.Forward; infer_instance

/-- Every block is the target of at most one edge of the function. -/
def Function.UniqueEntries (F : Function) : Prop :=
  ∀ u < F.blocks.length, ∀ u' < F.blocks.length, ∀ z ∈ F.succs u, z ∈ F.succs u' →
    u = u' ∧ (F.succs u).count z = 1

instance (F : Function) : Decidable F.UniqueEntries := by
  unfold Function.UniqueEntries; infer_instance

/-- The list holds the entry, is closed under successors, and every other member has a
predecessor in the list that comes earlier in the layout. -/
def Function.Enumerates (F : Function) (R : List Nat) : Prop :=
  0 ∈ R ∧ (∀ u ∈ R, ∀ v ∈ F.succs u, v ∈ R) ∧
    ∀ z ∈ R, z = 0 ∨ ∃ u ∈ R, u < z ∧ z ∈ F.succs u

instance (F : Function) (R : List Nat) : Decidable (F.Enumerates R) := by
  unfold Function.Enumerates; infer_instance

instance IsSinkPath.decidable (F : Function) : ∀ x P, Decidable (IsSinkPath F x P)
  | _, [] => isFalse (fun h => h)
  | x, [y] => inferInstanceAs (Decidable (y = x ∧ F.succs x = []))
  | x, y :: z :: rest =>
    have := IsSinkPath.decidable F z (z :: rest)
    inferInstanceAs (Decidable (y = x ∧ z ∈ F.succs x ∧ IsSinkPath F z (z :: rest)))

/-- The greatest instruction total over the paths from the entry to a sink. -/
def IsMaxPathTotal (F : Function) (v : Int) : Prop :=
  (∃ P, IsSinkPath F 0 P ∧ pathInstructions F P = v) ∧
    ∀ Q, IsSinkPath F 0 Q → pathInstructions F Q ≤ v

/-! ## The invariant of successful longest-path runs -/

/-- The longest-path traversal is through with a block: its entry is not the marker. -/
def DonePath (W : Memo (Int × Int)) (z : Nat) : Prop := ∃ p, W z = some p ∧ p.2 ≠ -1

/-- Invariant of the memo table along a successful longest-path run: finalized blocks are closed
under successors, lie on no cycle, and the instruction total stored for a block is at most the
instruction total of a path from the block to a sink. -/
structure PathHonest (F : Function) (W : Memo (Int × Int)) : Prop where
  values : PairsOk W
  closed : ∀ z p, W z = some p → p.2 ≠ -1 → ∀ s ∈ F.succs z, DonePath W s
  acyclic : ∀ z, DonePath W z → ¬ Relation.TransGen F.Edge z z
  bound : ∀ z p, W z = some p → p.2 ≠ -1 →
    ∃ P, IsSinkPath F z P ∧ p.2 ≤ pathInstructions F P

/-- What a successful call of the longest-path worker at `x` returning `p` guarantees. -/
structure PathResult (F : Function) (x : Nat) (W : Memo (Int × Int)) (p : Int × Int)
    (W' : Memo (Int × Int)) : Prop where
  honest : PathHonest F W'
  done : DonePath W' x
  nonneg : 0 ≤ p.2
  upper : ∃ P, IsSinkPath F x P ∧ p.2 ≤ pathInstructions F P
  lower : W x = none → ((F.block x).sizeWithoutDebug : Int) ≤ p.2

/-- Loop invariant behind `PathResult`. -/
structure PathHonestLoop (F : Function) (W1 : Memo (Int × Int)) (pre : List Nat)
    (m : Int × Int) (W : Memo (Int × Int)) : Prop where
  honest : PathHonest F W
  keeps : W1.Keeps W
  done : ∀ s ∈ pre, DonePath W s
  nonneg : 0 ≤ m.2
  upper : (pre = [] ∧ m = (0, 0)) ∨
    ∃ s ∈ pre, ∃ P, IsSinkPath F s P ∧ m.2 ≤ pathInstructions F P

/-! ## `countBasicBlock` and `countIRInstructions` -/

/-- Modelled from the spec: `Function::size()` of the IR library, which is not among the sources
of the analysis; the specification has "returns the number of nodes in the graph". -/
def Function.size (F : Function) : Nat := F.blocks.length

/-- Modelled from the spec: `Function::getInstructionCount()` of the IR library, which is not
among the sources of the analysis; the specification has "returns the sum of `instructionCount`
over all nodes", the instruction count of a node being its "instructions excluding debug-only
pseudo-instructions". -/
def Function.getInstructionCount (F : Function) : Nat :=
  (F.blocks.map BasicBlock.sizeWithoutDebug).sum

/-- The entry point `countBasicBlock`: `return F.size()`. -/
def countBasicBlock (F : Function) : Int := F.size

/-- The entry point `countIRInstructions`: `return F.getInstructionCount()`. -/
def countIRInstructions (F : Function) : Int := F.getInstructionCount

/-! ## Counting paths -/

/-- Following a path: a path is given by the successor positions taken block after block, so
parallel edges give distinct paths. The result is the block the path ends in, if every position
exists. -/
def walk (F : Function) : Nat → List Nat → Option Nat
  | x, [] => some x
  | x, i :: P =>
    match (F.succs x)[i]? with
    | some s => walk F s P
    | none => none

/-- The paths through the successors `l`, numbered from position `off`, continued by the paths
`sub s` below each successor `s`. -/
def branchPaths (sub : Nat → List (List Nat)) : Nat → List Nat → List (List Nat)
  | _, [] => []
  | off, s :: rest => (sub s).map (fun P => off :: P) ++ branchPaths sub (off + 1) rest

/-- All paths that start at a block, down to a depth. -/
def unfoldPaths (F : Function) : Nat → Nat → List (List Nat)
  | 0, _ => []
  | depth + 1, x => [] :: branchPaths (unfoldPaths F depth) 0 (F.succs x)

/-- Number of the listed paths from the entry that end in the block `N`. -/
def pathsTo (F : Function) (paths : List (List Nat)) (N : Nat) : Nat :=
  paths.countP (fun P => walk F 0 P == some N)

/-- The path from the entry ends in a sink. -/
def endsInSink (F : Function) (P : List Nat) : Bool :=
  match walk F 0 P with
  | some N => decide (F.succs N = [])
  | none => false

/-- Number of the listed paths from the entry that end in a sink. -/
def pathsToSink (F : Function) (paths : List (List Nat)) : Nat :=
  paths.countP (endsInSink F)

/-! ## The loop-depth score -/

/-- Loop of the loop forest: it is given by the list of its sub-loops, in iteration order. -/
inductive Loop where
  | mk (subLoops : List Loop)

/-- The two accumulators threaded through `loopGeomeanDepth`. The `double` accumulator is
embedded as an exact rational: every value the traversal computes is a natural number. -/
structure GeomeanState where
  CountLoops : Int
  Accum : ℚ
deriving DecidableEq

mutual
/-- The function `loopGeomeanDepth`: it descends into every sub-loop at `Depth + 1`, and for a
loop without sub-loops multiplies `Accum` by `Depth` and increments `CountLoops`. -/
def loopGeomeanDepth : Loop → ℚ → GeomeanState → GeomeanState
  | .mk subLoops, Depth, st =>
    let r := loopGeomeanDepthSubLoops subLoops (Depth + 1) false st
    if !r.1 then ⟨r.2.CountLoops + 1, r.2.Accum * Depth⟩ else r.2
/-- The `for (Loop const *I : *L)` loop of `loopGeomeanDepth`, threading `HasSubLoops`. -/
def loopGeomeanDepthSubLoops : List Loop → ℚ → Bool → GeomeanState → Bool × GeomeanState
  | [], _, HasSubLoops, st => (HasSubLoops, st)
  | I :: rest, Depth, _, st =>
    loopGeomeanDepthSubLoops rest Depth true (loopGeomeanDepth I Depth st)
end

/-- The traversal of `geomean`: `loopGeomeanDepth(I, 1, CountLoops, Accum)` for every top-level
loop `I`, from `Accum = 1` and `CountLoops = 0`. -/
def geomeanTraversal (LI : List Loop) : GeomeanState :=
  LI.foldl (fun st I => loopGeomeanDepth I 1 st) ⟨0, 1⟩

/-- The function `geomean` on the loop forest of the function (the top-level loops, as `LoopInfo`
lists them). The library function `pow` is a parameter: it receives `Accum` and the quotient
`1.0 / CountLoops`. -/
def geomean {R : Type} [Zero R] (pow : ℚ → ℚ → R) (LI : List Loop) : R :=
  if LI.length = 0 then 0
  else
    let st := geomeanTraversal LI
    if st.CountLoops = 0 then 0
    else pow st.Accum (1 / (st.CountLoops : ℚ))

mutual
/-- Nesting depths of the leaf loops (loops without sub-loops) inside a loop of nesting depth
`d`: each level of sub-loops adds one. -/
def leafDepths : Nat → Loop → List Nat
  | d, .mk subLoops => if subLoops.isEmpty then [d] else leafDepthsOfList (d + 1) subLoops
/-- Nesting depths of the leaf loops inside the loops of a list, all of nesting depth `d`. -/
def leafDepthsOfList : Nat → List Loop → List Nat
  | _, [] => []
  | d, I :: rest => leafDepths d I ++ leafDepthsOfList d rest
end

/-- Nesting depths of the leaf loops of a forest: top-level loops have depth `1`. -/
def forestLeafDepths (LI : List Loop) : List Nat := leafDepthsOfList 1 LI

/-- A chain of nested loops: `nestedLoops n` is a loop with `n` levels of sub-loops inside. -/
def nestedLoops : Nat → Loop
  | 0 => .mk []
  | n + 1 => .mk [nestedLoops n]

/-- Product of a list of depths, as a rational. -/
def depthProduct (ds : List Nat) : ℚ := (ds.map (fun d => (d : ℚ))).prod

/-! ## Further test functions -/

/-- The function of `BasicBlockCount.SingleBB` and `InstructionsCount.SingleInstruction`: one
block holding `ret void`. -/
def singleBB : Function :=
  ⟨[plainBlock 0 []]⟩

/-- The function of `BasicBlockCount.TwoSequentiallyBB`: entry -> bb1; bb1 is `ret`. -/
def twoSequentiallyBB : Function :=
  ⟨[plainBlock 0 [1], plainBlock 0 []]⟩

/-- The function of `BasicBlockCount.FreeBBWithIf`: entry -> bb1, bb2; both are `ret`. -/
def freeBBWithIf : Function :=
  ⟨[plainBlock 0 [1, 2], plainBlock 0 [], plainBlock 0 []]⟩

/-- The function of `InstructionsCount.FewInstructionInOneBlock`: two adds and `ret`. -/
def fewInstructionInOneBlock : Function :=
  ⟨[plainBlock 2 []]⟩

/-- The function of `InstructionsCount.FewInstructionsInFewBlocks`: entry holds a compare and a
branch to bb1, bb2; each of them holds an add and `ret`. -/
def fewInstructionsInFewBlocks : Function :=
  ⟨[plainBlock 1 [1, 2], plainBlock 1 [], plainBlock 1 []]⟩

/-- A single block followed by a block that no edge enters. -/
def withUnreachableBlock : Function :=
  ⟨[plainBlock 0 [], plainBlock 2 []]⟩

/-- A conditional branch with both targets the same return block. -/
def sharedSinkBranch : Function :=
  ⟨[plainBlock 0 [1, 1], plainBlock 0 []]⟩

/-- An if/else behind a select, whose branches join in a block that holds a select and jumps to
the return block: entry -> a, b; a -> join; b -> join; join -> ret. -/
def joinedSelects : Function :=
  ⟨[selectBlock 1 [1, 2], plainBlock 0 [3], plainBlock 0 [3], selectBlock 1 [4],
    plainBlock 0 []]⟩

/-- Function of `n` blocks that each hold only a terminator, with the given successor lists. -/
def terminatorsOnly (succs : List (List Nat)) : Function :=
  ⟨succs.map (fun s => ⟨[], s⟩)⟩

/-! ## Outcomes and memo tables: basic facts -/

theorem Outcome.bind_eq_ok {α β : Type} {x : Outcome α} {f : α → Outcome β} {b : β} :
    x.bind f = .ok b ↔ ∃ a, x = .ok a ∧ f a = .ok b := by
  cases x <;> simp [Outcome.bind]

theorem Outcome.bind_eq_assertFailed {α β : Type} {x : Outcome α} {f : α → Outcome β} :
    x.bind f = .assertFailed ↔ x = .assertFailed ∨ ∃ a, x = .ok a ∧ f a = .assertFailed := by
  cases x <;> simp [Outcome.bind]

theorem Outcome.bind_eq_outOfFuel {α β : Type} {x : Outcome α} {f : α → Outcome β} :
    x.bind f = .outOfFuel ↔ x = .outOfFuel ∨ ∃ a, x = .ok a ∧ f a = .outOfFuel := by
  cases x <;> simp [Outcome.bind]

theorem Memo.insert_eq_assign {α : Type} {m : Memo α} {k : Nat} (v : α) (h : m k = none) :
    m.insert k v = m.assign k v := by
  funext x
  simp [Memo.insert, Memo.assign, h]

theorem Memo.assign_self {α : Type} (m : Memo α) (k : Nat) (v : α) : m.assign k v k = some v := by
  simp [Memo.assign]

theorem Memo.assign_other {α : Type} (m : Memo α) {k z : Nat} (v : α) (h : z ≠ k) :
    m.assign k v z = m z := by
  simp [Memo.assign, h]

theorem Memo.keeps_refl {α : Type} (W : Memo α) : W.Keeps W := fun _ _ h => h

theorem Memo.keeps_trans {α : Type} {W1 W2 W3 : Memo α} (h12 : W1.Keeps W2) (h23 : W2.Keeps W3) :
    W1.Keeps W3 := fun z a h => h23 z a (h12 z a h)

theorem Memo.Keeps.none_of_none {α : Type} {W W' : Memo α} (h : W.Keeps W') {z : Nat}
    (hz : W' z = none) : W z = none := by
  cases hw : W z with
  | none => rfl
  | some a => rw [h z a hw] at hz; cases hz

theorem Memo.keeps_assign {α : Type} {W : Memo α} {k : Nat} (v : α) (h : W k = none) :
    W.Keeps (W.assign k v) := by
  intro z a hz
  have : z ≠ k := by rintro rfl; rw [h] at hz; cases hz
  rw [Memo.assign_other _ _ this]; exact hz

/-! ## Unfolding equations of the McCabe worker -/

theorem basicBlockMcCabeMeasure_hit (F : Function) (fuel BB : Nat) (Was : Memo Int) (v : Int)
    (h : Was BB = some v) :
    basicBlockMcCabeMeasure F (fuel + 1) BB Was
      = if v ≠ -1 then .ok (v, Was) else .assertFailed := by
  simp [basicBlockMcCabeMeasure, Memo.find, h]

theorem basicBlockMcCabeMeasure_sink (F : Function) (fuel BB : Nat) (Was : Memo Int)
    (h : Was BB = none) (hs : F.succs BB = []) :
    basicBlockMcCabeMeasure F (fuel + 1) BB Was
      = .ok (((F.block BB).selectCount : Int) + 1, Was.assign BB (-1)) := by
  simp [basicBlockMcCabeMeasure, Memo.find, h, hs, Memo.insert_eq_assign _ h]

theorem basicBlockMcCabeMeasure_node (F : Function) (fuel BB : Nat) (Was : Memo Int)
    (h : Was BB = none) (hs : F.succs BB ≠ []) :
    basicBlockMcCabeMeasure F (fuel + 1) BB Was
      = (sumSuccessors (basicBlockMcCabeMeasure F fuel) (F.succs BB)
            ((F.block BB).selectCount : Int) (Was.assign BB (-1))).bind
          fun r => .ok (r.1, r.2.assign BB r.1) := by
  simp [basicBlockMcCabeMeasure, Memo.find, h, hs, Memo.insert_eq_assign _ h]

/-! ## Hoare-style rules for the successor loop -/

/-- Invariant rule: an invariant that holds before the loop and is carried over every successful
call holds when the loop ends successfully. The invariant sees the successors already visited. -/
theorem sumSuccessors_ok_inv {call : Nat → Memo Int → Outcome (Int × Memo Int)}
    (Inv : List Nat → Int → Memo Int → Prop) (l : List Nat) :
    ∀ (rest done : List Nat) (c : Int) (W : Memo Int) (r : Int × Memo Int),
      l = done ++ rest → Inv done c W →
      (∀ pre s post c W v W', l = pre ++ s :: post → Inv pre c W → call s W = .ok (v, W') →
          Inv (pre ++ [s]) (c + v) W') →
      sumSuccessors call rest c W = .ok r → Inv l r.1 r.2 := by
  intro rest
  induction rest with
  | nil =>
    intro done c W r hl h0 _ hrun
    simp [sumSuccessors] at hrun
    subst hrun
    simpa [hl] using h0
  | cons s rest ih =>
    intro done c W r hl h0 hstep hrun
    simp only [sumSuccessors, Outcome.bind_eq_ok] at hrun
    obtain ⟨⟨v, W'⟩, hcall, hrest⟩ := hrun
    exact ih (done ++ [s]) (c + v) W' r (by simp [hl]) (hstep done s rest c W v W' hl h0 hcall)
      hstep hrest

/-- Progress rule: if under the invariant no call ends in the outcome `e` (a failure), the loop does
not end in `e` either. -/
theorem sumSuccessors_ne {call : Nat → Memo Int → Outcome (Int × Memo Int)}
    (e : Outcome (Int × Memo Int)) (he : ∀ r, e ≠ .ok r)
    (Inv : List Nat → Int → Memo Int → Prop) (l : List Nat) :
    ∀ (rest done : List Nat) (c : Int) (W : Memo Int),
      l = done ++ rest → Inv done c W →
      (∀ pre s post c W, l = pre ++ s :: post → Inv pre c W →
          call s W ≠ e ∧ ∀ v W', call s W = .ok (v, W') → Inv (pre ++ [s]) (c + v) W') →
      sumSuccessors call rest c W ≠ e := by
  intro rest
  induction rest with
  | nil =>
    intro done c W _ _ _ hrun
    simp [sumSuccessors] at hrun
    exact he _ hrun.symm
  | cons s rest ih =>
    intro done c W hl h0 hstep hrun
    obtain ⟨hne, hok⟩ := hstep done s rest c W hl h0
    simp only [sumSuccessors] at hrun
    cases hc : call s W with
    | ok r =>
      obtain ⟨v, W'⟩ := r
      rw [hc] at hrun
      simp only [Outcome.bind] at hrun
      exact ih (done ++ [s]) (c + v) W' (by simp [hl]) (hok v W' hc) hstep hrun
    | assertFailed =>
      rw [hc] at hrun
      simp only [Outcome.bind] at hrun
      exact hne (hc.trans hrun)
    | outOfFuel =>
      rw [hc] at hrun
      simp only [Outcome.bind] at hrun
      exact hne (hc.trans hrun)

/-! ## Graph notions -/

theorem Function.reach_refl (F : Function) (u : Nat) : F.Reach u u := Relation.ReflTransGen.refl

theorem Function.Reach.tail {F : Function} {u v w : Nat} (h : F.Reach u v) (e : w ∈ F.succs v) :
    F.Reach u w := Relation.ReflTransGen.tail h e

theorem Function.Reach.head {F : Function} {u v w : Nat} (e : v ∈ F.succs u) (h : F.Reach v w) :
    F.Reach u w := Relation.ReflTransGen.head e h

theorem Function.reach_trans {F : Function} {u v w : Nat} (h : F.Reach u v) (h' : F.Reach v w) :
    F.Reach u w := Relation.ReflTransGen.trans h h'

theorem Function.block_of_ge (F : Function) {BB : Nat} (h : F.blocks.length ≤ BB) :
    F.block BB = ⟨[], []⟩ := by
  simp [Function.block, List.getD, List.getElem?_eq_none h]

theorem Function.succs_of_ge (F : Function) {BB : Nat} (h : F.blocks.length ≤ BB) :
    F.succs BB = [] := by
  simp [Function.succs, F.block_of_ge h]

theorem Function.block_mem (F : Function) {BB : Nat} (h : BB < F.blocks.length) :
    F.block BB ∈ F.blocks := by
  simp [Function.block, List.getD, List.getElem?_eq_getElem h]

theorem Function.WellFormed.succ_lt {F : Function} (wf : F.WellFormed) {u v : Nat}
    (e : v ∈ F.succs u) : v < F.blocks.length := by
  by_cases hu : u < F.blocks.length
  · exact wf.2 _ (F.block_mem hu) v e
  · rw [F.succs_of_ge (Nat.le_of_not_lt hu)] at e; cases e

theorem Function.WellFormed.reach_lt {F : Function} (wf : F.WellFormed) {u v : Nat}
    (hu : u < F.blocks.length) (h : F.Reach u v) : v < F.blocks.length := by
  induction h with
  | refl => exact hu
  | tail _ e _ => exact wf.succ_lt e

theorem Function.WellFormed.reachable_lt {F : Function} (wf : F.WellFormed) {v : Nat}
    (h : F.Reachable v) : v < F.blocks.length := wf.reach_lt wf.1 h

/-! ## Memo states of the McCabe traversal -/

theorem Done.keeps {F : Function} {W W' : Memo Int} {z : Nat} (h : Done F W z)
    (hk : W.Keeps W') : Done F W' z := by
  obtain ⟨a, ha, hd⟩ := h
  exact ⟨a, hk z a ha, hd⟩

theorem basicLoop_init (F : Function) (x : Nat) (W1 : Memo Int) (c0 : Int) (h : ValuesOk W1) :
    BasicLoop F x W1 c0 [] c0 W1 where
  keeps := Memo.keeps_refl _
  values := h
  count := by simp
  done := by simp
  called := by simp
  marked_sink := fun z hz hz' => by rw [hz] at hz'; cases hz'
  final_node := fun z a hz hz' => by rw [hz] at hz'; cases hz'
  reach := fun z hz hz' => absurd hz hz'
  pred := fun z hz hz' => absurd hz hz'
  fresh_succ := fun u a hu hu' => by rw [hu] at hu'; cases hu'

theorem basicLoop_step {F : Function} {x : Nat} {W1 : Memo Int} {c0 : Int} {pre : List Nat}
    {c : Int} {W : Memo Int} (inv : BasicLoop F x W1 c0 pre c W) {s : Nat} {v : Int}
    {W' : Memo Int} (post : BasicPost F s W v W') :
    BasicLoop F x W1 c0 (pre ++ [s]) (c + v) W' where
  keeps := Memo.keeps_trans inv.keeps post.keeps
  values := post.values
  count := by
    have h1 := inv.count
    have h2 := post.pos
    simp only [List.length_append, List.length_singleton, Nat.cast_add, Nat.cast_one]
    omega
  done := by
    intro t ht
    rcases List.mem_append.1 ht with h | h
    · exact (inv.done t h).keeps post.keeps
    · simp at h; subst h; exact post.done
  called := by
    intro t ht
    rcases List.mem_append.1 ht with h | h
    · exact inv.called t h
    · simp at h; subst h
      intro h1
      exact post.called (inv.keeps _ _ h1)
  marked_sink := by
    intro z hz hz'
    cases hw : W z with
    | none => exact post.marked_sink z hw hz'
    | some a =>
      have := post.keeps z a hw
      rw [this] at hz'
      cases hz'
      exact inv.marked_sink z hz hw
  final_node := by
    intro z a hz hz' ha
    cases hw : W z with
    | none => exact post.final_node z a hw hz' ha
    | some b =>
      have hab : b = a := by
        rw [post.keeps z b hw] at hz'
        exact Option.some.inj hz'
      subst hab
      exact inv.final_node z b hz hw ha
  reach := by
    intro z hz hz'
    cases hw : W z with
    | none => exact ⟨s, by simp, post.reach z hw hz'⟩
    | some b =>
      obtain ⟨t, ht, hr⟩ := inv.reach z hz (by rw [hw]; simp)
      exact ⟨t, by simp [ht], hr⟩
  pred := by
    intro z hz hz'
    cases hw : W z with
    | none =>
      rcases post.pred z hw hz' with h | ⟨u, hu, hu', hzu⟩
      · left; simp [h]
      · right; exact ⟨u, inv.keeps.none_of_none hu, hu', hzu⟩
    | some b =>
      rcases inv.pred z hz (by rw [hw]; simp) with h | ⟨u, hu, hu', hzu⟩
      · left; simp [h]
      · right
        refine ⟨u, hu, ?_, hzu⟩
        cases hwu : W u with
        | none => exact absurd hwu hu'
        | some d => rw [post.keeps u d hwu]; simp
  fresh_succ := by
    intro u a hu hu' ha t ht
    cases hw : W u with
    | none =>
      intro h1
      exact post.fresh_succ u a hw hu' ha t ht (inv.keeps _ _ h1)
    | some b =>
      have hab : b = a := by
        rw [post.keeps u b hw] at hu'
        exact Option.some.inj hu'
      subst hab
      exact inv.fresh_succ u b hu hw ha t ht

theorem valuesOk_assign {W : Memo Int} (h : ValuesOk W) (k : Nat) {v : Int}
    (hv : v = -1 ∨ 1 ≤ v) : ValuesOk (W.assign k v) := by
  intro z a hz
  by_cases hzk : z = k
  · subst hzk
    rw [Memo.assign_self] at hz
    cases hz
    exact hv
  · rw [Memo.assign_other _ _ hzk] at hz
    exact h z a hz

theorem valuesOk_empty : ValuesOk Memo.empty := by
  intro z a h
  simp [Memo.empty] at h

theorem BasicPost.of_hit {F : Function} {x : Nat} {W : Memo Int} {a : Int} (hW : ValuesOk W)
    (h : W x = some a) (ha : a ≠ -1) : BasicPost F x W a W where
  keeps := Memo.keeps_refl _
  values := hW
  pos := by
    rcases hW x a h with h1 | h1
    · exact absurd h1 ha
    · exact h1
  done := ⟨a, h, Or.inl ha⟩
  called := by
    rw [h]
    intro h1
    exact ha (Option.some.inj h1)
  marked_sink := fun z hz hz' => by rw [hz] at hz'; cases hz'
  final_node := fun z a hz hz' => by rw [hz] at hz'; cases hz'
  reach := fun z hz hz' => absurd hz hz'
  pred := fun z hz hz' => absurd hz hz'
  fresh_succ := fun u a hu hu' => by rw [hu] at hu'; cases hu'

theorem BasicPost.of_sink {F : Function} {x : Nat} {W : Memo Int} (hW : ValuesOk W)
    (h : W x = none) (hs : F.succs x = []) :
    BasicPost F x W (((F.block x).selectCount : Int) + 1) (W.assign x (-1)) where
  keeps := Memo.keeps_assign _ h
  values := valuesOk_assign hW x (Or.inl rfl)
  pos := by omega
  done := ⟨-1, Memo.assign_self _ _ _, Or.inr hs⟩
  called := by rw [h]; simp
  marked_sink := by
    intro z hz hz'
    by_cases hzx : z = x
    · subst hzx; exact hs
    · rw [Memo.assign_other _ _ hzx, hz] at hz'; cases hz'
  final_node := by
    intro z a hz hz' ha
    by_cases hzx : z = x
    · subst hzx
      rw [Memo.assign_self] at hz'
      exact absurd (Option.some.inj hz').symm ha
    · rw [Memo.assign_other _ _ hzx, hz] at hz'; cases hz'
  reach := by
    intro z hz hz'
    by_cases hzx : z = x
    · subst hzx; exact Function.reach_refl _ _
    · rw [Memo.assign_other _ _ hzx] at hz'; exact absurd hz hz'
  pred := by
    intro z hz hz'
    by_cases hzx : z = x
    · exact Or.inl hzx
    · rw [Memo.assign_other _ _ hzx] at hz'; exact absurd hz hz'
  fresh_succ := by
    intro u a hu hu' ha
    by_cases hux : u = x
    · subst hux
      rw [Memo.assign_self] at hu'
      exact absurd (Option.some.inj hu').symm ha
    · rw [Memo.assign_other _ _ hux, hu] at hu'; cases hu'

theorem basicPost_of_loop {F : Function} {x : Nat} {W : Memo Int} (h : W x = none)
    (hs : F.succs x ≠ []) {c : Int} {W2 : Memo Int}
    (inv : BasicLoop F x (W.assign x (-1)) ((F.block x).selectCount : Int) (F.succs x) c W2) :
    BasicPost F x W c (W2.assign x c) := by
  have hlen : 1 ≤ (F.succs x).length := by
    cases hl : F.succs x with
    | nil => exact absurd hl hs
    | cons a l => simp
  have hc : 1 ≤ c := by
    have := inv.count
    have h0 : (0 : Int) ≤ ((F.block x).selectCount : Int) := by omega
    omega
  have hW1 : ∀ z, z ≠ x → (W.assign x (-1)) z = W z := fun z hz => Memo.assign_other _ _ hz
  have hW' : ∀ z, z ≠ x → (W2.assign x c) z = W2 z := fun z hz => Memo.assign_other _ _ hz
  have hne : ∀ z, W z = some (-1) → z ≠ x := by
    rintro z hz rfl
    rw [h] at hz; cases hz
  refine ⟨?_, ?_, hc, ⟨c, Memo.assign_self _ _ _, Or.inl (by omega)⟩, by rw [h]; simp,
    ?_, ?_, ?_, ?_, ?_⟩
  · intro z a hz
    have hzx : z ≠ x := by rintro rfl; rw [h] at hz; cases hz
    rw [hW' z hzx]
    exact inv.keeps z a (by rw [hW1 z hzx]; exact hz)
  · exact valuesOk_assign inv.values x (Or.inr hc)
  · intro z hz hz'
    have hzx : z ≠ x := by
      rintro rfl
      rw [Memo.assign_self] at hz'
      have := Option.some.inj hz'
      omega
    rw [hW' z hzx] at hz'
    exact inv.marked_sink z (by rw [hW1 z hzx]; exact hz) hz'
  · intro z a hz hz' ha
    by_cases hzx : z = x
    · subst hzx; exact hs
    · rw [hW' z hzx] at hz'
      exact inv.final_node z a (by rw [hW1 z hzx]; exact hz) hz' ha
  · intro z hz hz'
    by_cases hzx : z = x
    · subst hzx; exact Function.reach_refl _ _
    · rw [hW' z hzx] at hz'
      obtain ⟨s, hsx, hr⟩ := inv.reach z (by rw [hW1 z hzx]; exact hz) hz'
      exact Function.Reach.head hsx hr
  · intro z hz hz'
    by_cases hzx : z = x
    · exact Or.inl hzx
    · right
      rw [hW' z hzx] at hz'
      rcases inv.pred z (by rw [hW1 z hzx]; exact hz) hz' with hm | ⟨u, hu, hu', hzu⟩
      · exact ⟨x, h, by rw [Memo.assign_self]; simp, hm⟩
      · have hux : u ≠ x := by
          rintro rfl
          rw [Memo.assign_self] at hu; cases hu
        exact ⟨u, by rw [← hW1 u hux]; exact hu, by rw [hW' u hux]; exact hu', hzu⟩
  · intro u a hu hu' ha s hsu hs1
    have hsx := hne s hs1
    have hs1' : (W.assign x (-1)) s = some (-1) := by rw [hW1 s hsx]; exact hs1
    by_cases hux : u = x
    · subst hux
      exact inv.called s hsu hs1'
    · rw [hW' u hux] at hu'
      exact inv.fresh_succ u a (by rw [hW1 u hux]; exact hu) hu' ha s hsu hs1'

/-- Every successful call of the McCabe worker from a memo table with sound values satisfies
`BasicPost`. -/
theorem basicBlockMcCabeMeasure_post (F : Function) :
    ∀ (fuel x : Nat) (W : Memo Int) (v : Int) (W' : Memo Int), ValuesOk W →
      basicBlockMcCabeMeasure F fuel x W = .ok (v, W') → BasicPost F x W v W' := by
  intro fuel
  induction fuel with
  | zero =>
    intro x W v W' _ hrun
    simp [basicBlockMcCabeMeasure] at hrun
  | succ fuel ih =>
    intro x W v W' hW hrun
    cases hx : W x with
    | some a =>
      rw [basicBlockMcCabeMeasure_hit F fuel x W a hx] at hrun
      by_cases ha : a = -1
      · simp [ha] at hrun
      · simp only [ne_eq, ha, not_false_eq_true, if_true, Outcome.ok.injEq, Prod.mk.injEq] at hrun
        obtain ⟨rfl, rfl⟩ := hrun
        exact BasicPost.of_hit hW hx ha
    | none =>
      by_cases hs : F.succs x = []
      · rw [basicBlockMcCabeMeasure_sink F fuel x W hx hs] at hrun
        simp only [Outcome.ok.injEq, Prod.mk.injEq] at hrun
        obtain ⟨rfl, rfl⟩ := hrun
        exact BasicPost.of_sink hW hx hs
      · rw [basicBlockMcCabeMeasure_node F fuel x W hx hs, Outcome.bind_eq_ok] at hrun
        obtain ⟨⟨c, W2⟩, hloop, hres⟩ := hrun
        simp only [Outcome.ok.injEq, Prod.mk.injEq] at hres
        obtain ⟨rfl, rfl⟩ := hres
        apply basicPost_of_loop hx hs
        exact sumSuccessors_ok_inv
          (BasicLoop F x (W.assign x (-1)) ((F.block x).selectCount : Int)) (F.succs x)
          (F.succs x) [] _ _ (c, W2) rfl
          (basicLoop_init F x _ _ (valuesOk_assign hW x (Or.inl rfl)))
          (fun pre s post c W v W' _ inv hcall => basicLoop_step inv (ih s W v W' inv.values hcall))
          hloop

/-! ## The call-depth budget `F.size() + 1` is never exhausted -/

theorem countP_lt_of_imp {α : Type} {p q : α → Bool} :
    ∀ (l : List α), (∀ a ∈ l, p a = true → q a = true) →
      ∀ x ∈ l, q x = true → p x = false → l.countP p < l.countP q := by
  intro l
  induction l with
  | nil => intro _ x hx; cases hx
  | cons a l ih =>
    intro himp x hx hq hp
    have hle : l.countP p ≤ l.countP q :=
      List.countP_mono_left (fun b hb => himp b (List.mem_cons_of_mem _ hb))
    rcases List.mem_cons.1 hx with rfl | hxl
    · rw [List.countP_cons_of_pos _ _ hq, List.countP_cons_of_neg _ _ (by simp [hp])]
      omega
    · have := ih (fun b hb => himp b (List.mem_cons_of_mem _ hb)) x hxl hq hp
      by_cases hpa : p a = true
      · rw [List.countP_cons_of_pos _ _ hpa, List.countP_cons_of_pos _ _ (himp a (by simp) hpa)]
        omega
      · rw [List.countP_cons_of_neg _ _ hpa]
        by_cases hqa : q a = true
        · rw [List.countP_cons_of_pos _ _ hqa]; omega
        · rw [List.countP_cons_of_neg _ _ hqa]; exact this

theorem unvisited_le_of_keeps {α : Type} (F : Function) {W W' : Memo α} (h : W.Keeps W') :
    unvisited F W' ≤ unvisited F W := by
  apply List.countP_mono_left
  intro i _ hi
  simp only [Option.isNone_iff_eq_none] at hi ⊢
  exact h.none_of_none hi

theorem unvisited_assign_lt {α : Type} (F : Function) {W : Memo α} {x : Nat} (v : α)
    (hx : x < F.blocks.length) (h : W x = none) :
    unvisited F (W.assign x v) < unvisited F W := by
  apply countP_lt_of_imp _ _ x (List.mem_range.2 hx)
  · simp [h]
  · simp [Memo.assign_self]
  · intro i _ hi
    simp only [Option.isNone_iff_eq_none] at hi ⊢
    exact (Memo.keeps_assign v h).none_of_none hi

theorem unvisited_empty {α : Type} (F : Function) :
    unvisited F (Memo.empty : Memo α) = F.blocks.length := by
  simp [unvisited, Memo.empty]

/-- With more budget than unvisited blocks, the McCabe worker does not run out of budget. -/
theorem basicBlockMcCabeMeasure_fuel {F : Function} (wf : F.WellFormed) :
    ∀ (fuel x : Nat) (W : Memo Int), ValuesOk W → x < F.blocks.length → unvisited F W < fuel →
      basicBlockMcCabeMeasure F fuel x W ≠ .outOfFuel := by
  intro fuel
  induction fuel with
  | zero => intro x W _ _ h; omega
  | succ fuel ih =>
    intro x W hW hx hfuel
    cases hwx : W x with
    | some a =>
      rw [basicBlockMcCabeMeasure_hit F fuel x W a hwx]
      by_cases ha : a = -1 <;> simp [ha]
    | none =>
      by_cases hs : F.succs x = []
      · rw [basicBlockMcCabeMeasure_sink F fuel x W hwx hs]; simp
      · rw [basicBlockMcCabeMeasure_node F fuel x W hwx hs]
        intro hbad
        rcases Outcome.bind_eq_outOfFuel.1 hbad with h | ⟨r, _, h⟩
        · have hlt := unvisited_assign_lt F (-1 : Int) hx hwx
          refine sumSuccessors_ne .outOfFuel (by simp)
            (fun _ _ Wc => (W.assign x (-1)).Keeps Wc ∧ ValuesOk Wc) (F.succs x)
            (F.succs x) [] _ _ rfl ⟨Memo.keeps_refl _, valuesOk_assign hW x (Or.inl rfl)⟩ ?_ h
          intro pre s post c Wc hl ⟨hk, hv⟩
          have hsx : s ∈ F.succs x := by rw [hl]; simp
          have hle := unvisited_le_of_keeps F hk
          refine ⟨ih s Wc hv (wf.succ_lt hsx) (by omega), ?_⟩
          intro v W' hcall
          have post := basicBlockMcCabeMeasure_post F fuel s Wc v W' hv hcall
          exact ⟨Memo.keeps_trans hk post.keeps, post.values⟩
        · cases h

/-- Totality of the entry point on well-formed functions: a value or the failed assertion. -/
theorem McCabeMeasure_ne_outOfFuel {F : Function} (wf : F.WellFormed) :
    McCabeMeasure F ≠ .outOfFuel := by
  intro h
  rcases Outcome.bind_eq_outOfFuel.1 h with h | ⟨r, _, h⟩
  · exact basicBlockMcCabeMeasure_fuel wf _ 0 Memo.empty valuesOk_empty wf.1
      (by rw [unvisited_empty]; omega) h
  · cases h

theorem McCabeMeasure_eq_ok_iff {F : Function} {v : Int} :
    McCabeMeasure F = .ok v ↔
      ∃ W', basicBlockMcCabeMeasure F (F.blocks.length + 1) 0 Memo.empty = .ok (v, W') := by
  unfold McCabeMeasure
  rw [Outcome.bind_eq_ok]
  constructor
  · rintro ⟨⟨a, W'⟩, h, h'⟩
    simp only [Outcome.ok.injEq] at h'
    subst h'
    exact ⟨W', h⟩
  · rintro ⟨W', h⟩
    exact ⟨(v, W'), h, rfl⟩

/-! ## The reference recursion `M` of the cyclomatic measure -/

theorem sumDefined_eq_some_cons {o : Option Int} {l : List (Option Int)} {t : Int} :
    sumDefined (o :: l) = some t ↔ ∃ a r, o = some a ∧ sumDefined l = some r ∧ t = a + r := by
  cases o with
  | none => simp [sumDefined]
  | some a =>
    simp only [sumDefined, Option.map_eq_some', Option.some.injEq]
    constructor
    · rintro ⟨r, hr, rfl⟩; exact ⟨a, r, rfl, hr, rfl⟩
    · rintro ⟨a', r, rfl, hr, rfl⟩; exact ⟨r, hr, rfl⟩

theorem sumDefined_append_singleton {l : List (Option Int)} {t a : Int}
    (h : sumDefined l = some t) : sumDefined (l ++ [some a]) = some (t + a) := by
  induction l generalizing t with
  | nil =>
    simp [sumDefined] at h ⊢
    omega
  | cons o l ih =>
    obtain ⟨b, r, rfl, hr, rfl⟩ := sumDefined_eq_some_cons.1 h
    rw [List.cons_append, sumDefined_eq_some_cons]
    exact ⟨b, r + a, rfl, ih hr, by omega⟩

theorem sumDefined_map_congr {f g : Nat → Option Int} {l : List Nat} {t : Int}
    (hfg : ∀ z a, f z = some a → g z = some a) (h : sumDefined (l.map f) = some t) :
    sumDefined (l.map g) = some t := by
  induction l generalizing t with
  | nil => simpa using h
  | cons s l ih =>
    rw [List.map_cons] at h ⊢
    obtain ⟨b, r, hb, hr, rfl⟩ := sumDefined_eq_some_cons.1 h
    exact sumDefined_eq_some_cons.2 ⟨b, r, hfg s b hb, ih hr, rfl⟩

theorem refM_succ_step (F : Function) :
    ∀ (k z : Nat) (a : Int), refM F k z = some a → refM F (k + 1) z = some a := by
  intro k
  induction k with
  | zero => intro z a h; simp [refM] at h
  | succ k ih =>
    intro z a h
    rw [refM] at h ⊢
    by_cases hs : F.succs z = []
    · simpa [hs] using h
    · simp only [hs, if_false, Option.map_eq_some'] at h ⊢
      obtain ⟨t, ht, rfl⟩ := h
      exact ⟨t, sumDefined_map_congr (ih) ht, rfl⟩

/-- More depth does not change a value of the reference recursion. -/
theorem refM_mono (F : Function) {k k' z : Nat} {a : Int} (hk : k ≤ k')
    (h : refM F k z = some a) : refM F k' z = some a := by
  induction hk with
  | refl => exact h
  | step _ ih => exact refM_succ_step F _ z a ih

/-- The reference recursion has at most one value at a block. -/
theorem refM_unique (F : Function) {k k' z : Nat} {a b : Int}
    (h : refM F k z = some a) (h' : refM F k' z = some b) : a = b := by
  have h1 := refM_mono F (Nat.le_max_left k k') h
  have h2 := refM_mono F (Nat.le_max_right k k') h'
  rw [h1] at h2
  exact Option.some.inj h2

theorem refM_sink (F : Function) (k z : Nat) (hs : F.succs z = []) :
    refM F (k + 1) z = some (((F.block z).selectCount : Int) + 1) := by
  simp [refM, hs]

theorem refM_node (F : Function) (k z : Nat) (hs : F.succs z ≠ []) :
    refM F (k + 1) z = (sumDefined ((F.succs z).map (refM F k))).map
      (fun t => ((F.block z).selectCount : Int) + t) := by
  simp [refM, hs]

/-! ## Graph lemmas used by the invariants -/

theorem Function.succs_ne_nil_of_transGen {F : Function} {z w : Nat}
    (h : Relation.TransGen F.Edge z w) : F.succs z ≠ [] := by
  obtain ⟨b, hb, _⟩ := Relation.TransGen.head'_iff.1 h
  intro hs
  have : b ∈ F.succs z := hb
  rw [hs] at this
  cases this

theorem Function.Reach.eq_of_sink {F : Function} {s u : Nat} (h : F.Reach s u)
    (hs : F.succs s = []) : u = s := by
  rcases Relation.ReflTransGen.cases_head h with h | ⟨b, hb, _⟩
  · exact h.symm
  · have : b ∈ F.succs s := hb
    rw [hs] at this
    cases this

theorem done_assign {F : Function} {W : Memo Int} {s : Nat} (h : Done F W s) (x : Nat) {c : Int}
    (hc : c ≠ -1) : Done F (W.assign x c) s := by
  by_cases hsx : s = x
  · subst hsx; exact ⟨c, Memo.assign_self _ _ _, Or.inl hc⟩
  · obtain ⟨a, ha, hd⟩ := h
    exact ⟨a, by rw [Memo.assign_other _ _ hsx]; exact ha, hd⟩

/-! ## The invariant of successful McCabe runs -/

theorem honest_empty (F : Function) : Honest F Memo.empty where
  values := valuesOk_empty
  final_node := fun z a h => by simp [Memo.empty] at h
  closed := fun z a h => by simp [Memo.empty] at h
  acyclic := fun z ⟨a, h, _⟩ => by simp [Memo.empty] at h
  measure := fun z a h => by simp [Memo.empty] at h
  unshared := fun z _ u u' a a' h => by simp [Memo.empty] at h

/-- Blocks the traversal is through with are closed under reachability. -/
theorem Honest.done_reach {F : Function} {W : Memo Int} (hW : Honest F W) {s t : Nat}
    (hs : Done F W s) (h : F.Reach s t) : Done F W t := by
  induction h with
  | refl => exact hs
  | tail _ e ih =>
    obtain ⟨a, ha, hd⟩ := ih
    rcases hd with hd | hd
    · exact hW.closed _ a ha hd _ e
    · have e' := e
      unfold Function.Edge at e'
      rw [hd] at e'
      cases e'

/-- A sink on which a call succeeds had no entry before the call. -/
theorem Honest.sink_fresh {F : Function} {W : Memo Int} (hW : Honest F W) {s : Nat}
    (hs : F.succs s = []) (hcalled : W s ≠ some (-1)) : W s = none := by
  cases h : W s with
  | none => rfl
  | some a =>
    have ha : a ≠ -1 := by rintro rfl; exact hcalled h
    exact absurd hs (hW.final_node s a h ha)

theorem Honest.mark {F : Function} {x : Nat} {W : Memo Int} (hW : Honest F W)
    (h : W x = none) : Honest F (W.assign x (-1)) := by
  have hfin : ∀ z a, (W.assign x (-1)) z = some a → a ≠ -1 → W z = some a := by
    intro z a hz ha
    by_cases hzx : z = x
    · subst hzx
      rw [Memo.assign_self] at hz
      exact absurd (Option.some.inj hz).symm ha
    · rw [Memo.assign_other _ _ hzx] at hz; exact hz
  refine ⟨valuesOk_assign hW.values x (Or.inl rfl), ?_, ?_, ?_, ?_, ?_⟩
  · intro z a hz ha
    exact hW.final_node z a (hfin z a hz ha) ha
  · intro z a hz ha s hsz
    exact (hW.closed z a (hfin z a hz ha) ha s hsz).keeps (Memo.keeps_assign _ h)
  · intro z hz hcyc
    obtain ⟨a, ha, hd⟩ := hz
    by_cases hzx : z = x
    · subst hzx
      rw [Memo.assign_self] at ha
      rcases hd with hd | hd
      · exact hd (Option.some.inj ha).symm
      · exact Function.succs_ne_nil_of_transGen hcyc hd
    · rw [Memo.assign_other _ _ hzx] at ha
      exact hW.acyclic z ⟨a, ha, hd⟩ hcyc
  · intro z a hz ha
    exact hW.measure z a (hfin z a hz ha) ha
  · intro z hz u u' a a' hu ha hu' ha'
    exact hW.unshared z hz u u' a a' (hfin u a hu ha) ha (hfin u' a' hu' ha') ha'

theorem honestLoop_init {F : Function} {c0 : Int} {W : Memo Int} (hW : Honest F W) :
    HonestLoop F c0 [] c0 W where
  honest := hW
  sum := ⟨0, by simp [sumDefined]⟩
  sink_once := by simp
  sink_fresh := by simp

theorem honestLoop_step {F : Function} {x : Nat} {W1 : Memo Int} {c0 : Int} {pre : List Nat}
    {c : Int} {W : Memo Int} (basic : BasicLoop F x W1 c0 pre c W)
    (inv : HonestLoop F c0 pre c W) {s : Nat} {v : Int} {W' : Memo Int}
    (post : BasicPost F s W v W') (hW' : Honest F W') (hv : ∃ k, refM F k s = some v) :
    HonestLoop F c0 (pre ++ [s]) (c + v) W' := by
  have hsink : F.succs s = [] → W s = none := fun hs => inv.honest.sink_fresh hs post.called
  have hnotin : F.succs s = [] → s ∉ pre := by
    intro hs hsp
    obtain ⟨a, ha, _⟩ := basic.done s hsp
    rw [hsink hs] at ha
    cases ha
  have hmark : ∀ z ∈ pre, F.succs z = [] → W z = some (-1) := by
    intro z hz hzs
    obtain ⟨a, ha, hd⟩ := basic.done z hz
    by_cases ha1 : a = -1
    · rw [ha, ha1]
    · exact absurd hzs (inv.honest.final_node z a ha ha1)
  refine ⟨hW', ?_, ?_, ?_⟩
  · obtain ⟨k1, h1⟩ := inv.sum
    obtain ⟨k2, h2⟩ := hv
    refine ⟨max k1 k2, ?_⟩
    have h1' := sumDefined_map_congr
      (fun z a h => refM_mono F (Nat.le_max_left k1 k2) h) h1
    have h2' := refM_mono F (Nat.le_max_right k1 k2) h2
    rw [List.map_append, List.map_singleton, h2']
    have := sumDefined_append_singleton (a := v) h1'
    rw [this]
    congr 1
    omega
  · intro z hz hzs
    by_cases hzs' : z = s
    · subst hzs'
      rw [List.count_append, List.count_eq_zero_of_not_mem (hnotin hzs)]
      simp
    · have hzp : z ∈ pre := by
        rcases List.mem_append.1 hz with h | h
        · exact h
        · simp at h; exact absurd h hzs'
      rw [List.count_append, inv.sink_once z hzp hzs]
      simp [List.count_singleton, hzs']
  · intro z hz hzs u a hu ha hzu
    cases hwu : W u with
    | some b =>
      have hab : b = a := by
        rw [post.keeps u b hwu] at hu
        exact Option.some.inj hu
      subst hab
      by_cases hzs' : z = s
      · subst hzs'
        obtain ⟨d, hd, _⟩ := inv.honest.closed u b hwu ha z hzu
        rw [hsink hzs] at hd
        cases hd
      · have hzp : z ∈ pre := by
          rcases List.mem_append.1 hz with h | h
          · exact h
          · simp at h; exact absurd h hzs'
        exact inv.sink_fresh z hzp hzs u b hwu ha hzu
    | none =>
      by_cases hzp : z ∈ pre
      · exact post.fresh_succ u a hwu hu ha z hzu (hmark z hzp hzs)
      · have hzs' : z = s := by
          rcases List.mem_append.1 hz with h | h
          · exact absurd h hzp
          · simpa using h
        subst hzs'
        have hreach := post.reach u hwu (by rw [hu]; simp)
        have := hreach.eq_of_sink hzs
        subst this
        exact post.final_node u a hwu hu ha hzs

theorem honest_of_loop {F : Function} {x : Nat} {W : Memo Int} (h : W x = none)
    (hs : F.succs x ≠ []) {c : Int} {W2 : Memo Int}
    (basic : BasicLoop F x (W.assign x (-1)) ((F.block x).selectCount : Int) (F.succs x) c W2)
    (inv : HonestLoop F ((F.block x).selectCount : Int) (F.succs x) c W2) :
    Honest F (W2.assign x c) ∧ ∃ k, refM F k x = some c := by
  have post := basicPost_of_loop h hs basic
  have hc : c ≠ -1 := by have := post.pos; omega
  have hx2 : W2 x = some (-1) := basic.keeps x (-1) (Memo.assign_self _ _ _)
  have hmeas : ∃ k, refM F k x = some c := by
    obtain ⟨k, hk⟩ := inv.sum
    refine ⟨k + 1, ?_⟩
    rw [refM_node F k x hs, hk]
    simp
  have hother : ∀ z, z ≠ x → (W2.assign x c) z = W2 z := fun z hz => Memo.assign_other _ _ hz
  refine ⟨⟨post.values, ?_, ?_, ?_, ?_, ?_⟩, hmeas⟩
  · intro z a hz ha
    by_cases hzx : z = x
    · subst hzx; exact hs
    · rw [hother z hzx] at hz
      exact inv.honest.final_node z a hz ha
  · intro z a hz ha s hsz
    by_cases hzx : z = x
    · subst hzx
      exact done_assign (basic.done s hsz) z hc
    · rw [hother z hzx] at hz
      exact done_assign (inv.honest.closed z a hz ha s hsz) x hc
  · intro z hz hcyc
    by_cases hzx : z = x
    · subst hzx
      obtain ⟨s, hsz, hr⟩ := Relation.TransGen.head'_iff.1 hcyc
      obtain ⟨a, ha, hd⟩ := inv.honest.done_reach (basic.done s hsz) hr
      rw [hx2] at ha
      cases ha
      rcases hd with hd | hd
      · exact hd rfl
      · exact hs hd
    · obtain ⟨a, ha, hd⟩ := hz
      rw [hother z hzx] at ha
      exact inv.honest.acyclic z ⟨a, ha, hd⟩ hcyc
  · intro z a hz ha
    by_cases hzx : z = x
    · subst hzx
      rw [Memo.assign_self] at hz
      cases hz
      exact hmeas
    · rw [hother z hzx] at hz
      exact inv.honest.measure z a hz ha
  · intro z hzs u u' a a' hu ha hu' ha' hzu hzu'
    by_cases hux : u = x
    · subst hux
      by_cases hux' : u' = u
      · subst hux'
        exact ⟨rfl, inv.sink_once z hzu hzs⟩
      · rw [hother u' hux'] at hu'
        exact absurd hzu' (inv.sink_fresh z hzu hzs u' a' hu' ha')
    · rw [hother u hux] at hu
      by_cases hux' : u' = x
      · subst hux'
        exact absurd hzu (inv.sink_fresh z hzu' hzs u a hu ha)
      · rw [hother u' hux'] at hu'
        exact inv.honest.unshared z hzs u u' a a' hu ha hu' ha' hzu hzu'

/-- A successful call of the McCabe worker keeps the invariant and returns the value of the
reference recursion at the block. -/
theorem basicBlockMcCabeMeasure_honest (F : Function) :
    ∀ (fuel x : Nat) (W : Memo Int) (v : Int) (W' : Memo Int), Honest F W →
      basicBlockMcCabeMeasure F fuel x W = .ok (v, W') →
      Honest F W' ∧ ∃ k, refM F k x = some v := by
  intro fuel
  induction fuel with
  | zero =>
    intro x W v W' _ hrun
    simp [basicBlockMcCabeMeasure] at hrun
  | succ fuel ih =>
    intro x W v W' hW hrun
    cases hx : W x with
    | some a =>
      rw [basicBlockMcCabeMeasure_hit F fuel x W a hx] at hrun
      by_cases ha : a = -1
      · simp [ha] at hrun
      · simp only [ne_eq, ha, not_false_eq_true, if_true, Outcome.ok.injEq, Prod.mk.injEq] at hrun
        obtain ⟨rfl, rfl⟩ := hrun
        exact ⟨hW, hW.measure x a hx ha⟩
    | none =>
      by_cases hs : F.succs x = []
      · rw [basicBlockMcCabeMeasure_sink F fuel x W hx hs] at hrun
        simp only [Outcome.ok.injEq, Prod.mk.injEq] at hrun
        obtain ⟨rfl, rfl⟩ := hrun
        exact ⟨hW.mark hx, 1, refM_sink F 0 x hs⟩
      · rw [basicBlockMcCabeMeasure_node F fuel x W hx hs, Outcome.bind_eq_ok] at hrun
        obtain ⟨⟨c, W2⟩, hloop, hres⟩ := hrun
        simp only [Outcome.ok.injEq, Prod.mk.injEq] at hres
        obtain ⟨rfl, rfl⟩ := hres
        have hW1 : Honest F (W.assign x (-1)) := hW.mark hx
        have key := sumSuccessors_ok_inv
          (fun pre c Wc => BasicLoop F x (W.assign x (-1)) ((F.block x).selectCount : Int) pre c Wc
            ∧ HonestLoop F ((F.block x).selectCount : Int) pre c Wc) (F.succs x)
          (F.succs x) [] _ _ (c, W2) rfl
          ⟨basicLoop_init F x _ _ (valuesOk_assign hW.values x (Or.inl rfl)), honestLoop_init hW1⟩
          (fun pre s post c Wc v Wc' _ inv hcall => by
            have p := basicBlockMcCabeMeasure_post F fuel s Wc v Wc' inv.1.values hcall
            obtain ⟨h1, h2⟩ := ih s Wc v Wc' inv.2.honest hcall
            exact ⟨basicLoop_step inv.1 p, honestLoop_step inv.1 inv.2 p h1 h2⟩)
          hloop
        exact honest_of_loop hx hs key.1 key.2

/-! ## When does `McCabeMeasure` return a value? -/

/-- What a successful run of the entry point tells about the function. -/
theorem McCabeMeasure_ok_facts {F : Function} {v : Int} (h : McCabeMeasure F = .ok v) :
    (∃ k, refM F k 0 = some v) ∧ F.Acyclic ∧ F.UnsharedSinks := by
  obtain ⟨W', hrun⟩ := McCabeMeasure_eq_ok_iff.1 h
  have post := basicBlockMcCabeMeasure_post F _ 0 _ v W' valuesOk_empty hrun
  obtain ⟨hW, hm⟩ := basicBlockMcCabeMeasure_honest F _ 0 _ v W' (honest_empty F) hrun
  have hdone : ∀ z, F.Reachable z → Done F W' z := fun z hz => hW.done_reach post.done hz
  have hfinal : ∀ u z, F.Reachable u → z ∈ F.succs u → ∃ a, W' u = some a ∧ a ≠ -1 := by
    intro u z hu hz
    obtain ⟨a, ha, hd⟩ := hdone u hu
    rcases hd with hd | hd
    · exact ⟨a, ha, hd⟩
    · rw [hd] at hz; cases hz
  refine ⟨hm, fun z hz => hW.acyclic z (hdone z hz), ?_⟩
  intro z hzs u u' hu hu' hzu hzu'
  obtain ⟨a, ha, ha1⟩ := hfinal u z hu hzu
  obtain ⟨a', ha', ha1'⟩ := hfinal u' z hu' hzu'
  exact hW.unshared z hzs u u' a a' ha ha1 ha' ha1' hzu hzu'

theorem live_reach {α : Type} {F : Function} {W : Memo α} {s z : Nat}
    (h : Relation.ReflTransGen (LiveEdge F W) s z) : F.Reach s z :=
  Relation.ReflTransGen.mono (fun _ _ e => e.2) h

theorem live_of_keeps {α : Type} {F : Function} {W W' : Memo α} (hk : W.Keeps W') {s z : Nat}
    (h : Relation.ReflTransGen (LiveEdge F W') s z) : Relation.ReflTransGen (LiveEdge F W) s z :=
  Relation.ReflTransGen.mono (fun _ _ e => ⟨hk.none_of_none e.1, e.2⟩) h

theorem two_le_count_of_split {l pre post : List Nat} {z : Nat} (hl : l = pre ++ z :: post)
    (hz : z ∈ pre) : 2 ≤ l.count z := by
  subst hl
  rw [List.count_append, List.count_cons_self]
  have := List.count_pos_iff.2 hz
  omega

/-- Inside the successor loop of a reachable block `x` of an acyclic function without shared
sinks, the next call starts free of poison. -/
theorem noPoison_step {F : Function} (hacyc : F.Acyclic) (hun : F.UnsharedSinks)
    {x : Nat} {W : Memo Int} (hx : F.Reachable x) (hwx : W x = none) (hp : NoPoison F W x)
    {pre post : List Nat} {s : Nat} {c : Int} {Wc : Memo Int}
    (hl : F.succs x = pre ++ s :: post)
    (inv : BasicLoop F x (W.assign x (-1)) ((F.block x).selectCount : Int) pre c Wc) :
    NoPoison F Wc s := by
  intro z hlive hz
  have hsx : s ∈ F.succs x := by rw [hl]; simp
  have hxc : Wc x = some (-1) := inv.keeps x (-1) (Memo.assign_self _ _ _)
  have hkW : W.Keeps Wc := Memo.keeps_trans (Memo.keeps_assign (-1) hwx) inv.keeps
  have hsz : F.Reach s z := live_reach hlive
  by_cases hzx : z = x
  · subst hzx
    exact hacyc z hx (Relation.TransGen.head' hsx hsz)
  · have hW1 : (W.assign x (-1)) z = W z := Memo.assign_other _ _ hzx
    cases hwz : W z with
    | some a =>
      have : a = -1 := by
        rw [hkW z a hwz] at hz
        exact Option.some.inj hz
      subst this
      exact hp z (Relation.ReflTransGen.head ⟨hwx, hsx⟩ (live_of_keeps hkW hlive)) hwz
    | none =>
      have hnew : (W.assign x (-1)) z = none := by rw [hW1]; exact hwz
      have hzs : F.succs z = [] := inv.marked_sink z hnew hz
      have hpre_reach : ∀ t ∈ pre, F.Reachable t := by
        intro t ht
        exact Function.Reach.tail hx (by rw [hl]; simp [ht])
      rcases inv.pred z hnew (by rw [hz]; simp) with hzp | ⟨u, hu1, huc, hzu⟩
      · rcases Relation.ReflTransGen.cases_tail hlive with heq | ⟨u2, hlive2, hu2, hzu2⟩
        · subst heq
          have h2 := two_le_count_of_split hl hzp
          have := (hun z hzs x x hx hx hsx hsx).2
          omega
        · have hu2r : F.Reachable u2 := Function.reach_trans (Function.Reach.tail hx hsx) (live_reach hlive2)
          have := (hun z hzs x u2 hx hu2r (by rw [hl]; simp [hzp]) hzu2).1
          subst this
          rw [hxc] at hu2
          cases hu2
      · have hur : F.Reachable u := by
          obtain ⟨t, ht, hr⟩ := inv.reach u hu1 huc
          exact Function.reach_trans (hpre_reach t ht) hr
        rcases Relation.ReflTransGen.cases_tail hlive with heq | ⟨u2, hlive2, hu2, hzu2⟩
        · subst heq
          have := (hun z hzs u x hur hx hzu hsx).1
          subst this
          rw [Memo.assign_self] at hu1
          cases hu1
        · have hu2r : F.Reachable u2 := Function.reach_trans (Function.Reach.tail hx hsx) (live_reach hlive2)
          have := (hun z hzs u u2 hur hu2r hzu hzu2).1
          subst this
          exact huc hu2

/-- On an acyclic function without shared sinks the assertion of the McCabe worker never fails. -/
theorem basicBlockMcCabeMeasure_no_assert {F : Function} (hacyc : F.Acyclic)
    (hun : F.UnsharedSinks) :
    ∀ (fuel x : Nat) (W : Memo Int), ValuesOk W → F.Reachable x → NoPoison F W x →
      basicBlockMcCabeMeasure F fuel x W ≠ .assertFailed := by
  intro fuel
  induction fuel with
  | zero => intro x W _ _ _; simp [basicBlockMcCabeMeasure]
  | succ fuel ih =>
    intro x W hW hx hp
    cases hwx : W x with
    | some a =>
      rw [basicBlockMcCabeMeasure_hit F fuel x W a hwx]
      have ha : a ≠ -1 := by
        rintro rfl
        exact hp x Relation.ReflTransGen.refl hwx
      simp [ha]
    | none =>
      by_cases hs : F.succs x = []
      · rw [basicBlockMcCabeMeasure_sink F fuel x W hwx hs]; simp
      · rw [basicBlockMcCabeMeasure_node F fuel x W hwx hs]
        intro hbad
        rcases Outcome.bind_eq_assertFailed.1 hbad with h | ⟨r, _, h⟩
        · refine sumSuccessors_ne .assertFailed (by simp)
            (BasicLoop F x (W.assign x (-1)) ((F.block x).selectCount : Int)) (F.succs x)
            (F.succs x) [] _ _ rfl (basicLoop_init F x _ _ (valuesOk_assign hW x (Or.inl rfl))) ?_ h
          intro pre s post c Wc hl inv
          have hsx : s ∈ F.succs x := by rw [hl]; simp
          refine ⟨ih s Wc inv.values (Function.Reach.tail hx hsx)
            (noPoison_step hacyc hun hx hwx hp hl inv), ?_⟩
          intro v W' hcall
          exact basicLoop_step inv (basicBlockMcCabeMeasure_post F fuel s Wc v W' inv.values hcall)
        · cases h

theorem noPoison_empty (F : Function) (x : Nat) : NoPoison F Memo.empty x := by
  intro z _ h
  simp [Memo.empty] at h

/-- Characterisation of the successful runs: on a well-formed function `McCabeMeasure` returns a
value exactly when no cycle is reachable and no sink is entered by two reachable edges. -/
theorem McCabeMeasure_ok_iff {F : Function} (wf : F.WellFormed) :
    (∃ v, McCabeMeasure F = .ok v) ↔ F.Acyclic ∧ F.UnsharedSinks := by
  constructor
  · rintro ⟨v, h⟩
    exact (McCabeMeasure_ok_facts h).2
  · rintro ⟨hacyc, hun⟩
    have h1 := McCabeMeasure_ne_outOfFuel wf
    have h2 : McCabeMeasure F ≠ .assertFailed := by
      intro h
      rcases Outcome.bind_eq_assertFailed.1 h with h | ⟨r, _, h⟩
      · exact basicBlockMcCabeMeasure_no_assert hacyc hun _ 0 Memo.empty valuesOk_empty
          (Function.reach_refl F 0) (noPoison_empty F 0) h
      · cases h
    cases h : McCabeMeasure F with
    | ok v => exact ⟨v, rfl⟩
    | assertFailed => exact absurd h h2
    | outOfFuel => exact absurd h h1

/-! ## Permuting successor lists -/

theorem SuccsPermuted.symm {F F' : Function} (h : SuccsPermuted F F') : SuccsPermuted F' F :=
  ⟨h.1.symm, fun i hi => ⟨((h.2 i (h.1 ▸ hi)).1).symm, ((h.2 i (h.1 ▸ hi)).2).symm⟩⟩

theorem SuccsPermuted.succs {F F' : Function} (h : SuccsPermuted F F') (i : Nat) :
    (F.succs i).Perm (F'.succs i) := by
  by_cases hi : i < F.blocks.length
  · exact (h.2 i hi).2
  · rw [F.succs_of_ge (Nat.le_of_not_lt hi), F'.succs_of_ge (h.1 ▸ Nat.le_of_not_lt hi)]

theorem SuccsPermuted.selectCount {F F' : Function} (h : SuccsPermuted F F') (i : Nat) :
    (F.block i).selectCount = (F'.block i).selectCount := by
  by_cases hi : i < F.blocks.length
  · simp [BasicBlock.selectCount, BasicBlock.instructionsWithoutDebug, (h.2 i hi).1]
  · rw [F.block_of_ge (Nat.le_of_not_lt hi), F'.block_of_ge (h.1 ▸ Nat.le_of_not_lt hi)]

theorem SuccsPermuted.succs_eq_nil {F F' : Function} (h : SuccsPermuted F F') {i : Nat}
    (hs : F.succs i = []) : F'.succs i = [] := by
  have := h.succs i
  rw [hs] at this
  exact List.nil_perm.1 this

theorem SuccsPermuted.edge {F F' : Function} (h : SuccsPermuted F F') {u v : Nat}
    (e : F.Edge u v) : F'.Edge u v := ((h.succs u).mem_iff).1 e

theorem SuccsPermuted.reach {F F' : Function} (h : SuccsPermuted F F') {u v : Nat}
    (r : F.Reach u v) : F'.Reach u v :=
  Relation.ReflTransGen.mono (fun _ _ e => h.edge e) r

theorem SuccsPermuted.acyclic {F F' : Function} (h : SuccsPermuted F F') (ha : F.Acyclic) :
    F'.Acyclic := by
  intro v hv hc
  exact ha v (h.symm.reach hv) (Relation.TransGen.mono (fun _ _ e => h.symm.edge e) hc)

theorem succsPermuted_unsharedSinks {F F' : Function} (h : SuccsPermuted F F')
    (hu : F.UnsharedSinks) : F'.UnsharedSinks := by
  intro z hz u u' hur hur' hzu hzu'
  have := hu z (h.symm.succs_eq_nil hz) u u' (h.symm.reach hur) (h.symm.reach hur')
    (h.symm.edge hzu) (h.symm.edge hzu')
  exact ⟨this.1, by rw [← (h.succs u).count_eq]; exact this.2⟩

theorem SuccsPermuted.wellFormed {F F' : Function} (h : SuccsPermuted F F')
    (wf : F.WellFormed) : F'.WellFormed := by
  refine ⟨h.1 ▸ wf.1, ?_⟩
  intro BB hBB s hs
  obtain ⟨i, hi, rfl⟩ := List.getElem_of_mem hBB
  have hi' : i < F.blocks.length := h.1 ▸ hi
  have hb : F'.block i = F'.blocks[i] := by
    simp [Function.block, List.getD, List.getElem?_eq_getElem hi]
  have : s ∈ F.succs i := ((h.succs i).mem_iff).2 (by rw [Function.succs, hb]; exact hs)
  rw [← h.1]
  exact wf.succ_lt this

theorem sumDefined_perm {l l' : List (Option Int)} (h : l.Perm l') :
    sumDefined l = sumDefined l' := by
  induction h with
  | nil => rfl
  | cons o _ ih =>
    cases o with
    | none => rfl
    | some a => simp [sumDefined, ih]
  | swap o o' l =>
    cases o with
    | none => cases o' <;> simp [sumDefined]
    | some a =>
      cases o' with
      | none => simp [sumDefined]
      | some b =>
        cases hl : sumDefined l with
        | none => simp [sumDefined, hl]
        | some t => simp [sumDefined, hl]; omega
  | trans _ _ ih1 ih2 => exact ih1.trans ih2

theorem SuccsPermuted.refM {F F' : Function} (h : SuccsPermuted F F') :
    ∀ k z, refM F k z = refM F' k z := by
  intro k
  induction k with
  | zero => intro z; rfl
  | succ k ih =>
    intro z
    have hfun : TestTaskAnalysis.refM F k = TestTaskAnalysis.refM F' k := funext ih
    by_cases hs : F.succs z = []
    · rw [refM_sink F k z hs, refM_sink F' k z (h.succs_eq_nil hs), h.selectCount]
    · have hs' : F'.succs z ≠ [] := fun hs' => hs (h.symm.succs_eq_nil hs')
      rw [refM_node F k z hs, refM_node F' k z hs', h.selectCount, hfun,
        sumDefined_perm ((h.succs z).map _)]

/-- The outcome of `McCabeMeasure` does not change when successor lists are permuted. -/
theorem McCabeMeasure_perm {F F' : Function} (wf : F.WellFormed) (h : SuccsPermuted F F') :
    McCabeMeasure F = McCabeMeasure F' := by
  have wf' := h.wellFormed wf
  have key : ∀ {G G' : Function}, G'.WellFormed → SuccsPermuted G G' → ∀ v,
      McCabeMeasure G = .ok v → McCabeMeasure G' = .ok v := by
    intro G G' wfG' hG v hv
    obtain ⟨⟨k, hk⟩, hacyc, hun⟩ := McCabeMeasure_ok_facts hv
    obtain ⟨v', hv'⟩ := (McCabeMeasure_ok_iff wfG').2 ⟨hG.acyclic hacyc, succsPermuted_unsharedSinks hG hun⟩
    obtain ⟨⟨k', hk'⟩, _, _⟩ := McCabeMeasure_ok_facts hv'
    rw [← hG.refM k' 0] at hk'
    rw [hv', refM_unique G hk hk']
  cases hF : McCabeMeasure F with
  | ok v => exact (key wf' h v hF).symm
  | outOfFuel => exact absurd hF (McCabeMeasure_ne_outOfFuel wf)
  | assertFailed =>
    cases hF' : McCabeMeasure F' with
    | ok v => rw [key wf h.symm v hF'] at hF; cases hF
    | outOfFuel => exact absurd hF' (McCabeMeasure_ne_outOfFuel wf')
    | assertFailed => rfl

/-! ## Tree-shaped control flow -/

theorem Function.treeLike_unsharedSinks {F : Function} (h : F.TreeLike) : F.UnsharedSinks :=
  fun z _ u u' hu hu' hzu hzu' => h.2 z u u' hu hu' hzu hzu'

theorem unfold_reach (F : Function) : ∀ (k x z : Nat), z ∈ unfold F k x → F.Reach x z := by
  intro k
  induction k with
  | zero => intro x z h; simp [unfold] at h
  | succ k ih =>
    intro x z h
    simp only [unfold, List.mem_cons, List.mem_flatMap] at h
    rcases h with rfl | ⟨s, hs, hz⟩
    · exact Function.reach_refl _ _
    · exact Function.Reach.head hs (ih s z hz)

theorem sumDefined_map_unfold (F : Function) (k : Nat)
    (ih : ∀ x v, refM F k x = some v → v = ((unfold F k x).map (weight F)).sum ∧
      x ∈ unfold F k x ∧ ∀ z ∈ unfold F k x, ∀ s ∈ F.succs z, s ∈ unfold F k x) :
    ∀ (l : List Nat) (t : Int), sumDefined (l.map (refM F k)) = some t →
      t = ((l.flatMap (unfold F k)).map (weight F)).sum ∧
      ∀ s ∈ l, s ∈ unfold F k s ∧ ∀ z ∈ unfold F k s, ∀ s' ∈ F.succs z, s' ∈ unfold F k s := by
  intro l
  induction l with
  | nil =>
    intro t h
    simp [sumDefined] at h
    simp [h]
  | cons a l ihl =>
    intro t h
    rw [List.map_cons] at h
    obtain ⟨b, r, hb, hr, rfl⟩ := sumDefined_eq_some_cons.1 h
    obtain ⟨h1, h2, h3⟩ := ih a b hb
    obtain ⟨h4, h5⟩ := ihl r hr
    refine ⟨?_, ?_⟩
    · simp only [List.flatMap_cons, List.map_append, List.sum_append]
      rw [← h1, ← h4]
    · intro s hs
      rcases List.mem_cons.1 hs with rfl | hs
      · exact ⟨h2, h3⟩
      · exact h5 s hs

/-- Where the reference recursion is defined, it is the total weight of the unfolding, and the
unfolding is closed under successors. -/
theorem refM_eq_unfold (F : Function) :
    ∀ (k x : Nat) (v : Int), refM F k x = some v →
      v = ((unfold F k x).map (weight F)).sum ∧ x ∈ unfold F k x ∧
      ∀ z ∈ unfold F k x, ∀ s ∈ F.succs z, s ∈ unfold F k x := by
  intro k
  induction k with
  | zero => intro x v h; simp [refM] at h
  | succ k ih =>
    intro x v h
    by_cases hs : F.succs x = []
    · rw [refM_sink F k x hs] at h
      simp only [Option.some.injEq] at h
      subst h
      simp [unfold, hs, weight]
    · rw [refM_node F k x hs] at h
      simp only [Option.map_eq_some'] at h
      obtain ⟨t, ht, rfl⟩ := h
      obtain ⟨h1, h2⟩ := sumDefined_map_unfold F k ih (F.succs x) t ht
      refine ⟨?_, by simp [unfold], ?_⟩
      · simp only [unfold, List.map_cons, List.sum_cons, weight, hs, if_false, add_zero]
        rw [h1]
      · intro z hz s hsz
        simp only [unfold, List.mem_cons, List.mem_flatMap] at hz ⊢
        right
        rcases hz with rfl | ⟨s', hs', hz⟩
        · exact ⟨s, hsz, (h2 s hsz).1⟩
        · exact ⟨s', hs', (h2 s' hs').2 z hz s hsz⟩

/-- In a tree, two blocks that reach a common block lie on one path. -/
theorem Function.TreeLike.comparable {F : Function} (h : F.TreeLike) {a b z : Nat}
    (ha : F.Reachable a) (hb : F.Reachable b) (haz : F.Reach a z) (hbz : F.Reach b z) :
    F.Reach a b ∨ F.Reach b a := by
  induction haz with
  | refl => exact Or.inr hbz
  | @tail y z hay e ih =>
    rcases Relation.ReflTransGen.cases_tail hbz with heq | ⟨y', hby', e'⟩
    · subst heq
      exact Or.inl (Function.Reach.tail hay e)
    · have := (h.2 z y y' (Function.reach_trans ha hay) (Function.reach_trans hb hby') e e').1
      subst this
      exact ih hby'

/-- In a tree, distinct successors of a reachable block do not reach one another. -/
theorem Function.TreeLike.succ_not_reach {F : Function} (h : F.TreeLike) {x s s' : Nat}
    (hx : F.Reachable x) (hs : s ∈ F.succs x) (hs' : s' ∈ F.succs x) (hne : s ≠ s') :
    ¬ F.Reach s s' := by
  intro hr
  rcases Relation.ReflTransGen.cases_tail hr with heq | ⟨y, hsy, e⟩
  · exact hne heq.symm
  · have := (h.2 s' y x (Function.reach_trans (Function.Reach.tail hx hs) hsy) hx e hs').1
    subst this
    exact h.1 y hx (Relation.TransGen.head' hs hsy)

/-- In a tree, distinct successors of a reachable block reach disjoint sets of blocks. -/
theorem Function.TreeLike.succ_disjoint {F : Function} (h : F.TreeLike) {x s s' z : Nat}
    (hx : F.Reachable x) (hs : s ∈ F.succs x) (hs' : s' ∈ F.succs x) (hne : s ≠ s')
    (hz : F.Reach s z) (hz' : F.Reach s' z) : False := by
  rcases h.comparable (Function.Reach.tail hx hs) (Function.Reach.tail hx hs') hz hz' with hr | hr
  · exact h.succ_not_reach hx hs hs' hne hr
  · exact h.succ_not_reach hx hs' hs (Ne.symm hne) hr

theorem Function.TreeLike.nodup_unfold {F : Function} (h : F.TreeLike) :
    ∀ (k x : Nat), F.Reachable x → (unfold F k x).Nodup := by
  intro k
  induction k with
  | zero => intro x _; simp [unfold]
  | succ k ih =>
    intro x hx
    have hsucc : ∀ s ∈ F.succs x, F.Reachable s := fun s hs => Function.Reach.tail hx hs
    simp only [unfold, List.nodup_cons, List.mem_flatMap, not_exists, not_and]
    refine ⟨?_, ?_⟩
    · intro s hs hxs
      exact h.1 x hx (Relation.TransGen.head' hs (unfold_reach F k s x hxs))
    · rw [List.nodup_flatMap]
      refine ⟨fun s hs => ih s (hsucc s hs), ?_⟩
      have hnd : (F.succs x).Nodup := by
        rw [List.nodup_iff_count_le_one]
        intro s
        by_cases hs : s ∈ F.succs x
        · exact le_of_eq (h.2 s x x hx hx hs hs).2
        · rw [List.count_eq_zero_of_not_mem hs]; omega
      apply hnd.pairwise_of_forall_ne
      intro s hs s' hs' hne
      simp only [Function.onFun]
      rw [List.disjoint_left]
      intro z hz hz'
      exact h.succ_disjoint hx hs hs' hne (unfold_reach F k s z hz) (unfold_reach F k s' z hz')

theorem sum_weight_eq (F : Function) (R : List Nat) :
    (R.map (weight F)).sum
      = ((R.countP (fun z => decide (F.succs z = [])) : Nat) : Int)
        + (((R.map (fun z => (F.block z).selectCount)).sum : Nat) : Int) := by
  induction R with
  | nil => simp
  | cons a R ih =>
    by_cases hs : F.succs a = []
    · simp [List.countP_cons, weight, hs, ih]; omega
    · simp [List.countP_cons, weight, hs, ih]; omega

/-- On a well-formed function whose reachable part is a tree, `McCabeMeasure` returns the number
of reachable sinks plus the number of selects in reachable blocks, for any duplicate-free
enumeration `R` of the reachable blocks. -/
theorem McCabeMeasure_of_tree {F : Function} (wf : F.WellFormed) (h : F.TreeLike)
    {R : List Nat} (hR : R.Nodup) (hmem : ∀ z, z ∈ R ↔ F.Reachable z) :
    McCabeMeasure F = .ok (((R.countP (fun z => decide (F.succs z = [])) : Nat) : Int)
        + (((R.map (fun z => (F.block z).selectCount)).sum : Nat) : Int)) := by
  obtain ⟨v, hv⟩ := (McCabeMeasure_ok_iff wf).2 ⟨h.1, Function.treeLike_unsharedSinks h⟩
  obtain ⟨⟨k, hk⟩, _, _⟩ := McCabeMeasure_ok_facts hv
  obtain ⟨h1, h2, h3⟩ := refM_eq_unfold F k 0 v hk
  have hall : ∀ z, F.Reachable z → z ∈ unfold F k 0 := by
    intro z hz
    induction hz with
    | refl => exact h2
    | tail _ e ih => exact h3 _ ih _ e
  have hperm : (unfold F k 0).Perm R := by
    rw [List.perm_ext_iff_of_nodup (h.nodup_unfold k 0 (Function.reach_refl F 0)) hR]
    intro z
    rw [hmem]
    exact ⟨fun hz => unfold_reach F k 0 z hz, hall z⟩
  rw [hv, h1, ((hperm.map (weight F)).sum_eq), sum_weight_eq]

/-! ## The longest-path traversal: unfolding equations and loop rules -/

theorem instructionsOnLongestPath_hit (F : Function) (fuel BB : Nat) (Was : Memo (Int × Int))
    (p : Int × Int) (h : Was BB = some p) :
    instructionsOnLongestPath F (fuel + 1) BB Was
      = if p.2 ≠ -1 then .ok (p, Was) else .assertFailed := by
  simp [instructionsOnLongestPath, Memo.find, h]

theorem instructionsOnLongestPath_miss (F : Function) (fuel BB : Nat) (Was : Memo (Int × Int))
    (h : Was BB = none) :
    instructionsOnLongestPath F (fuel + 1) BB Was
      = (longestSuccessor (instructionsOnLongestPath F fuel) (F.succs BB) (0, 0)
            (Was.assign BB (-1, -1))).bind
          fun r => .ok ((r.1.1 + 1, r.1.2 + ((F.block BB).sizeWithoutDebug : Int)),
                        r.2.assign BB r.1) := by
  simp [instructionsOnLongestPath, Memo.find, h, Memo.insert_eq_assign _ h]

/-- Invariant rule for the successor loop of the longest-path traversal. -/
theorem longestSuccessor_ok_inv
    {call : Nat → Memo (Int × Int) → Outcome ((Int × Int) × Memo (Int × Int))}
    (Inv : List Nat → Int × Int → Memo (Int × Int) → Prop) (l : List Nat) :
    ∀ (rest done : List Nat) (m : Int × Int) (W : Memo (Int × Int))
      (r : (Int × Int) × Memo (Int × Int)),
      l = done ++ rest → Inv done m W →
      (∀ pre s post m W p W', l = pre ++ s :: post → Inv pre m W → call s W = .ok (p, W') →
          Inv (pre ++ [s]) (if pairLe m p then p else m) W') →
      longestSuccessor call rest m W = .ok r → Inv l r.1 r.2 := by
  intro rest
  induction rest with
  | nil =>
    intro done m W r hl h0 _ hrun
    simp [longestSuccessor] at hrun
    subst hrun
    simpa [hl] using h0
  | cons s rest ih =>
    intro done m W r hl h0 hstep hrun
    simp only [longestSuccessor, Outcome.bind_eq_ok] at hrun
    obtain ⟨⟨p, W'⟩, hcall, hrest⟩ := hrun
    exact ih (done ++ [s]) _ W' r (by simp [hl]) (hstep done s rest m W p W' hl h0 hcall)
      hstep hrest

/-- Progress rule for the successor loop of the longest-path traversal. -/
theorem longestSuccessor_ne
    {call : Nat → Memo (Int × Int) → Outcome ((Int × Int) × Memo (Int × Int))}
    (e : Outcome ((Int × Int) × Memo (Int × Int))) (he : ∀ r, e ≠ .ok r)
    (Inv : List Nat → Int × Int → Memo (Int × Int) → Prop) (l : List Nat) :
    ∀ (rest done : List Nat) (m : Int × Int) (W : Memo (Int × Int)),
      l = done ++ rest → Inv done m W →
      (∀ pre s post m W, l = pre ++ s :: post → Inv pre m W →
          call s W ≠ e ∧ ∀ p W', call s W = .ok (p, W') →
            Inv (pre ++ [s]) (if pairLe m p then p else m) W') →
      longestSuccessor call rest m W ≠ e := by
  intro rest
  induction rest with
  | nil =>
    intro done m W _ _ _ hrun
    simp [longestSuccessor] at hrun
    exact he _ hrun.symm
  | cons s rest ih =>
    intro done m W hl h0 hstep hrun
    obtain ⟨hne, hok⟩ := hstep done s rest m W hl h0
    simp only [longestSuccessor] at hrun
    cases hc : call s W with
    | ok r =>
      obtain ⟨p, W'⟩ := r
      rw [hc] at hrun
      simp only [Outcome.bind] at hrun
      exact ih (done ++ [s]) _ W' (by simp [hl]) (hok p W' hc) hstep hrun
    | assertFailed =>
      rw [hc] at hrun
      simp only [Outcome.bind] at hrun
      exact hne (hc.trans hrun)
    | outOfFuel =>
      rw [hc] at hrun
      simp only [Outcome.bind] at hrun
      exact hne (hc.trans hrun)

theorem pathLoop_init (F : Function) (W1 : Memo (Int × Int)) : PathLoop F W1 [] W1 :=
  ⟨Memo.keeps_refl _, fun _ hz hz' => absurd hz hz'⟩

theorem pathLoop_step {F : Function} {W1 : Memo (Int × Int)} {pre : List Nat}
    {W : Memo (Int × Int)} (inv : PathLoop F W1 pre W) {s : Nat} {W' : Memo (Int × Int)}
    (post : PathPost F s W W') : PathLoop F W1 (pre ++ [s]) W' := by
  refine ⟨Memo.keeps_trans inv.keeps post.keeps, ?_⟩
  intro z hz hz'
  cases hw : W z with
  | none => exact ⟨s, by simp, post.reach z hw hz'⟩
  | some b =>
    obtain ⟨t, ht, hr⟩ := inv.reach z hz (by rw [hw]; simp)
    exact ⟨t, by simp [ht], hr⟩

theorem pathPost_of_loop {F : Function} {x : Nat} {W : Memo (Int × Int)} (h : W x = none)
    {W2 : Memo (Int × Int)} (m : Int × Int)
    (inv : PathLoop F (W.assign x (-1, -1)) (F.succs x) W2) :
    PathPost F x W (W2.assign x m) := by
  refine ⟨?_, by rw [Memo.assign_self]; simp, ?_⟩
  · intro z a hz
    have hzx : z ≠ x := by rintro rfl; rw [h] at hz; cases hz
    rw [Memo.assign_other _ _ hzx]
    exact inv.keeps z a (by rw [Memo.assign_other _ _ hzx]; exact hz)
  · intro z hz hz'
    by_cases hzx : z = x
    · subst hzx; exact Function.reach_refl _ _
    · rw [Memo.assign_other _ _ hzx] at hz'
      obtain ⟨s, hsx, hr⟩ := inv.reach z (by rw [Memo.assign_other _ _ hzx]; exact hz) hz'
      exact Function.Reach.head hsx hr

theorem instructionsOnLongestPath_post (F : Function) :
    ∀ (fuel x : Nat) (W : Memo (Int × Int)) (p : Int × Int) (W' : Memo (Int × Int)),
      instructionsOnLongestPath F fuel x W = .ok (p, W') → PathPost F x W W' := by
  intro fuel
  induction fuel with
  | zero =>
    intro x W p W' hrun
    simp [instructionsOnLongestPath] at hrun
  | succ fuel ih =>
    intro x W p W' hrun
    cases hx : W x with
    | some a =>
      rw [instructionsOnLongestPath_hit F fuel x W a hx] at hrun
      by_cases ha : a.2 = -1
      · simp [ha] at hrun
      · simp only [ne_eq, ha, not_false_eq_true, if_true, Outcome.ok.injEq, Prod.mk.injEq] at hrun
        obtain ⟨_, rfl⟩ := hrun
        exact ⟨Memo.keeps_refl _, by rw [hx]; simp, fun z hz hz' => absurd hz hz'⟩
    | none =>
      rw [instructionsOnLongestPath_miss F fuel x W hx, Outcome.bind_eq_ok] at hrun
      obtain ⟨⟨m, W2⟩, hloop, hres⟩ := hrun
      simp only [Outcome.ok.injEq, Prod.mk.injEq] at hres
      obtain ⟨_, rfl⟩ := hres
      apply pathPost_of_loop hx
      exact longestSuccessor_ok_inv (fun pre _ Wc => PathLoop F (W.assign x (-1, -1)) pre Wc)
        (F.succs x) (F.succs x) [] _ _ (m, W2) rfl (pathLoop_init F _)
        (fun pre s post m W p W' _ inv hcall => pathLoop_step inv (ih s W p W' hcall)) hloop

/-- With more budget than unvisited blocks, the longest-path worker does not run out of budget. -/
theorem instructionsOnLongestPath_fuel {F : Function} (wf : F.WellFormed) :
    ∀ (fuel x : Nat) (W : Memo (Int × Int)), x < F.blocks.length → unvisited F W < fuel →
      instructionsOnLongestPath F fuel x W ≠ .outOfFuel := by
  intro fuel
  induction fuel with
  | zero => intro x W _ h; omega
  | succ fuel ih =>
    intro x W hx hfuel
    cases hwx : W x with
    | some a =>
      rw [instructionsOnLongestPath_hit F fuel x W a hwx]
      by_cases ha : a.2 = -1 <;> simp [ha]
    | none =>
      rw [instructionsOnLongestPath_miss F fuel x W hwx]
      intro hbad
      rcases Outcome.bind_eq_outOfFuel.1 hbad with h | ⟨r, _, h⟩
      · have hlt := unvisited_assign_lt F ((-1, -1) : Int × Int) hx hwx
        refine longestSuccessor_ne .outOfFuel (by simp)
          (fun _ _ Wc => (W.assign x (-1, -1)).Keeps Wc) (F.succs x)
          (F.succs x) [] _ _ rfl (Memo.keeps_refl _) ?_ h
        intro pre s post c Wc hl hk
        have hsx : s ∈ F.succs x := by rw [hl]; simp
        have hle := unvisited_le_of_keeps F hk
        refine ⟨ih s Wc (wf.succ_lt hsx) (by omega), ?_⟩
        intro p W' hcall
        exact Memo.keeps_trans hk (instructionsOnLongestPath_post F fuel s Wc p W' hcall).keeps
      · cases h

/-- Totality of the entry point on well-formed functions: a value or the failed assertion. -/
theorem countInstructionsOnLongestPath_ne_outOfFuel {F : Function} (wf : F.WellFormed) :
    countInstructionsOnLongestPath F ≠ .outOfFuel := by
  intro h
  rcases Outcome.bind_eq_outOfFuel.1 h with h | ⟨r, _, h⟩
  · exact instructionsOnLongestPath_fuel wf _ 0 Memo.empty wf.1
      (by rw [unvisited_empty]; omega) h
  · cases h

/-! ## The reference recursion `L` of the longest-path count -/

theorem pairLe_iff (a b : Int × Int) : pairLe a b = true ↔ lexLe a b := by
  simp only [pairLe, pairLt, lexLe, Bool.not_eq_true', Bool.or_eq_false_iff,
    decide_eq_false_iff_not, Bool.and_eq_false_iff, Bool.not_eq_false', decide_eq_true_eq,
    not_lt]
  omega

theorem lexLe_refl (a : Int × Int) : lexLe a a := Or.inr ⟨rfl, le_refl _⟩

theorem lexLe_trans {a b c : Int × Int} (h1 : lexLe a b) (h2 : lexLe b c) : lexLe a c := by
  unfold lexLe at *
  omega

theorem lexLe_total (a b : Int × Int) : lexLe a b ∨ lexLe b a := by
  unfold lexLe
  omega

theorem lexLe_antisymm {a b : Int × Int} (h1 : lexLe a b) (h2 : lexLe b a) : a = b := by
  unfold lexLe at *
  apply Prod.ext <;> omega

theorem IsLexGreatest.unique {l : List (Int × Int)} {m m' : Int × Int}
    (h : IsLexGreatest l m) (h' : IsLexGreatest l m') : m = m' :=
  lexLe_antisymm (h'.2 m h.1) (h.2 m' h'.1)

theorem lexGreatest_spec : ∀ (l : List (Int × Int)), l ≠ [] →
    ∃ m, lexGreatest l = some m ∧ IsLexGreatest l m := by
  intro l
  induction l with
  | nil => intro h; exact absurd rfl h
  | cons p ps ih =>
    intro _
    by_cases hps : ps = []
    · subst hps
      exact ⟨p, by simp [lexGreatest], by simp [IsLexGreatest, lexLe_refl]⟩
    · obtain ⟨q, hq, hq1, hq2⟩ := ih hps
      by_cases hpq : lexLe p q
      · refine ⟨q, by simp [lexGreatest, hq, hpq], List.mem_cons_of_mem _ hq1, ?_⟩
        intro r hr
        rcases List.mem_cons.1 hr with rfl | hr
        · exact hpq
        · exact hq2 r hr
      · refine ⟨p, by simp [lexGreatest, hq, hpq], by simp, ?_⟩
        have hqp : lexLe q p := (lexLe_total p q).resolve_left hpq
        intro r hr
        rcases List.mem_cons.1 hr with rfl | hr
        · exact lexLe_refl _
        · exact lexLe_trans (hq2 r hr) hqp

theorem collect_eq_some_cons {α : Type} {o : Option α} {l : List (Option α)} {r : List α} :
    collect (o :: l) = some r ↔ ∃ a t, o = some a ∧ collect l = some t ∧ r = a :: t := by
  cases o with
  | none => simp [collect]
  | some a =>
    simp only [collect, Option.map_eq_some', Option.some.injEq]
    constructor
    · rintro ⟨t, ht, rfl⟩; exact ⟨a, t, rfl, ht, rfl⟩
    · rintro ⟨a', t, rfl, ht, rfl⟩; exact ⟨t, ht, rfl⟩

theorem collect_map_spec {α : Type} {f : Nat → Option α} :
    ∀ {l : List Nat} {r : List α}, collect (l.map f) = some r →
      (∀ s ∈ l, ∃ a ∈ r, f s = some a) ∧ (∀ a ∈ r, ∃ s ∈ l, f s = some a) ∧
        r.length = l.length := by
  intro l
  induction l with
  | nil =>
    intro r h
    simp [collect] at h
    subst h
    simp
  | cons s l ih =>
    intro r h
    rw [List.map_cons] at h
    obtain ⟨a, t, ha, ht, rfl⟩ := collect_eq_some_cons.1 h
    obtain ⟨h1, h2, h3⟩ := ih ht
    refine ⟨?_, ?_, by simp [h3]⟩
    · intro s' hs'
      rcases List.mem_cons.1 hs' with rfl | hs'
      · exact ⟨a, by simp, ha⟩
      · obtain ⟨b, hb, hfb⟩ := h1 s' hs'
        exact ⟨b, List.mem_cons_of_mem _ hb, hfb⟩
    · intro b hb
      rcases List.mem_cons.1 hb with rfl | hb
      · exact ⟨s, by simp, ha⟩
      · obtain ⟨s', hs', hfb⟩ := h2 b hb
        exact ⟨s', List.mem_cons_of_mem _ hs', hfb⟩

theorem collect_append_singleton {α : Type} {l : List (Option α)} {r : List α} (a : α)
    (h : collect l = some r) : collect (l ++ [some a]) = some (r ++ [a]) := by
  induction l generalizing r with
  | nil =>
    simp [collect] at h
    subst h
    simp [collect]
  | cons o l ih =>
    obtain ⟨b, t, rfl, ht, rfl⟩ := collect_eq_some_cons.1 h
    rw [List.cons_append, collect_eq_some_cons]
    exact ⟨b, t ++ [a], rfl, ih ht, rfl⟩

theorem refL_sink (F : Function) (k z : Nat) (hs : F.succs z = []) :
    refL F (k + 1) z = some (1, ((F.block z).sizeWithoutDebug : Int)) := by
  simp [refL, hs]

theorem refL_node (F : Function) (k z : Nat) (hs : F.succs z ≠ []) :
    refL F (k + 1) z = ((collect ((F.succs z).map (refL F k))).bind lexGreatest).map
      (fun p => (p.1 + 1, p.2 + ((F.block z).sizeWithoutDebug : Int))) := by
  simp [refL, hs]

/-- Description of `L` at a block with successors: the value is built from the greatest of the
values of the successors, all of which are defined. -/
theorem refL_node_eq_some {F : Function} {k z : Nat} (hs : F.succs z ≠ []) {p : Int × Int} :
    refL F (k + 1) z = some p ↔
      ∃ ps m, collect ((F.succs z).map (refL F k)) = some ps ∧ IsLexGreatest ps m ∧
        p = (m.1 + 1, m.2 + ((F.block z).sizeWithoutDebug : Int)) := by
  rw [refL_node F k z hs]
  constructor
  · intro h
    simp only [Option.map_eq_some', Option.bind_eq_some] at h
    obtain ⟨m, ⟨ps, hps, hm⟩, rfl⟩ := h
    have hne : ps ≠ [] := by
      rintro rfl
      simp [lexGreatest] at hm
    obtain ⟨m', hm', hg⟩ := lexGreatest_spec ps hne
    rw [hm] at hm'
    cases hm'
    exact ⟨ps, m, hps, hg, rfl⟩
  · rintro ⟨ps, m, hps, hg, rfl⟩
    have hne : ps ≠ [] := by
      rintro rfl
      exact absurd hg.1 (by simp)
    obtain ⟨m', hm', hg'⟩ := lexGreatest_spec ps hne
    have := hg.unique hg'
    subst this
    simp [hps, hm']

theorem refL_pos (F : Function) : ∀ (k z : Nat) (p : Int × Int), refL F k z = some p →
    1 ≤ p.1 ∧ 1 ≤ p.2 := by
  intro k
  induction k with
  | zero => intro z p h; simp [refL] at h
  | succ k ih =>
    intro z p h
    by_cases hs : F.succs z = []
    · rw [refL_sink F k z hs] at h
      cases h
      simp [BasicBlock.sizeWithoutDebug]
    · obtain ⟨ps, m, hps, hg, rfl⟩ := (refL_node_eq_some hs).1 h
      obtain ⟨s, _, hsm⟩ := (collect_map_spec hps).2.1 m hg.1
      have := ih s m hsm
      simp only
      omega

/-! ## Paths from a block to a sink -/

theorem isSinkPath_singleton {F : Function} {x y : Nat} :
    IsSinkPath F x [y] ↔ y = x ∧ F.succs x = [] := Iff.rfl

theorem isSinkPath_cons_cons {F : Function} {x y z : Nat} {rest : List Nat} :
    IsSinkPath F x (y :: z :: rest) ↔ y = x ∧ z ∈ F.succs x ∧ IsSinkPath F z (z :: rest) :=
  Iff.rfl

theorem isSinkPath_head {F : Function} {x y : Nat} {P : List Nat}
    (h : IsSinkPath F x (y :: P)) : y = x := by
  cases P with
  | nil => exact (isSinkPath_singleton.1 h).1
  | cons z rest => exact (isSinkPath_cons_cons.1 h).1

theorem isSinkPath_cons {F : Function} {x y : Nat} {P : List Nat} :
    IsSinkPath F x (y :: P) ↔
      y = x ∧ ((P = [] ∧ F.succs x = []) ∨ ∃ z, z ∈ F.succs x ∧ IsSinkPath F z P) := by
  cases P with
  | nil =>
    rw [isSinkPath_singleton]
    constructor
    · rintro ⟨rfl, hs⟩; exact ⟨rfl, Or.inl ⟨rfl, hs⟩⟩
    · rintro ⟨rfl, ⟨_, hs⟩ | ⟨z, _, hp⟩⟩
      · exact ⟨rfl, hs⟩
      · exact absurd hp (by simp [IsSinkPath])
  | cons z rest =>
    rw [isSinkPath_cons_cons]
    constructor
    · rintro ⟨rfl, hz, hp⟩; exact ⟨rfl, Or.inr ⟨z, hz, hp⟩⟩
    · rintro ⟨rfl, ⟨h, _⟩ | ⟨z', hz', hp⟩⟩
      · cases h
      · have := isSinkPath_head hp
        subst this
        exact ⟨rfl, hz', hp⟩

/-! ## `L` is the greatest `(blocks, instructions)` over the paths to a sink -/

theorem pathInstructions_cons (F : Function) (x : Nat) (P : List Nat) :
    pathInstructions F (x :: P) = ((F.block x).sizeWithoutDebug : Int) + pathInstructions F P := by
  simp [pathInstructions]

/-- Where `L` is defined at a block, its value is `(number of blocks, instruction total)` of a path
from the block to a sink, and no such path has a lexicographically greater pair. -/
theorem refL_paths (F : Function) :
    ∀ (k x : Nat) (p : Int × Int), refL F k x = some p →
      (∃ P, IsSinkPath F x P ∧ ((P.length : Int), pathInstructions F P) = p) ∧
      ∀ Q, IsSinkPath F x Q → lexLe ((Q.length : Int), pathInstructions F Q) p := by
  intro k
  induction k with
  | zero => intro x p h; simp [refL] at h
  | succ k ih =>
    intro x p h
    by_cases hs : F.succs x = []
    · rw [refL_sink F k x hs] at h
      cases h
      refine ⟨⟨[x], isSinkPath_singleton.2 ⟨rfl, hs⟩, by simp [pathInstructions]⟩, ?_⟩
      intro Q hQ
      cases Q with
      | nil => exact absurd hQ (by simp [IsSinkPath])
      | cons y Q =>
        obtain ⟨rfl, ⟨rfl, _⟩ | ⟨z, hz, _⟩⟩ := isSinkPath_cons.1 hQ
        · simp only [pathInstructions, List.map_cons, List.map_nil, List.sum_cons, List.sum_nil,
            add_zero, List.length_singleton, Nat.cast_one]
          exact lexLe_refl _
        · rw [hs] at hz; cases hz
    · obtain ⟨ps, m, hps, hg, rfl⟩ := (refL_node_eq_some hs).1 h
      obtain ⟨h1, h2, _⟩ := collect_map_spec hps
      refine ⟨?_, ?_⟩
      · obtain ⟨s, hsx, hsm⟩ := h2 m hg.1
        obtain ⟨⟨P, hP, hkey⟩, _⟩ := ih s m hsm
        refine ⟨x :: P, isSinkPath_cons.2 ⟨rfl, Or.inr ⟨s, hsx, hP⟩⟩, ?_⟩
        rw [pathInstructions_cons, ← hkey]
        simp only [List.length_cons, Nat.cast_add, Nat.cast_one, Prod.mk.injEq, true_and]
        omega
      · intro Q hQ
        cases Q with
        | nil => exact absurd hQ (by simp [IsSinkPath])
        | cons y Q =>
          obtain ⟨rfl, ⟨_, hnil⟩ | ⟨z, hz, hQ'⟩⟩ := isSinkPath_cons.1 hQ
          · exact absurd hnil hs
          · obtain ⟨q, hq, hzq⟩ := h1 z hz
            have hle := lexLe_trans ((ih z q hzq).2 Q hQ') (hg.2 q hq)
            rw [pathInstructions_cons]
            unfold lexLe at hle ⊢
            simp only [List.length_cons, Nat.cast_add, Nat.cast_one] at hle ⊢
            omega

/-! ## The longest-path traversal on acyclic functions: the assertion never fails -/

theorem pairsOk_empty : PairsOk Memo.empty := by
  intro z p h
  simp [Memo.empty] at h

theorem pairsOk_assign {W : Memo (Int × Int)} (h : PairsOk W) (k : Nat) {p : Int × Int}
    (hp : p = (-1, -1) ∨ 0 ≤ p.2) : PairsOk (W.assign k p) := by
  intro z q hz
  by_cases hzk : z = k
  · subst hzk
    rw [Memo.assign_self] at hz
    cases hz
    exact hp
  · rw [Memo.assign_other _ _ hzk] at hz
    exact h z q hz

theorem instructionsOnLongestPath_final (F : Function) :
    ∀ (fuel x : Nat) (W : Memo (Int × Int)) (p : Int × Int) (W' : Memo (Int × Int)),
      PairsOk W → instructionsOnLongestPath F fuel x W = .ok (p, W') → PathFinal W p W' := by
  intro fuel
  induction fuel with
  | zero =>
    intro x W p W' _ hrun
    simp [instructionsOnLongestPath] at hrun
  | succ fuel ih =>
    intro x W p W' hW hrun
    cases hx : W x with
    | some a =>
      rw [instructionsOnLongestPath_hit F fuel x W a hx] at hrun
      by_cases ha : a.2 = -1
      · simp [ha] at hrun
      · simp only [ne_eq, ha, not_false_eq_true, if_true, Outcome.ok.injEq, Prod.mk.injEq] at hrun
        obtain ⟨rfl, rfl⟩ := hrun
        refine ⟨hW, ?_, fun z q hz hz' => by rw [hz] at hz'; cases hz'⟩
        rcases hW x a hx with h | h
        · rw [h] at ha; exact absurd rfl ha
        · exact h
    | none =>
      rw [instructionsOnLongestPath_miss F fuel x W hx, Outcome.bind_eq_ok] at hrun
      obtain ⟨⟨m, W2⟩, hloop, hres⟩ := hrun
      simp only [Outcome.ok.injEq, Prod.mk.injEq] at hres
      obtain ⟨rfl, rfl⟩ := hres
      have key := longestSuccessor_ok_inv
        (fun _ m Wc => PairsOk Wc ∧ 0 ≤ m.2 ∧
          ∀ z q, (W.assign x (-1, -1)) z = none → Wc z = some q → 0 ≤ q.2)
        (F.succs x) (F.succs x) [] _ _ (m, W2) rfl
        ⟨pairsOk_assign hW x (Or.inl rfl), le_refl _, fun z q hz hz' => by rw [hz] at hz'; cases hz'⟩
        (fun pre s post m Wc p Wc' _ inv hcall => by
          have hf := ih s Wc p Wc' inv.1 hcall
          have hk := (instructionsOnLongestPath_post F fuel s Wc p Wc' hcall).keeps
          refine ⟨hf.values, ?_, ?_⟩
          · split
            · exact hf.ret
            · exact inv.2.1
          · intro z q hz hz'
            cases hw : Wc z with
            | none => exact hf.fresh z q hw hz'
            | some b =>
              have hbq : b = q := by
                rw [hk z b hw] at hz'
                exact Option.some.inj hz'
              subst hbq
              exact inv.2.2 z b hz hw)
        hloop
      obtain ⟨h1, h2, h3⟩ := key
      have h2 : (0 : Int) ≤ m.2 := h2
      have hsz : (0 : Int) ≤ ((F.block x).sizeWithoutDebug : Int) := by omega
      refine ⟨pairsOk_assign h1 x (Or.inr h2), by simp only; omega, ?_⟩
      intro z q hz hz'
      by_cases hzx : z = x
      · subst hzx
        rw [Memo.assign_self] at hz'
        cases hz'
        exact h2
      · rw [Memo.assign_other _ _ hzx] at hz'
        exact h3 z q (by rw [Memo.assign_other _ _ hzx]; exact hz) hz'

/-- On an acyclic function the assertion of the longest-path worker never fails. -/
theorem instructionsOnLongestPath_no_assert {F : Function} (hacyc : F.Acyclic) :
    ∀ (fuel x : Nat) (W : Memo (Int × Int)), PairsOk W → F.Reachable x → NoPoisonPath F W x →
      instructionsOnLongestPath F fuel x W ≠ .assertFailed := by
  intro fuel
  induction fuel with
  | zero => intro x W _ _ _; simp [instructionsOnLongestPath]
  | succ fuel ih =>
    intro x W hW hx hp
    cases hwx : W x with
    | some a =>
      rw [instructionsOnLongestPath_hit F fuel x W a hwx]
      have ha : a.2 ≠ -1 := hp x Relation.ReflTransGen.refl a hwx
      simp [ha]
    | none =>
      rw [instructionsOnLongestPath_miss F fuel x W hwx]
      intro hbad
      rcases Outcome.bind_eq_assertFailed.1 hbad with h | ⟨r, _, h⟩
      · refine longestSuccessor_ne .assertFailed (by simp)
          (fun pre _ Wc => (W.assign x (-1, -1)).Keeps Wc ∧ PairsOk Wc ∧
            ∀ z q, (W.assign x (-1, -1)) z = none → Wc z = some q → 0 ≤ q.2)
          (F.succs x) (F.succs x) [] _ _ rfl
          ⟨Memo.keeps_refl _, pairsOk_assign hW x (Or.inl rfl),
            fun z q hz hz' => by rw [hz] at hz'; cases hz'⟩ ?_ h
        intro pre s post m Wc hl ⟨hk, hv, hfresh⟩
        have hsx : s ∈ F.succs x := by rw [hl]; simp
        have hkW : W.Keeps Wc := Memo.keeps_trans (Memo.keeps_assign _ hwx) hk
        refine ⟨ih s Wc hv (Function.Reach.tail hx hsx) ?_, ?_⟩
        · intro z hlive q hzq hq
          by_cases hzx : z = x
          · subst hzx
            exact hacyc z hx (Relation.TransGen.head' hsx (live_reach hlive))
          · cases hwz : W z with
            | some a =>
              have : a = q := by
                rw [hkW z a hwz] at hzq
                exact Option.some.inj hzq
              subst this
              exact hp z (Relation.ReflTransGen.head ⟨hwx, hsx⟩ (live_of_keeps hkW hlive)) a hwz hq
            | none =>
              have := hfresh z q (by rw [Memo.assign_other _ _ hzx]; exact hwz) hzq
              omega
        · intro p W' hcall
          have hf := instructionsOnLongestPath_final F fuel s Wc p W' hv hcall
          have hk' := (instructionsOnLongestPath_post F fuel s Wc p W' hcall).keeps
          refine ⟨Memo.keeps_trans hk hk', hf.values, ?_⟩
          intro z q hz hz'
          cases hw : Wc z with
          | none => exact hf.fresh z q hw hz'
          | some b =>
            have hbq : b = q := by
              rw [hk' z b hw] at hz'
              exact Option.some.inj hz'
            subst hbq
            exact hfresh z b hz hw
      · cases h

theorem countInstructionsOnLongestPath_eq_ok_iff {F : Function} {v : Int} :
    countInstructionsOnLongestPath F = .ok v ↔
      ∃ p W', instructionsOnLongestPath F (F.blocks.length + 1) 0 Memo.empty = .ok (p, W') ∧
        p.2 = v := by
  unfold countInstructionsOnLongestPath
  rw [Outcome.bind_eq_ok]
  constructor
  · rintro ⟨⟨p, W'⟩, h, h'⟩
    simp only [Outcome.ok.injEq] at h'
    exact ⟨p, W', h, h'⟩
  · rintro ⟨p, W', h, rfl⟩
    exact ⟨(p, W'), h, rfl⟩

/-- On a well-formed acyclic function the longest-path entry point returns a value. -/
theorem countInstructionsOnLongestPath_ok_of_acyclic {F : Function} (wf : F.WellFormed)
    (hacyc : F.Acyclic) : ∃ v, countInstructionsOnLongestPath F = .ok v := by
  have h1 := countInstructionsOnLongestPath_ne_outOfFuel wf
  have h2 : countInstructionsOnLongestPath F ≠ .assertFailed := by
    intro h
    rcases Outcome.bind_eq_assertFailed.1 h with h | ⟨r, _, h⟩
    · refine instructionsOnLongestPath_no_assert hacyc _ 0 Memo.empty pairsOk_empty
        (Function.reach_refl F 0) ?_ h
      intro z _ p hp
      simp [Memo.empty] at hp
    · cases h
  cases h : countInstructionsOnLongestPath F with
  | ok v => exact ⟨v, rfl⟩
  | assertFailed => exact absurd h h2
  | outOfFuel => exact absurd h h1

/-! ## The longest-path traversal on trees computes `L` -/

/-- In the successor loop of a reachable block of a tree, nothing below the next successor has
a memo entry yet. -/
theorem tree_step_absent {F : Function} (h : F.TreeLike) {x : Nat} {W : Memo (Int × Int)}
    (hx : F.Reachable x) (habs : ∀ z, F.Reach x z → W z = none)
    {pre post : List Nat} {s : Nat} {Wc : Memo (Int × Int)}
    (hl : F.succs x = pre ++ s :: post) (inv : PathLoop F (W.assign x (-1, -1)) pre Wc) :
    ∀ z, F.Reach s z → Wc z = none := by
  intro z hsz
  have hsx : s ∈ F.succs x := by rw [hl]; simp
  have hzx : z ≠ x := by
    rintro rfl
    exact h.1 z hx (Relation.TransGen.head' hsx hsz)
  have hW1 : (W.assign x (-1, -1)) z = none := by
    rw [Memo.assign_other _ _ hzx]
    exact habs z (Function.Reach.head hsx hsz)
  by_contra hne
  obtain ⟨t, ht, htz⟩ := inv.reach z hW1 hne
  have htx : t ∈ F.succs x := by rw [hl]; simp [ht]
  have hts : t ≠ s := by
    rintro rfl
    have h2 := two_le_count_of_split hl ht
    have := (h.2 t x x hx hx htx htx).2
    omega
  exact h.succ_disjoint hx htx hsx hts htz hsz

theorem instructionsOnLongestPath_tree {F : Function} (h : F.TreeLike) :
    ∀ (fuel x : Nat) (W : Memo (Int × Int)) (p : Int × Int) (W' : Memo (Int × Int)),
      F.Reachable x → (∀ z, F.Reach x z → W z = none) →
      instructionsOnLongestPath F fuel x W = .ok (p, W') → refL F fuel x = some p := by
  intro fuel
  induction fuel with
  | zero =>
    intro x W p W' _ _ hrun
    simp [instructionsOnLongestPath] at hrun
  | succ fuel ih =>
    intro x W p W' hx habs hrun
    have hwx : W x = none := habs x (Function.reach_refl F x)
    rw [instructionsOnLongestPath_miss F fuel x W hwx, Outcome.bind_eq_ok] at hrun
    obtain ⟨⟨m, W2⟩, hloop, hres⟩ := hrun
    simp only [Outcome.ok.injEq, Prod.mk.injEq] at hres
    obtain ⟨rfl, _⟩ := hres
    have key := longestSuccessor_ok_inv
      (fun pre m Wc => PathLoop F (W.assign x (-1, -1)) pre Wc ∧
        ∃ ps, collect (pre.map (refL F fuel)) = some ps ∧
          ((pre = [] ∧ m = (0, 0)) ∨ IsLexGreatest ps m))
      (F.succs x) (F.succs x) [] _ _ (m, W2) rfl
      ⟨pathLoop_init F _, [], by simp [collect], Or.inl ⟨rfl, rfl⟩⟩
      (fun pre s post m Wc p Wc' hl inv hcall => by
        obtain ⟨hpl, ps, hps, hm⟩ := inv
        have hsx : s ∈ F.succs x := by rw [hl]; simp
        have hp : refL F fuel s = some p :=
          ih s Wc p Wc' (Function.Reach.tail hx hsx) (tree_step_absent h hx habs hl hpl) hcall
        refine ⟨pathLoop_step hpl (instructionsOnLongestPath_post F fuel s Wc p Wc' hcall),
          ps ++ [p], ?_, Or.inr ?_⟩
        · rw [List.map_append, List.map_singleton, hp]
          exact collect_append_singleton p hps
        · rcases hm with ⟨rfl, rfl⟩ | hm
          · simp [collect] at hps
            subst hps
            have hpos := (refL_pos F fuel s p hp).1
            have : pairLe (0, 0) p = true := by
              rw [pairLe_iff]
              unfold lexLe
              simp only
              omega
            rw [if_pos this]
            exact ⟨by simp, fun q hq => by simp at hq; subst hq; exact lexLe_refl _⟩
          · by_cases hle : pairLe m p = true
            · simp only [hle, if_true]
              rw [pairLe_iff] at hle
              refine ⟨by simp, ?_⟩
              intro q hq
              rcases List.mem_append.1 hq with hq | hq
              · exact lexLe_trans (hm.2 q hq) hle
              · simp at hq; subst hq; exact lexLe_refl _
            · simp only [hle]
              rw [pairLe_iff] at hle
              have hpm := (lexLe_total m p).resolve_left hle
              refine ⟨by simp [hm.1], ?_⟩
              intro q hq
              rcases List.mem_append.1 hq with hq | hq
              · exact hm.2 q hq
              · simp at hq; subst hq; exact hpm)
      hloop
    obtain ⟨_, ps, hps, hm⟩ := key
    by_cases hs : F.succs x = []
    · rw [refL_sink F fuel x hs]
      rcases hm with ⟨_, hm⟩ | hm
      · have hm : m = (0, 0) := hm
        subst hm
        simp
      · rw [hs] at hps
        simp [collect] at hps
        subst hps
        exact absurd hm.1 (by simp)
    · rcases hm with ⟨hnil, _⟩ | hm
      · exact absurd hnil hs
      · exact (refL_node_eq_some hs).2 ⟨ps, m, hps, hm, rfl⟩

/-- On a well-formed function whose reachable part is a tree, the longest-path count is the
instruction total of a path from the entry to a sink that has the greatest number of blocks and,
among the paths with that many blocks, the greatest instruction total. -/
theorem countInstructionsOnLongestPath_tree {F : Function} (wf : F.WellFormed)
    (h : F.TreeLike) :
    ∃ P, IsSinkPath F 0 P ∧ countInstructionsOnLongestPath F = .ok (pathInstructions F P) ∧
      ∀ Q, IsSinkPath F 0 Q → Q.length < P.length ∨
        (Q.length = P.length ∧ pathInstructions F Q ≤ pathInstructions F P) := by
  obtain ⟨v, hv⟩ := countInstructionsOnLongestPath_ok_of_acyclic wf h.1
  obtain ⟨p, W', hrun, rfl⟩ := countInstructionsOnLongestPath_eq_ok_iff.1 hv
  have hL := instructionsOnLongestPath_tree h _ 0 Memo.empty p W' (Function.reach_refl F 0)
    (fun _ _ => rfl) hrun
  obtain ⟨⟨P, hP, hkey⟩, hmax⟩ := refL_paths F _ 0 p hL
  refine ⟨P, hP, by rw [hv, ← hkey], ?_⟩
  intro Q hQ
  have := hmax Q hQ
  rw [← hkey] at this
  unfold lexLe at this
  simp only at this
  omega

/-! ## Chains of blocks -/

theorem isChain_singleton {F : Function} {a : Nat} : IsChain F [a] ↔ F.succs a = [] := Iff.rfl

theorem isChain_cons_cons {F : Function} {a b : Nat} {rest : List Nat} :
    IsChain F (a :: b :: rest) ↔ F.succs a = [b] ∧ IsChain F (b :: rest) := Iff.rfl

theorem pairLe_zero_of_pos {p : Int × Int} (h : 1 ≤ p.1) : pairLe (0, 0) p = true := by
  rw [pairLe_iff]
  unfold lexLe
  simp only
  omega

/-- Running the longest-path worker at the head of a chain none of whose blocks has a memo entry:
it returns the number of blocks and the instruction total of the chain, and touches no entry
outside the chain. -/
theorem instructionsOnLongestPath_chain (F : Function) :
    ∀ (r : List Nat) (a fuel : Nat) (W : Memo (Int × Int)),
      IsChain F (a :: r) → (a :: r).Nodup → (∀ z ∈ a :: r, W z = none) →
      instructionsOnLongestPath F fuel a W = .outOfFuel ∨
      ∃ W', instructionsOnLongestPath F fuel a W
          = .ok (((((a :: r).length : Nat) : Int), pathInstructions F (a :: r)), W') ∧
        ∀ z, z ∉ a :: r → W' z = W z := by
  intro r
  induction r with
  | nil =>
    intro a fuel W hc _ habs
    cases fuel with
    | zero => left; rfl
    | succ fuel =>
      right
      have hwa : W a = none := habs a (by simp)
      rw [instructionsOnLongestPath_miss F fuel a W hwa, isChain_singleton.1 hc]
      refine ⟨(W.assign a (-1, -1)).assign a (0, 0),
        by simp [longestSuccessor, Outcome.bind, pathInstructions], ?_⟩
      intro z hz
      have hza : z ≠ a := by simpa using hz
      rw [Memo.assign_other _ _ hza, Memo.assign_other _ _ hza]
  | cons b r ih =>
    intro a fuel W hc hnd habs
    cases fuel with
    | zero => left; rfl
    | succ fuel =>
      have hwa : W a = none := habs a (by simp)
      obtain ⟨hsa, hc'⟩ := isChain_cons_cons.1 hc
      have hnd' : (b :: r).Nodup := (List.nodup_cons.1 hnd).2
      have hanot : a ∉ b :: r := (List.nodup_cons.1 hnd).1
      have habs' : ∀ z ∈ b :: r, (W.assign a (-1, -1)) z = none := by
        intro z hz
        have hza : z ≠ a := by rintro rfl; exact hanot hz
        rw [Memo.assign_other _ _ hza]
        exact habs z (List.mem_cons_of_mem _ hz)
      rw [instructionsOnLongestPath_miss F fuel a W hwa, hsa]
      rcases ih b fuel (W.assign a (-1, -1)) hc' hnd' habs' with hout | ⟨W2, hrun, hframe⟩
      · left
        simp [longestSuccessor, hout, Outcome.bind]
      · right
        have hpos : pairLe (0, 0)
            ((((b :: r).length : Nat) : Int), pathInstructions F (b :: r)) = true :=
          pairLe_zero_of_pos (by simp)
        refine ⟨W2.assign a ((((b :: r).length : Nat) : Int), pathInstructions F (b :: r)),
          ?_, ?_⟩
        · simp only [longestSuccessor, hrun, Outcome.bind, hpos, if_true]
          rw [pathInstructions_cons F a (b :: r)]
          simp only [List.length_cons, Nat.cast_add, Nat.cast_one, Outcome.ok.injEq,
            Prod.mk.injEq, and_true, true_and]
          omega
        · intro z hz
          have hza : z ≠ a := fun h => hz (by simp [h])
          have hzr : z ∉ b :: r := fun h => hz (List.mem_cons_of_mem _ h)
          rw [Memo.assign_other _ _ hza, hframe z hzr, Memo.assign_other _ _ hza]

/-- Block depth dominates: when the entry branches to the heads of two disjoint chains and the
chain `a :: r1` has more blocks than the chain `b :: r2`, the longest-path count is the
instruction total of the entry and the chain `a :: r1`, in either order of the two successors. -/
theorem countInstructionsOnLongestPath_chains {F : Function} (wf : F.WellFormed)
    {a b : Nat} {r1 r2 : List Nat} (h1 : IsChain F (a :: r1)) (h2 : IsChain F (b :: r2))
    (hnd : (0 :: ((a :: r1) ++ (b :: r2))).Nodup)
    (hentry : F.succs 0 = [a, b] ∨ F.succs 0 = [b, a]) (hlen : r2.length < r1.length) :
    countInstructionsOnLongestPath F = .ok (pathInstructions F (0 :: a :: r1)) := by
  have htot := countInstructionsOnLongestPath_ne_outOfFuel wf
  have hnd0 := List.nodup_cons.1 hnd
  have hndA : (a :: r1).Nodup := (List.nodup_append.1 hnd0.2).1
  have hndB : (b :: r2).Nodup := (List.nodup_append.1 hnd0.2).2.1
  have hdisj : ∀ z, z ∈ a :: r1 → z ∈ b :: r2 → False :=
    fun z hz hz' => (List.nodup_append.1 hnd0.2).2.2 hz hz'
  have h0A : 0 ∉ a :: r1 := fun h => hnd0.1 (List.mem_append_left _ h)
  have h0B : 0 ∉ b :: r2 := fun h => hnd0.1 (List.mem_append_right _ h)
  have hW1 : ∀ z, z ≠ 0 →
      ((Memo.empty : Memo (Int × Int)).assign 0 (-1, -1)) z = none := by
    intro z hz
    rw [Memo.assign_other _ _ hz]
    rfl
  have hkA : pairLe (0, 0) ((((a :: r1).length : Nat) : Int), pathInstructions F (a :: r1)) = true :=
    pairLe_zero_of_pos (by simp)
  have hkB : pairLe (0, 0) ((((b :: r2).length : Nat) : Int), pathInstructions F (b :: r2)) = true :=
    pairLe_zero_of_pos (by simp)
  have hAB : pairLe ((((a :: r1).length : Nat) : Int), pathInstructions F (a :: r1))
      ((((b :: r2).length : Nat) : Int), pathInstructions F (b :: r2)) = false := by
    rw [Bool.eq_false_iff, ne_eq, pairLe_iff]
    unfold lexLe
    simp only [List.length_cons, Nat.cast_add, Nat.cast_one]
    omega
  have hBA : pairLe ((((b :: r2).length : Nat) : Int), pathInstructions F (b :: r2))
      ((((a :: r1).length : Nat) : Int), pathInstructions F (a :: r1)) = true := by
    rw [pairLe_iff]
    unfold lexLe
    simp only [List.length_cons, Nat.cast_add, Nat.cast_one]
    omega
  unfold countInstructionsOnLongestPath at htot ⊢
  rw [instructionsOnLongestPath_miss F _ 0 Memo.empty rfl] at htot ⊢
  rcases hentry with he | he
  · rw [he] at htot ⊢
    rcases instructionsOnLongestPath_chain F r1 a F.blocks.length _ h1 hndA
      (fun z hz => hW1 z (fun h => h0A (h ▸ hz))) with hout | ⟨W2, hrunA, hframeA⟩
    · simp [longestSuccessor, hout, Outcome.bind] at htot
    · have habsB : ∀ z ∈ b :: r2, W2 z = none := by
        intro z hz
        rw [hframeA z (fun h => hdisj z h hz)]
        exact hW1 z (fun h => h0B (h ▸ hz))
      rcases instructionsOnLongestPath_chain F r2 b F.blocks.length W2 h2 hndB habsB
        with hout | ⟨W3, hrunB, _⟩
      · simp [longestSuccessor, hrunA, hout, Outcome.bind] at htot
      · simp only [longestSuccessor, hrunA, hrunB, Outcome.bind, hkA, hAB, if_true]
        rw [pathInstructions_cons F 0 (a :: r1)]
        simp only [Bool.false_eq_true, if_false, Outcome.ok.injEq]
        omega
  · rw [he] at htot ⊢
    rcases instructionsOnLongestPath_chain F r2 b F.blocks.length _ h2 hndB
      (fun z hz => hW1 z (fun h => h0B (h ▸ hz))) with hout | ⟨W2, hrunB, hframeB⟩
    · simp [longestSuccessor, hout, Outcome.bind] at htot
    · have habsA : ∀ z ∈ a :: r1, W2 z = none := by
        intro z hz
        rw [hframeB z (fun h => hdisj z hz h)]
        exact hW1 z (fun h => h0A (h ▸ hz))
      rcases instructionsOnLongestPath_chain F r1 a F.blocks.length W2 h1 hndA habsA
        with hout | ⟨W3, hrunA, _⟩
      · simp [longestSuccessor, hrunB, hout, Outcome.bind] at htot
      · simp only [longestSuccessor, hrunB, hrunA, Outcome.bind, hkB, hBA, if_true]
        rw [pathInstructions_cons F 0 (a :: r1)]
        simp only [Outcome.ok.injEq]
        omega

/-! ## Instrumented traversals: counting calls and expansions -/

theorem step_refl {α : Type} (F : Function) (k : Nat) (W : Memo α) (g : Ghost) :
    Step F k W g W g :=
  ⟨fun _ h => h, [], by simp, by simp, by simp, by simp⟩

theorem step_trans {α : Type} {F : Function} {k1 k2 : Nat} {W1 W2 W3 : Memo α}
    {g1 g2 g3 : Ghost} (h12 : Step F k1 W1 g1 W2 g2) (h23 : Step F k2 W2 g2 W3 g3) :
    Step F (k1 + k2) W1 g1 W3 g3 := by
  obtain ⟨d12, n1, e1, nd1, m1, c1⟩ := h12
  obtain ⟨d23, n2, e2, nd2, m2, c2⟩ := h23
  refine ⟨fun z h => d23 z (d12 z h), n2 ++ n1, by rw [e2, e1, List.append_assoc], ?_, ?_, ?_⟩
  · rw [List.nodup_append]
    refine ⟨nd2, nd1, ?_⟩
    intro z hz2 hz1
    exact (m1 z hz1).2.1 (m2 z hz2).1
  · intro z hz
    rcases List.mem_append.1 hz with hz | hz
    · refine ⟨?_, (m2 z hz).2.1, (m2 z hz).2.2⟩
      by_contra hne
      exact d12 z hne (m2 z hz).1
    · exact ⟨(m1 z hz).1, d23 z (m1 z hz).2.1, (m1 z hz).2.2⟩
  · simp only [List.map_append, List.sum_append]
    omega

theorem step_mono {α : Type} {F : Function} {k k' : Nat} {W W' : Memo α} {g g' : Ghost}
    (h : Step F k W g W' g') (hk : k ≤ k') : Step F k' W g W' g' := by
  obtain ⟨d, n, e, nd, m, c⟩ := h
  exact ⟨d, n, e, nd, m, by omega⟩

/-- The instrumented loop makes at most one call per successor, besides the calls accounted to
newly expanded blocks. -/
theorem foldSuccessorsT_step {α : Type} {F : Function} (upd : α → α → α)
    (call : Nat → Memo α → Ghost → Outcome α × Memo α × Ghost) :
    ∀ (l : List Nat) (acc : α) (W : Memo α) (g : Ghost),
      (∀ s ∈ l, ∀ W g, Step F 1 W g (call s W g).2.1 (call s W g).2.2) →
      Step F l.length W g (foldSuccessorsT upd call l acc W g).2.1
        (foldSuccessorsT upd call l acc W g).2.2 := by
  intro l
  induction l with
  | nil => intro acc W g _; exact step_refl F _ W g
  | cons s l ih =>
    intro acc W g hcall
    have h1 := hcall s (by simp) W g
    simp only [foldSuccessorsT]
    rcases hc : call s W g with ⟨o, W', g'⟩
    rw [hc] at h1
    have hlen : (s :: l).length = 1 + l.length := by simp; omega
    cases o with
    | ok v =>
      simp only
      rw [hlen]
      exact step_trans h1 (ih (upd acc v) W' g' (fun t ht => hcall t (List.mem_cons_of_mem _ ht)))
    | assertFailed => exact step_mono h1 (by simp)
    | outOfFuel => exact step_mono h1 (by simp)

theorem step_expand {α : Type} {F : Function} {x : Nat} {W : Memo α} {g : Ghost} (v : α)
    (hx : x < F.blocks.length) (hwx : W x = none) {W2 : Memo α} {g2 : Ghost}
    (h : Step F (F.succs x).length (W.assign x v) ⟨g.calls + 1, x :: g.expanded⟩ W2 g2) :
    Step F 1 W g W2 g2 := by
  obtain ⟨d, n, e, nd, m, c⟩ := h
  have hx2 : W2 x ≠ none := d x (by rw [Memo.assign_self]; simp)
  refine ⟨?_, n ++ [x], by simp [e], ?_, ?_, ?_⟩
  · intro z hz
    apply d
    by_cases hzx : z = x
    · subst hzx; exact absurd hwx hz
    · rw [Memo.assign_other _ _ hzx]; exact hz
  · rw [List.nodup_append]
    refine ⟨nd, by simp, ?_⟩
    intro z hz hzx
    simp at hzx
    subst hzx
    have := (m z hz).1
    rw [Memo.assign_self] at this
    cases this
  · intro z hz
    rcases List.mem_append.1 hz with hz | hz
    · refine ⟨?_, (m z hz).2.1, (m z hz).2.2⟩
      exact (Memo.keeps_assign v hwx).none_of_none (m z hz).1
    · simp at hz
      subst hz
      exact ⟨hwx, hx2, hx⟩
  · simp only [List.map_append, List.sum_append, List.map_cons, List.map_nil, List.sum_cons,
      List.sum_nil] at c ⊢
    omega

theorem step_assign {α : Type} {F : Function} {k : Nat} {W W2 : Memo α} {g g2 : Ghost}
    (h : Step F k W g W2 g2) (x : Nat) (v : α) : Step F k W g (W2.assign x v) g2 := by
  obtain ⟨d, n, e, nd, m, c⟩ := h
  have hd : ∀ z, W2 z ≠ none → (W2.assign x v) z ≠ none := by
    intro z hz
    by_cases hzx : z = x
    · subst hzx; rw [Memo.assign_self]; simp
    · rw [Memo.assign_other _ _ hzx]; exact hz
  exact ⟨fun z hz => hd z (d z hz), n, e, nd, fun z hz => ⟨(m z hz).1, hd z (m z hz).2.1,
    (m z hz).2.2⟩, c⟩

/-! ## The bookkeeping does not change the run -/

theorem untrace_foldSuccessorsT_sum
    {callT : Nat → Memo Int → Ghost → Outcome Int × Memo Int × Ghost}
    {call : Nat → Memo Int → Outcome (Int × Memo Int)}
    (h : ∀ s W g, untrace (callT s W g) = call s W) :
    ∀ (l : List Nat) (c : Int) (W : Memo Int) (g : Ghost),
      untrace (foldSuccessorsT (fun c v => c + v) callT l c W g) = sumSuccessors call l c W := by
  intro l
  induction l with
  | nil => intro c W g; rfl
  | cons s l ih =>
    intro c W g
    have hs := h s W g
    simp only [foldSuccessorsT, sumSuccessors]
    rcases hc : callT s W g with ⟨o, W', g'⟩
    rw [hc] at hs
    rw [← hs]
    cases o with
    | ok v => simp only [untrace, Outcome.bind]; exact ih _ _ _
    | assertFailed => rfl
    | outOfFuel => rfl

theorem untrace_foldSuccessorsT_longest
    {callT : Nat → Memo (Int × Int) → Ghost → Outcome (Int × Int) × Memo (Int × Int) × Ghost}
    {call : Nat → Memo (Int × Int) → Outcome ((Int × Int) × Memo (Int × Int))}
    (h : ∀ s W g, untrace (callT s W g) = call s W) :
    ∀ (l : List Nat) (m : Int × Int) (W : Memo (Int × Int)) (g : Ghost),
      untrace (foldSuccessorsT (fun m p => if pairLe m p then p else m) callT l m W g)
        = longestSuccessor call l m W := by
  intro l
  induction l with
  | nil => intro c W g; rfl
  | cons s l ih =>
    intro c W g
    have hs := h s W g
    simp only [foldSuccessorsT, longestSuccessor]
    rcases hc : callT s W g with ⟨o, W', g'⟩
    rw [hc] at hs
    rw [← hs]
    cases o with
    | ok v => simp only [untrace, Outcome.bind]; exact ih _ _ _
    | assertFailed => rfl
    | outOfFuel => rfl

/-- Forgetting the bookkeeping of the instrumented McCabe worker gives the worker. -/
theorem untrace_basicBlockMcCabeMeasureT (F : Function) :
    ∀ (fuel x : Nat) (W : Memo Int) (g : Ghost),
      untrace (basicBlockMcCabeMeasureT F fuel x W g) = basicBlockMcCabeMeasure F fuel x W := by
  intro fuel
  induction fuel with
  | zero => intro x W g; rfl
  | succ fuel ih =>
    intro x W g
    have hloop := untrace_foldSuccessorsT_sum ih
    simp only [basicBlockMcCabeMeasureT, basicBlockMcCabeMeasure]
    cases hwx : W.find x with
    | some a =>
      simp only
      by_cases ha : a = -1 <;> simp [ha, untrace]
    | none =>
      simp only
      by_cases hs : (F.succs x).length = 0
      · simp [hs, untrace]
      · simp only [hs, if_false]
        rw [← hloop]
        rcases foldSuccessorsT (fun c v => c + v) (basicBlockMcCabeMeasureT F fuel) (F.succs x)
          ((F.block x).selectCount : Int) (W.insert x (-1)) ⟨g.calls + 1, x :: g.expanded⟩
          with ⟨o, W2, g2⟩
        cases o <;> rfl

/-- Forgetting the bookkeeping of the instrumented longest-path worker gives the worker. -/
theorem untrace_instructionsOnLongestPathT (F : Function) :
    ∀ (fuel x : Nat) (W : Memo (Int × Int)) (g : Ghost),
      untrace (instructionsOnLongestPathT F fuel x W g) = instructionsOnLongestPath F fuel x W := by
  intro fuel
  induction fuel with
  | zero => intro x W g; rfl
  | succ fuel ih =>
    intro x W g
    have hloop := untrace_foldSuccessorsT_longest ih
    simp only [instructionsOnLongestPathT, instructionsOnLongestPath]
    cases hwx : W.find x with
    | some a =>
      simp only
      by_cases ha : a.2 = -1 <;> simp [ha, untrace]
    | none =>
      simp only
      rw [← hloop]
      rcases foldSuccessorsT (fun m p => if pairLe m p then p else m)
        (instructionsOnLongestPathT F fuel) (F.succs x) (0, 0) (W.insert x (-1, -1))
        ⟨g.calls + 1, x :: g.expanded⟩ with ⟨o, W2, g2⟩
      cases o <;> rfl

theorem untrace_eq_outOfFuel {α : Type} {r : Outcome α × Memo α × Ghost} :
    untrace r = .outOfFuel ↔ r.1 = .outOfFuel := by
  obtain ⟨o, W, g⟩ := r
  cases o <;> simp [untrace]

/-! ## Every block is expanded at most once -/

theorem basicBlockMcCabeMeasureT_step {F : Function} (wf : F.WellFormed) :
    ∀ (fuel x : Nat) (W : Memo Int) (g : Ghost), x < F.blocks.length →
      Step F 1 W g (basicBlockMcCabeMeasureT F fuel x W g).2.1
        (basicBlockMcCabeMeasureT F fuel x W g).2.2 := by
  intro fuel
  induction fuel with
  | zero => intro x W g _; exact step_refl F 1 W g
  | succ fuel ih =>
    intro x W g hx
    simp only [basicBlockMcCabeMeasureT]
    cases hwx : W.find x with
    | some a => exact ⟨fun _ h => h, [], by simp, by simp, by simp, by simp⟩
    | none =>
      have hwx' : W x = none := hwx
      simp only
      rw [Memo.insert_eq_assign _ hwx']
      by_cases hs : (F.succs x).length = 0
      · simp only [hs, if_true]
        exact step_expand (-1) hx hwx' (step_refl F _ _ _)
      · simp only [hs, if_false]
        have hfold := foldSuccessorsT_step (F := F) (fun c v => c + v)
          (basicBlockMcCabeMeasureT F fuel) (F.succs x) ((F.block x).selectCount : Int)
          (W.assign x (-1)) ⟨g.calls + 1, x :: g.expanded⟩
          (fun s hs W g => ih s W g (wf.succ_lt hs))
        generalize foldSuccessorsT (fun c v => c + v) (basicBlockMcCabeMeasureT F fuel)
          (F.succs x) ((F.block x).selectCount : Int) (W.assign x (-1))
          ⟨g.calls + 1, x :: g.expanded⟩ = r at hfold ⊢
        obtain ⟨o, W2, g2⟩ := r
        cases o with
        | ok c => exact step_expand (-1) hx hwx' (step_assign hfold x c)
        | assertFailed => exact step_expand (-1) hx hwx' hfold
        | outOfFuel => exact step_expand (-1) hx hwx' hfold

theorem instructionsOnLongestPathT_step {F : Function} (wf : F.WellFormed) :
    ∀ (fuel x : Nat) (W : Memo (Int × Int)) (g : Ghost), x < F.blocks.length →
      Step F 1 W g (instructionsOnLongestPathT F fuel x W g).2.1
        (instructionsOnLongestPathT F fuel x W g).2.2 := by
  intro fuel
  induction fuel with
  | zero => intro x W g _; exact step_refl F 1 W g
  | succ fuel ih =>
    intro x W g hx
    simp only [instructionsOnLongestPathT]
    cases hwx : W.find x with
    | some a => exact ⟨fun _ h => h, [], by simp, by simp, by simp, by simp⟩
    | none =>
      have hwx' : W x = none := hwx
      simp only
      rw [Memo.insert_eq_assign _ hwx']
      have hfold := foldSuccessorsT_step (F := F) (fun m p => if pairLe m p then p else m)
        (instructionsOnLongestPathT F fuel) (F.succs x) (0, 0)
        (W.assign x (-1, -1)) ⟨g.calls + 1, x :: g.expanded⟩
        (fun s hs W g => ih s W g (wf.succ_lt hs))
      generalize foldSuccessorsT (fun m p => if pairLe m p then p else m)
        (instructionsOnLongestPathT F fuel) (F.succs x) (0, 0)
        (W.assign x (-1, -1)) ⟨g.calls + 1, x :: g.expanded⟩ = r at hfold ⊢
      obtain ⟨o, W2, g2⟩ := r
      cases o with
      | ok m => exact step_expand (-1, -1) hx hwx' (step_assign hfold x m)
      | assertFailed => exact step_expand (-1, -1) hx hwx' hfold
      | outOfFuel => exact step_expand (-1, -1) hx hwx' hfold

theorem sum_succs_le_edgeCount (F : Function) {l : List Nat} (hnd : l.Nodup)
    (hlt : ∀ z ∈ l, z < F.blocks.length) :
    (l.map (fun z => (F.succs z).length)).sum ≤ edgeCount F := by
  have hsub : l.Subperm (List.range F.blocks.length) :=
    List.subperm_of_subset hnd (fun z hz => List.mem_range.2 (hlt z hz))
  obtain ⟨l', hperm, hsl⟩ := hsub
  rw [← (hperm.map (fun z => (F.succs z).length)).sum_eq]
  exact (hsl.map (fun z => (F.succs z).length)).sum_le_sum (fun a _ => Nat.zero_le a)

/-- From an empty table and empty bookkeeping, a run that is one `Step` expands no block twice
and makes at most `edgeCount F + 1` calls. -/
theorem step_bounds {α : Type} {F : Function} {W' : Memo α} {g' : Ghost}
    (h : Step F 1 (Memo.empty : Memo α) ⟨0, []⟩ W' g') :
    g'.expanded.Nodup ∧ g'.calls ≤ edgeCount F + 1 := by
  obtain ⟨_, n, e, nd, m, c⟩ := h
  simp only [List.append_nil] at e
  subst e
  have := sum_succs_le_edgeCount F nd (fun z hz => (m z hz).2.2)
  simp only at c
  exact ⟨nd, by omega⟩

/-! ## Decidable sufficient conditions for the graph notions -/

theorem forward_edge_lt {F : Function} (h : F.Forward) {u v : Nat} (e : F.Edge u v) :
    u < v := by
  by_cases hu : u < F.blocks.length
  · exact h u hu v e
  · have e' : v ∈ F.succs u := e
    rw [F.succs_of_ge (Nat.le_of_not_lt hu)] at e'
    cases e'

theorem forward_acyclic {F : Function} (h : F.Forward) : F.Acyclic := by
  intro v _ hc
  have key : ∀ a b, Relation.TransGen F.Edge a b → a < b := by
    intro a b hab
    induction hab with
    | single e => exact forward_edge_lt h e
    | tail _ e ih => exact lt_trans ih (forward_edge_lt h e)
  exact lt_irrefl v (key v v hc)

theorem forward_treeLike {F : Function} (h : F.Forward) (hu : F.UniqueEntries) :
    F.TreeLike := by
  refine ⟨forward_acyclic h, ?_⟩
  intro z u u' _ _ hzu hzu'
  have hlt : ∀ w, z ∈ F.succs w → w < F.blocks.length := by
    intro w hw
    by_contra hne
    rw [F.succs_of_ge (Nat.le_of_not_lt hne)] at hw
    cases hw
  exact hu u (hlt u hzu) u' (hlt u' hzu') z hzu hzu'

theorem enumerates_mem_iff {F : Function} {R : List Nat} (h : F.Enumerates R) :
    ∀ z, z ∈ R ↔ F.Reachable z := by
  intro z
  constructor
  · intro hz
    induction z using Nat.strong_induction_on with
    | _ z ih =>
      rcases h.2.2 z hz with rfl | ⟨u, hu, hlt, hzu⟩
      · exact Function.reach_refl F 0
      · exact Function.Reach.tail (ih u hlt hu) hzu
  · intro hz
    induction hz with
    | refl => exact h.1
    | tail _ e ih => exact h.2.1 _ ih _ e

/-! ## The invariant of successful longest-path runs -/

theorem donePath_keeps {W W' : Memo (Int × Int)} {z : Nat} (h : DonePath W z)
    (hk : W.Keeps W') : DonePath W' z := by
  obtain ⟨p, hp, hd⟩ := h
  exact ⟨p, hk z p hp, hd⟩

theorem donePath_assign {W : Memo (Int × Int)} {s : Nat} (h : DonePath W s) (x : Nat)
    {m : Int × Int} (hm : m.2 ≠ -1) : DonePath (W.assign x m) s := by
  by_cases hsx : s = x
  · subst hsx; exact ⟨m, Memo.assign_self _ _ _, hm⟩
  · obtain ⟨p, hp, hd⟩ := h
    exact ⟨p, by rw [Memo.assign_other _ _ hsx]; exact hp, hd⟩

theorem pathHonest_empty (F : Function) : PathHonest F Memo.empty where
  values := pairsOk_empty
  closed := fun z p h => by simp [Memo.empty] at h
  acyclic := fun z ⟨p, h, _⟩ => by simp [Memo.empty] at h
  bound := fun z p h => by simp [Memo.empty] at h

theorem pathHonest_done_reach {F : Function} {W : Memo (Int × Int)} (hW : PathHonest F W)
    {s t : Nat} (hs : DonePath W s) (h : F.Reach s t) : DonePath W t := by
  induction h with
  | refl => exact hs
  | tail _ e ih =>
    obtain ⟨p, hp, hd⟩ := ih
    exact hW.closed _ p hp hd _ e

theorem pathHonest_mark {F : Function} {x : Nat} {W : Memo (Int × Int)} (hW : PathHonest F W)
    (h : W x = none) : PathHonest F (W.assign x (-1, -1)) := by
  have hfin : ∀ z p, (W.assign x (-1, -1)) z = some p → p.2 ≠ -1 → W z = some p := by
    intro z p hz hp
    by_cases hzx : z = x
    · subst hzx
      rw [Memo.assign_self] at hz
      cases hz
      exact absurd rfl hp
    · rw [Memo.assign_other _ _ hzx] at hz; exact hz
  refine ⟨pairsOk_assign hW.values x (Or.inl rfl), ?_, ?_, ?_⟩
  · intro z p hz hp s hsz
    exact donePath_keeps (hW.closed z p (hfin z p hz hp) hp s hsz) (Memo.keeps_assign _ h)
  · rintro z ⟨p, hz, hp⟩ hcyc
    exact hW.acyclic z ⟨p, hfin z p hz hp, hp⟩ hcyc
  · intro z p hz hp
    exact hW.bound z p (hfin z p hz hp) hp

theorem pathInstructions_nonneg (F : Function) (P : List Nat) : 0 ≤ pathInstructions F P := by
  induction P with
  | nil => simp [pathInstructions]
  | cons a P ih =>
    rw [pathInstructions_cons]
    have : (0 : Int) ≤ ((F.block a).sizeWithoutDebug : Int) := by omega
    omega

theorem pathHonestLoop_step {F : Function} {W1 : Memo (Int × Int)} {pre : List Nat}
    {m : Int × Int} {W : Memo (Int × Int)} (inv : PathHonestLoop F W1 pre m W) {s : Nat}
    {p : Int × Int} {W' : Memo (Int × Int)} (hk : W.Keeps W') (res : PathResult F s W p W') :
    PathHonestLoop F W1 (pre ++ [s]) (if pairLe m p then p else m) W' := by
  obtain ⟨P, hP, hle⟩ := res.upper
  refine ⟨res.honest, Memo.keeps_trans inv.keeps hk, ?_, ?_, Or.inr ?_⟩
  · intro t ht
    rcases List.mem_append.1 ht with h | h
    · exact donePath_keeps (inv.done t h) hk
    · simp at h; subst h; exact res.done
  · split
    · exact res.nonneg
    · exact inv.nonneg
  · split
    · exact ⟨s, by simp, P, hP, hle⟩
    · rcases inv.upper with ⟨_, hm⟩ | ⟨t, ht, Q, hQ, hQle⟩
      · refine ⟨s, by simp, P, hP, ?_⟩
        rw [hm]
        exact pathInstructions_nonneg F P
      · exact ⟨t, by simp [ht], Q, hQ, hQle⟩

theorem pathResult_of_loop {F : Function} {x : Nat} {W : Memo (Int × Int)} (h : W x = none)
    {m : Int × Int} {W2 : Memo (Int × Int)}
    (inv : PathHonestLoop F (W.assign x (-1, -1)) (F.succs x) m W2) :
    PathResult F x W (m.1 + 1, m.2 + ((F.block x).sizeWithoutDebug : Int)) (W2.assign x m) := by
  have hm : m.2 ≠ -1 := by have := inv.nonneg; omega
  have hx2 : W2 x = some (-1, -1) := inv.keeps x (-1, -1) (Memo.assign_self _ _ _)
  have hsize : (0 : Int) ≤ ((F.block x).sizeWithoutDebug : Int) := by omega
  have hn : (0 : Int) ≤ m.2 := inv.nonneg
  have hother : ∀ z, z ≠ x → (W2.assign x m) z = W2 z := fun z hz => Memo.assign_other _ _ hz
  have hpath : ∃ P, IsSinkPath F x P ∧
      m.2 + ((F.block x).sizeWithoutDebug : Int) ≤ pathInstructions F P := by
    rcases inv.upper with ⟨hnil, hm0⟩ | ⟨s, hs, P, hP, hle⟩
    · refine ⟨[x], isSinkPath_singleton.2 ⟨rfl, hnil⟩, ?_⟩
      rw [hm0]
      simp [pathInstructions]
    · refine ⟨x :: P, isSinkPath_cons.2 ⟨rfl, Or.inr ⟨s, hs, hP⟩⟩, ?_⟩
      rw [pathInstructions_cons]
      omega
  refine ⟨⟨pairsOk_assign inv.honest.values x (Or.inr inv.nonneg), ?_, ?_, ?_⟩,
    ⟨m, Memo.assign_self _ _ _, hm⟩, by simp only; omega, hpath, fun _ => by simp only; omega⟩
  · intro z p hz hp s hsz
    by_cases hzx : z = x
    · subst hzx
      exact donePath_assign (inv.done s hsz) z hm
    · rw [hother z hzx] at hz
      exact donePath_assign (inv.honest.closed z p hz hp s hsz) x hm
  · rintro z ⟨p, hz, hp⟩ hcyc
    by_cases hzx : z = x
    · subst hzx
      obtain ⟨s, hsz, hr⟩ := Relation.TransGen.head'_iff.1 hcyc
      obtain ⟨q, hq, hd⟩ := pathHonest_done_reach inv.honest (inv.done s hsz) hr
      rw [hx2] at hq
      cases hq
      exact hd rfl
    · rw [hother z hzx] at hz
      exact inv.honest.acyclic z ⟨p, hz, hp⟩ hcyc
  · intro z p hz hp
    by_cases hzx : z = x
    · subst hzx
      rw [Memo.assign_self] at hz
      cases hz
      obtain ⟨P, hP, hle⟩ := hpath
      exact ⟨P, hP, by omega⟩
    · rw [hother z hzx] at hz
      exact inv.honest.bound z p hz hp

/-- A successful call of the longest-path worker keeps the invariant. -/
theorem instructionsOnLongestPath_honest (F : Function) :
    ∀ (fuel x : Nat) (W : Memo (Int × Int)) (p : Int × Int) (W' : Memo (Int × Int)),
      PathHonest F W → instructionsOnLongestPath F fuel x W = .ok (p, W') →
      PathResult F x W p W' := by
  intro fuel
  induction fuel with
  | zero =>
    intro x W p W' _ hrun
    simp [instructionsOnLongestPath] at hrun
  | succ fuel ih =>
    intro x W p W' hW hrun
    cases hx : W x with
    | some a =>
      rw [instructionsOnLongestPath_hit F fuel x W a hx] at hrun
      by_cases ha : a.2 = -1
      · simp [ha] at hrun
      · simp only [ne_eq, ha, not_false_eq_true, if_true, Outcome.ok.injEq, Prod.mk.injEq] at hrun
        obtain ⟨rfl, rfl⟩ := hrun
        refine ⟨hW, ⟨a, hx, ha⟩, ?_, hW.bound x a hx ha, fun h => by rw [hx] at h; cases h⟩
        rcases hW.values x a hx with h | h
        · rw [h] at ha; exact absurd rfl ha
        · exact h
    | none =>
      rw [instructionsOnLongestPath_miss F fuel x W hx, Outcome.bind_eq_ok] at hrun
      obtain ⟨⟨m, W2⟩, hloop, hres⟩ := hrun
      simp only [Outcome.ok.injEq, Prod.mk.injEq] at hres
      obtain ⟨rfl, rfl⟩ := hres
      apply pathResult_of_loop hx
      exact longestSuccessor_ok_inv
        (fun pre m Wc => PathHonestLoop F (W.assign x (-1, -1)) pre m Wc)
        (F.succs x) (F.succs x) [] _ _ (m, W2) rfl
        ⟨pathHonest_mark hW hx, Memo.keeps_refl _, by simp, le_refl _, Or.inl ⟨rfl, rfl⟩⟩
        (fun pre s post m Wc p Wc' _ inv hcall =>
          pathHonestLoop_step inv (instructionsOnLongestPath_post F fuel s Wc p Wc' hcall).keeps
            (ih s Wc p Wc' inv.honest hcall))
        hloop

/-- What a successful run of the longest-path entry point tells: no cycle is reachable, and the
count lies between the instruction count of the entry and the total of a path to a sink. -/
theorem countInstructionsOnLongestPath_ok_facts {F : Function} {v : Int}
    (h : countInstructionsOnLongestPath F = .ok v) :
    F.Acyclic ∧ ((F.block 0).sizeWithoutDebug : Int) ≤ v ∧
      ∃ P, IsSinkPath F 0 P ∧ v ≤ pathInstructions F P := by
  obtain ⟨p, W', hrun, rfl⟩ := countInstructionsOnLongestPath_eq_ok_iff.1 h
  have res := instructionsOnLongestPath_honest F _ 0 _ p W' (pathHonest_empty F) hrun
  exact ⟨fun z hz => res.honest.acyclic z (pathHonest_done_reach res.honest res.done hz),
    res.lower rfl, res.upper⟩

/-! ## Paths to a sink in an acyclic function -/

theorem map_block_range {α : Type} (F : Function) (f : BasicBlock → α) :
    (List.range F.blocks.length).map (fun i => f (F.block i)) = F.blocks.map f := by
  apply List.ext_getElem
  · simp
  · intro i h1 h2
    simp only [List.length_map, List.length_range] at h1
    simp [Function.block, List.getD, List.getElem?_eq_getElem h1]

theorem isSinkPath_reach {F : Function} : ∀ (P : List Nat) (x : Nat), IsSinkPath F x P →
    ∀ z ∈ P, F.Reach x z := by
  intro P
  induction P with
  | nil => intro x h; exact absurd h (by simp [IsSinkPath])
  | cons y P ih =>
    intro x h z hz
    obtain ⟨rfl, ⟨rfl, _⟩ | ⟨s, hs, hP⟩⟩ := isSinkPath_cons.1 h
    · simp at hz; subst hz; exact Function.reach_refl F _
    · rcases List.mem_cons.1 hz with rfl | hz
      · exact Function.reach_refl F _
      · exact Function.Reach.head hs (ih s hP z hz)

/-- In an acyclic function, a path from a reachable block to a sink visits no block twice. -/
theorem isSinkPath_nodup {F : Function} (hacyc : F.Acyclic) : ∀ (P : List Nat) (x : Nat),
    F.Reachable x → IsSinkPath F x P → P.Nodup := by
  intro P
  induction P with
  | nil => intro x _ h; exact absurd h (by simp [IsSinkPath])
  | cons y P ih =>
    intro x hx h
    obtain ⟨rfl, ⟨rfl, _⟩ | ⟨s, hs, hP⟩⟩ := isSinkPath_cons.1 h
    · simp
    · rw [List.nodup_cons]
      refine ⟨?_, ih s (Function.Reach.tail hx hs) hP⟩
      intro hy
      exact hacyc y hx (Relation.TransGen.head' hs (isSinkPath_reach P s hP y hy))

theorem pathInstructions_eq_cast (F : Function) (P : List Nat) :
    pathInstructions F P = (((P.map (fun z => (F.block z).sizeWithoutDebug)).sum : Nat) : Int) := by
  induction P with
  | nil => simp [pathInstructions]
  | cons a P ih =>
    rw [pathInstructions_cons, ih]
    simp only [List.map_cons, List.sum_cons, Nat.cast_add]

/-- The instruction total of a list of distinct blocks of the function is at most the
instruction count of the function. -/
theorem pathInstructions_le_count (F : Function) {P : List Nat} (hnd : P.Nodup)
    (hlt : ∀ z ∈ P, z < F.blocks.length) : pathInstructions F P ≤ countIRInstructions F := by
  have hsub : P.Subperm (List.range F.blocks.length) :=
    List.subperm_of_subset hnd (fun z hz => List.mem_range.2 (hlt z hz))
  obtain ⟨l', hperm, hsl⟩ := hsub
  have h1 : (P.map (fun z => (F.block z).sizeWithoutDebug)).sum
      ≤ ((List.range F.blocks.length).map (fun z => (F.block z).sizeWithoutDebug)).sum := by
    rw [← (hperm.map (fun z => (F.block z).sizeWithoutDebug)).sum_eq]
    exact (hsl.map (fun z => (F.block z).sizeWithoutDebug)).sum_le_sum (fun a _ => Nat.zero_le a)
  rw [map_block_range F BasicBlock.sizeWithoutDebug] at h1
  rw [pathInstructions_eq_cast]
  unfold countIRInstructions Function.getInstructionCount
  exact_mod_cast h1

/-- On a well-formed acyclic function the longest-path count lies between the instruction count
of the entry block and the instruction count of the function. -/
theorem countInstructionsOnLongestPath_bounds {F : Function} (wf : F.WellFormed)
    (hacyc : F.Acyclic) :
    ∃ v, countInstructionsOnLongestPath F = .ok v ∧
      ((F.block 0).sizeWithoutDebug : Int) ≤ v ∧ v ≤ countIRInstructions F := by
  obtain ⟨v, hv⟩ := countInstructionsOnLongestPath_ok_of_acyclic wf hacyc
  obtain ⟨_, hlow, P, hP, hle⟩ := countInstructionsOnLongestPath_ok_facts hv
  refine ⟨v, hv, hlow, le_trans hle ?_⟩
  apply pathInstructions_le_count F (isSinkPath_nodup hacyc P 0 (Function.reach_refl F 0) hP)
  intro z hz
  exact wf.reachable_lt (isSinkPath_reach P 0 hP z hz)

/-- On a well-formed function the longest-path entry point ends in the failed assertion exactly
when a cycle is reachable from the entry. -/
theorem countInstructionsOnLongestPath_fails_iff {F : Function} (wf : F.WellFormed) :
    countInstructionsOnLongestPath F = .assertFailed ↔ F.HasReachableCycle := by
  constructor
  · intro hfail
    by_contra hno
    have hacyc : F.Acyclic := fun v hv hc => hno ⟨v, hv, hc⟩
    obtain ⟨v, hv⟩ := countInstructionsOnLongestPath_ok_of_acyclic wf hacyc
    rw [hv] at hfail
    cases hfail
  · rintro ⟨c, hc, hcyc⟩
    cases hF : countInstructionsOnLongestPath F with
    | ok v => exact absurd hcyc ((countInstructionsOnLongestPath_ok_facts hF).1 c hc)
    | assertFailed => rfl
    | outOfFuel => exact absurd hF (countInstructionsOnLongestPath_ne_outOfFuel wf)

/-! ## Counting paths -/

theorem walk_cons (F : Function) (x i : Nat) (P : List Nat) :
    walk F x (i :: P) = ((F.succs x)[i]?).bind (fun s => walk F s P) := by
  simp only [walk]
  cases (F.succs x)[i]? <;> rfl

theorem walk_reach {F : Function} : ∀ (P : List Nat) (x N : Nat), walk F x P = some N →
    F.Reach x N := by
  intro P
  induction P with
  | nil =>
    intro x N h
    simp only [walk, Option.some.injEq] at h
    subst h
    exact Function.reach_refl F x
  | cons i P ih =>
    intro x N h
    rw [walk_cons] at h
    obtain ⟨s, hs, hw⟩ := Option.bind_eq_some.1 h
    exact Function.Reach.head (List.getElem?_mem hs) (ih s N hw)

theorem reach_walk {F : Function} {x N : Nat} (h : F.Reach x N) : ∃ P, walk F x P = some N := by
  induction h using Relation.ReflTransGen.head_induction_on with
  | refl => exact ⟨[], rfl⟩
  | head e _ ih =>
    obtain ⟨P, hP⟩ := ih
    obtain ⟨i, hi, hget⟩ := List.getElem_of_mem e
    refine ⟨i :: P, ?_⟩
    rw [walk_cons, List.getElem?_eq_getElem hi, hget]
    exact hP

theorem mem_branchPaths {sub : Nat → List (List Nat)} :
    ∀ (l : List Nat) (off : Nat) (Q : List Nat),
      Q ∈ branchPaths sub off l ↔ ∃ j s P, l[j]? = some s ∧ Q = (off + j) :: P ∧ P ∈ sub s := by
  intro l
  induction l with
  | nil => intro off Q; simp [branchPaths]
  | cons a l ih =>
    intro off Q
    simp only [branchPaths, List.mem_append, List.mem_map, ih]
    constructor
    · rintro (⟨P, hP, rfl⟩ | ⟨j, s, P, hj, rfl, hP⟩)
      · exact ⟨0, a, P, by simp, by simp, hP⟩
      · exact ⟨j + 1, s, P, by simpa using hj, by simp; omega, hP⟩
    · rintro ⟨j, s, P, hj, rfl, hP⟩
      cases j with
      | zero =>
        simp only [List.getElem?_cons_zero, Option.some.injEq] at hj
        subst hj
        exact Or.inl ⟨P, hP, by simp⟩
      | succ j =>
        simp only [List.getElem?_cons_succ] at hj
        exact Or.inr ⟨j, s, P, hj, by simp; omega, hP⟩

theorem nodup_branchPaths {sub : Nat → List (List Nat)} :
    ∀ (l : List Nat) (off : Nat), (∀ s ∈ l, (sub s).Nodup) → (branchPaths sub off l).Nodup := by
  intro l
  induction l with
  | nil => intro off _; simp [branchPaths]
  | cons a l ih =>
    intro off h
    simp only [branchPaths]
    rw [List.nodup_append]
    refine ⟨?_, ih (off + 1) (fun s hs => h s (List.mem_cons_of_mem _ hs)), ?_⟩
    · exact (h a (by simp)).map (fun P Q hPQ => by simpa using hPQ)
    · intro Q hQ hQ'
      obtain ⟨P, _, rfl⟩ := List.mem_map.1 hQ
      obtain ⟨j, s, P', _, heq, _⟩ := (mem_branchPaths l (off + 1) _).1 hQ'
      simp only [List.cons.injEq] at heq
      omega

theorem nodup_unfoldPaths (F : Function) : ∀ (k x : Nat), (unfoldPaths F k x).Nodup := by
  intro k
  induction k with
  | zero => intro x; simp [unfoldPaths]
  | succ k ih =>
    intro x
    simp only [unfoldPaths, List.nodup_cons]
    refine ⟨?_, nodup_branchPaths _ 0 (fun s _ => ih s)⟩
    intro h
    obtain ⟨j, s, P, _, heq, _⟩ := (mem_branchPaths _ 0 _).1 h
    cases heq

theorem map_walk_branchPaths (F : Function) (x : Nat) {sub : Nat → List (List Nat)}
    {ends : Nat → List Nat} (hsub : ∀ s, (sub s).map (walk F s) = (ends s).map some) :
    ∀ (rest done : List Nat), F.succs x = done ++ rest →
      (branchPaths sub done.length rest).map (walk F x)
        = (rest.flatMap ends).map some := by
  intro rest
  induction rest with
  | nil => intro done _; simp [branchPaths]
  | cons s rest ih =>
    intro done hl
    simp only [branchPaths, List.map_append, List.flatMap_cons, List.map_map]
    have hget : (F.succs x)[done.length]? = some s := by
      rw [hl, List.getElem?_append_right (le_refl _)]
      simp
    have h1 : (sub s).map (walk F x ∘ fun P => done.length :: P) = (sub s).map (walk F s) := by
      apply List.map_congr_left
      intro P _
      simp only [Function.comp, walk_cons, hget, Option.some_bind]
    rw [h1, hsub s]
    have := ih (done ++ [s]) (by simp [hl])
    simp only [List.length_append, List.length_singleton] at this
    rw [this]

/-- The blocks in which the listed paths end are the blocks of the unfolding, in order. -/
theorem map_walk_unfoldPaths (F : Function) : ∀ (k x : Nat),
    (unfoldPaths F k x).map (walk F x) = (unfold F k x).map some := by
  intro k
  induction k with
  | zero => intro x; rfl
  | succ k ih =>
    intro x
    simp only [unfoldPaths, unfold, List.map_cons, walk]
    congr 1
    exact map_walk_branchPaths F x ih (F.succs x) [] rfl

theorem refM_succ_defined {F : Function} {k x : Nat} {v : Int} (h : refM F (k + 1) x = some v)
    {s : Nat} (hs : s ∈ F.succs x) : ∃ a, refM F k s = some a := by
  have hne : F.succs x ≠ [] := by
    intro h0
    rw [h0] at hs
    cases hs
  rw [refM_node F k x hne] at h
  simp only [Option.map_eq_some'] at h
  obtain ⟨t, ht, _⟩ := h
  have key : ∀ (l : List Nat) (t : Int), sumDefined (l.map (refM F k)) = some t →
      ∀ s ∈ l, ∃ a, refM F k s = some a := by
    intro l
    induction l with
    | nil => intro t _ s hs; cases hs
    | cons b l ih =>
      intro t ht s hs
      rw [List.map_cons] at ht
      obtain ⟨a, r, ha, hr, _⟩ := sumDefined_eq_some_cons.1 ht
      rcases List.mem_cons.1 hs with rfl | hs
      · exact ⟨a, ha⟩
      · exact ih r hr s hs
  exact key _ t ht s hs

/-- Where the reference recursion is defined, the listing holds every path from the block. -/
theorem mem_unfoldPaths_of_walk (F : Function) : ∀ (k x : Nat) (v : Int),
    refM F k x = some v → ∀ P N, walk F x P = some N → P ∈ unfoldPaths F k x := by
  intro k
  induction k with
  | zero => intro x v h; simp [refM] at h
  | succ k ih =>
    intro x v h P N hw
    cases P with
    | nil => simp [unfoldPaths]
    | cons i P =>
      rw [walk_cons] at hw
      obtain ⟨s, hs, hw'⟩ := Option.bind_eq_some.1 hw
      obtain ⟨a, ha⟩ := refM_succ_defined h (List.getElem?_mem hs)
      simp only [unfoldPaths, List.mem_cons, reduceCtorEq, false_or]
      exact (mem_branchPaths _ 0 _).2 ⟨i, s, P, hs, by simp, ih s a ha P N hw'⟩

theorem walk_of_mem_unfoldPaths (F : Function) (k x : Nat) {P : List Nat}
    (h : P ∈ unfoldPaths F k x) : ∃ N, walk F x P = some N ∧ N ∈ unfold F k x := by
  have hmem : walk F x P ∈ (unfoldPaths F k x).map (walk F x) := List.mem_map_of_mem _ h
  rw [map_walk_unfoldPaths] at hmem
  obtain ⟨N, hN, heq⟩ := List.mem_map.1 hmem
  exact ⟨N, heq.symm, hN⟩

theorem sum_indicator (f : Nat → Int) : ∀ (R : List Nat) (e : Nat), R.Nodup → e ∈ R →
    (R.map (fun N => f N * ((if N = e then 1 else 0 : Nat) : Int))).sum = f e := by
  intro R
  induction R with
  | nil => intro e _ h; cases h
  | cons a R ih =>
    intro e hnd he
    obtain ⟨ha, hnd'⟩ := List.nodup_cons.1 hnd
    simp only [List.map_cons, List.sum_cons]
    rcases List.mem_cons.1 he with rfl | he'
    · have hzero : (R.map (fun N => f N * ((if N = e then 1 else 0 : Nat) : Int))).sum = 0 := by
        apply List.sum_eq_zero
        intro t ht
        obtain ⟨N, hN, rfl⟩ := List.mem_map.1 ht
        have : N ≠ e := by rintro rfl; exact ha hN
        simp [this]
      rw [hzero]
      simp
    · have hae : a ≠ e := by rintro rfl; exact ha he'
      rw [ih e hnd' he']
      simp [hae]

/-- Regrouping a sum over a list of blocks by block. -/
theorem sum_regroup (f : Nat → Int) {R : List Nat} (hR : R.Nodup) :
    ∀ (U : List Nat), (∀ z ∈ U, z ∈ R) →
      (U.map f).sum = (R.map (fun N => f N * ((U.count N : Nat) : Int))).sum := by
  intro U
  induction U with
  | nil => intro _; simp
  | cons e U ih =>
    intro h
    have he : e ∈ R := h e (by simp)
    have hsplit : (R.map (fun N => f N * (((e :: U).count N : Nat) : Int))).sum
        = (R.map (fun N => f N * ((U.count N : Nat) : Int))).sum
          + (R.map (fun N => f N * ((if N = e then 1 else 0 : Nat) : Int))).sum := by
      rw [← List.sum_map_add]
      congr 1
      apply List.map_congr_left
      intro N _
      rw [List.count_cons]
      by_cases hN : N = e
      · subst hN; simp; ring
      · have : ¬ (e == N) = true := by simpa using fun h => hN h.symm
        simp [hN, this]
    rw [hsplit, sum_indicator f R e hR he, List.map_cons, List.sum_cons,
      ih (fun z hz => h z (List.mem_cons_of_mem _ hz))]
    ring

theorem countP_endsInSink_unfoldPaths (F : Function) (k : Nat) :
    (unfoldPaths F k 0).countP (endsInSink F)
      = (unfold F k 0).countP (fun z => decide (F.succs z = [])) := by
  have h1 : (unfoldPaths F k 0).countP (endsInSink F)
      = ((unfoldPaths F k 0).map (walk F 0)).countP
          (fun o => match o with | some N => decide (F.succs N = []) | none => false) := by
    rw [List.countP_map]
    rfl
  rw [h1, map_walk_unfoldPaths, List.countP_map]
  rfl

theorem pathsTo_unfoldPaths (F : Function) (k N : Nat) :
    pathsTo F (unfoldPaths F k 0) N = (unfold F k 0).count N := by
  have h1 : pathsTo F (unfoldPaths F k 0) N
      = ((unfoldPaths F k 0).map (walk F 0)).countP (fun o => o == some N) := by
    rw [List.countP_map]
    rfl
  rw [h1, map_walk_unfoldPaths, List.countP_map, List.count]
  apply List.countP_congr
  intro z _
  simp

/-- Where `McCabeMeasure` returns a value, the paths from the entry are finitely many, and the
value is the number of paths that end in a sink plus, summed over the reachable blocks, the
number of selects of the block times the number of paths that end in the block. -/
theorem McCabeMeasure_path_count {F : Function} {v : Int} (h : McCabeMeasure F = .ok v) :
    (∃ paths : List (List Nat), paths.Nodup ∧ ∀ P, P ∈ paths ↔ (walk F 0 P).isSome) ∧
    ∀ (paths : List (List Nat)) (R : List Nat), paths.Nodup →
      (∀ P, P ∈ paths ↔ (walk F 0 P).isSome) → R.Nodup → (∀ z, z ∈ R ↔ F.Reachable z) →
      v = ((pathsToSink F paths : Nat) : Int)
          + (R.map (fun N => (((F.block N).selectCount : Nat) : Int)
              * ((pathsTo F paths N : Nat) : Int))).sum := by
  obtain ⟨⟨k, hk⟩, _, _⟩ := McCabeMeasure_ok_facts h
  obtain ⟨hv, _, _⟩ := refM_eq_unfold F k 0 v hk
  have hchar : ∀ P, P ∈ unfoldPaths F k 0 ↔ (walk F 0 P).isSome := by
    intro P
    constructor
    · intro hP
      obtain ⟨N, hN, _⟩ := walk_of_mem_unfoldPaths F k 0 hP
      simp [hN]
    · intro hP
      obtain ⟨N, hN⟩ := Option.isSome_iff_exists.1 hP
      exact mem_unfoldPaths_of_walk F k 0 v hk P N hN
  refine ⟨⟨unfoldPaths F k 0, nodup_unfoldPaths F k 0, hchar⟩, ?_⟩
  intro paths R hnd hmemP hR hmemR
  have hperm : paths.Perm (unfoldPaths F k 0) := by
    rw [List.perm_ext_iff_of_nodup hnd (nodup_unfoldPaths F k 0)]
    intro P
    rw [hmemP, hchar]
  have hsink : pathsToSink F paths = (unfold F k 0).countP (fun z => decide (F.succs z = [])) := by
    unfold pathsToSink
    rw [hperm.countP_eq, countP_endsInSink_unfoldPaths]
  have hto : ∀ N, pathsTo F paths N = (unfold F k 0).count N := by
    intro N
    unfold pathsTo
    rw [hperm.countP_eq]
    exact pathsTo_unfoldPaths F k N
  have hsel : (((unfold F k 0).map (fun z => (F.block z).selectCount)).sum : Nat)
      = ((unfold F k 0).map (fun z => (((F.block z).selectCount : Nat) : Int))).sum := by
    induction unfold F k 0 with
    | nil => simp
    | cons a l ih => simp only [List.map_cons, List.sum_cons, Nat.cast_add, ih]
  rw [hv, sum_weight_eq, hsink, hsel,
    sum_regroup (fun z => (((F.block z).selectCount : Nat) : Int)) hR (unfold F k 0)
      (fun z hz => (hmemR z).2 (unfold_reach F k 0 z hz))]
  simp only [hto]

/-! ## The loop-depth score -/

theorem depthProduct_append (a b : List Nat) :
    depthProduct (a ++ b) = depthProduct a * depthProduct b := by
  simp [depthProduct]

mutual
/-- The effect of `loopGeomeanDepth` at depth `d`: the counter grows by the number of leaf loops
inside the loop, the accumulator is multiplied by their nesting depths. -/
theorem loopGeomeanDepth_eq : ∀ (L : Loop) (d : Nat) (st : GeomeanState),
    loopGeomeanDepth L (d : ℚ) st
      = ⟨st.CountLoops + ((leafDepths d L).length : Nat),
          st.Accum * depthProduct (leafDepths d L)⟩
  | .mk subLoops, d, st => by
    have hd : ((d : ℚ) + 1) = ((d + 1 : Nat) : ℚ) := by push_cast; rfl
    rw [loopGeomeanDepth, hd, loopGeomeanDepthSubLoops_eq subLoops (d + 1) false st, leafDepths]
    cases subLoops with
    | nil => simp [leafDepthsOfList, depthProduct]
    | cons I rest => simp
theorem loopGeomeanDepthSubLoops_eq : ∀ (ls : List Loop) (d : Nat) (flag : Bool)
    (st : GeomeanState),
    loopGeomeanDepthSubLoops ls (d : ℚ) flag st
      = (flag || !ls.isEmpty,
          ⟨st.CountLoops + ((leafDepthsOfList d ls).length : Nat),
            st.Accum * depthProduct (leafDepthsOfList d ls)⟩)
  | [], d, flag, st => by
    simp [loopGeomeanDepthSubLoops, leafDepthsOfList, depthProduct]
  | I :: rest, d, flag, st => by
    rw [loopGeomeanDepthSubLoops, loopGeomeanDepth_eq I d st,
      loopGeomeanDepthSubLoops_eq rest d true _, leafDepthsOfList, depthProduct_append]
    simp only [List.isEmpty_cons, Bool.not_false, Bool.or_true, Bool.true_or, List.length_append,
      Nat.cast_add, Prod.mk.injEq, GeomeanState.mk.injEq, true_and]
    constructor
    · ring
    · ring
end

theorem foldl_loopGeomeanDepth (LI : List Loop) : ∀ (st : GeomeanState),
    LI.foldl (fun st I => loopGeomeanDepth I 1 st) st
      = ⟨st.CountLoops + ((leafDepthsOfList 1 LI).length : Nat),
          st.Accum * depthProduct (leafDepthsOfList 1 LI)⟩ := by
  induction LI with
  | nil => intro st; simp [leafDepthsOfList, depthProduct]
  | cons I rest ih =>
    intro st
    have h1 := loopGeomeanDepth_eq I 1 st
    simp only [Nat.cast_one] at h1
    rw [List.foldl_cons, h1, ih, leafDepthsOfList, depthProduct_append]
    simp only [List.length_append, Nat.cast_add, GeomeanState.mk.injEq]
    constructor
    · ring
    · ring

/-- The traversal of `geomean` counts the leaf loops of the forest and multiplies their nesting
depths. -/
theorem geomeanTraversal_eq (LI : List Loop) :
    geomeanTraversal LI
      = ⟨((forestLeafDepths LI).length : Nat), depthProduct (forestLeafDepths LI)⟩ := by
  rw [geomeanTraversal, foldl_loopGeomeanDepth]
  simp [forestLeafDepths]

mutual
theorem leafDepths_ge : ∀ (L : Loop) (d : Nat), leafDepths d L ≠ [] ∧ ∀ e ∈ leafDepths d L, d ≤ e
  | .mk subLoops, d => by
    rw [leafDepths]
    have h := leafDepthsOfList_ge subLoops (d + 1)
    cases subLoops with
    | nil => simp
    | cons I rest =>
      simp only [List.isEmpty_cons, Bool.false_eq_true, if_false]
      exact ⟨h.1 (by simp), fun e he => by have := h.2 e he; omega⟩
theorem leafDepthsOfList_ge : ∀ (ls : List Loop) (d : Nat),
    (ls ≠ [] → leafDepthsOfList d ls ≠ []) ∧ ∀ e ∈ leafDepthsOfList d ls, d ≤ e
  | [], d => by simp [leafDepthsOfList]
  | I :: rest, d => by
    rw [leafDepthsOfList]
    have h1 := leafDepths_ge I d
    have h2 := leafDepthsOfList_ge rest d
    refine ⟨fun _ => by simp [h1.1], ?_⟩
    intro e he
    rcases List.mem_append.1 he with he | he
    · exact h1.2 e he
    · exact h2.2 e he
end

theorem one_le_depthProduct : ∀ (ds : List Nat), (∀ e ∈ ds, 1 ≤ e) → 1 ≤ depthProduct ds := by
  intro ds
  induction ds with
  | nil => intro _; simp [depthProduct]
  | cons a ds ih =>
    intro h
    have ha : (1 : ℚ) ≤ (a : ℚ) := by exact_mod_cast h a (by simp)
    have hds := ih (fun e he => h e (List.mem_cons_of_mem _ he))
    have : depthProduct (a :: ds) = (a : ℚ) * depthProduct ds := by simp [depthProduct]
    rw [this]
    calc (1 : ℚ) = 1 * 1 := by norm_num
      _ ≤ (a : ℚ) * depthProduct ds := mul_le_mul ha hds (by norm_num) (by linarith)

theorem leafDepths_nestedLoops : ∀ (n d : Nat), leafDepths d (nestedLoops n) = [d + n] := by
  intro n
  induction n with
  | zero => intro d; simp [nestedLoops, leafDepths]
  | succ n ih =>
    intro d
    simp only [nestedLoops, leafDepths, List.isEmpty_cons, Bool.false_eq_true, if_false,
      leafDepthsOfList, List.append_nil, ih]
    congr 1
    omega

/-- On a non-empty forest the traversal of `geomean` ends with a counter and an accumulator that
are at least `1`. -/
theorem geomeanTraversal_pos {LI : List Loop} (h : LI ≠ []) :
    1 ≤ (geomeanTraversal LI).CountLoops ∧ 1 ≤ (geomeanTraversal LI).Accum := by
  rw [geomeanTraversal_eq]
  cases LI with
  | nil => exact absurd rfl h
  | cons I rest =>
    have hge := leafDepthsOfList_ge (I :: rest) 1
    refine ⟨?_, one_le_depthProduct _ hge.2⟩
    have : 0 < (forestLeafDepths (I :: rest)).length := List.length_pos.2 (hge.1 (by simp))
    simp only
    omega

/-- On a non-empty forest `geomean` returns `pow(Accum, 1.0 / CountLoops)`: neither of the two
`return 0` branches is taken. -/
theorem geomean_eq_pow {R : Type} [Zero R] (pow : ℚ → ℚ → R) {LI : List Loop} (h : LI ≠ []) :
    geomean pow LI
      = pow (geomeanTraversal LI).Accum (1 / ((geomeanTraversal LI).CountLoops : ℚ)) := by
  obtain ⟨hc, _⟩ := geomeanTraversal_pos h
  have hlen : LI.length ≠ 0 := by
    intro h0
    exact h (List.length_eq_zero.1 h0)
  have hc0 : (geomeanTraversal LI).CountLoops ≠ 0 := by omega
  simp only [geomean, hlen, if_false, hc0]

/-- With the power function of the real numbers the score of a non-empty forest is at least
`1`. -/
theorem geomean_real_pos {LI : List Loop} (h : LI ≠ []) :
    1 ≤ geomean (fun a e => ((a : ℝ)) ^ ((e : ℝ))) LI := by
  obtain ⟨hc, ha⟩ := geomeanTraversal_pos h
  rw [geomean_eq_pow _ h]
  apply Real.one_le_rpow
  · exact_mod_cast ha
  · have : (0 : ℚ) < (((geomeanTraversal LI).CountLoops : Int) : ℚ) := by
      exact_mod_cast (by omega : 0 < (geomeanTraversal LI).CountLoops)
    have h2 : (0 : ℚ) ≤ 1 / (((geomeanTraversal LI).CountLoops : Int) : ℚ) := by positivity
    exact_mod_cast h2

theorem geomean_nil {R : Type} [Zero R] (pow : ℚ → ℚ → R) : geomean pow [] = 0 := by
  simp [geomean]

/-- The state after the traversal of one chain of `n + 1` nested loops. -/
theorem geomeanTraversal_nestedLoops (n : Nat) :
    geomeanTraversal [nestedLoops n] = ⟨1, ((n + 1 : Nat) : ℚ)⟩ := by
  rw [geomeanTraversal_eq]
  simp [forestLeafDepths, leafDepthsOfList, leafDepths_nestedLoops, depthProduct, add_comm]

/-- With the power function of the real numbers the score of the forest made of one chain of
`n + 1` nested loops is `n + 1`. -/
theorem geomean_nestedLoops (n : Nat) :
    geomean (fun a e => ((a : ℝ)) ^ ((e : ℝ))) [nestedLoops n] = ((n + 1 : Nat) : ℝ) := by
  rw [geomean_eq_pow _ (by simp), geomeanTraversal_nestedLoops]
  simp

/-! ## Shared sinks; blocks that hold only a terminator -/

theorem McCabeMeasure_fails_of_shared_sink {F : Function} (wf : F.WellFormed) {z u u' : Nat}
    (hz : F.succs z = []) (hu : F.Reachable u) (hu' : F.Reachable u')
    (hzu : z ∈ F.succs u) (hzu' : z ∈ F.succs u')
    (hshared : u ≠ u' ∨ 2 ≤ (F.succs u).count z) : McCabeMeasure F = .assertFailed := by
  cases hF : McCabeMeasure F with
  | ok v =>
    have hun := (McCabeMeasure_ok_facts hF).2.2 z hz u u' hu hu' hzu hzu'
    rcases hshared with hne | hcount
    · exact absurd hun.1 hne
    · omega
  | assertFailed => rfl
  | outOfFuel => exact absurd hF (McCabeMeasure_ne_outOfFuel wf)

theorem getInstructionCount_terminatorsOnly (succs : List (List Nat)) :
    (terminatorsOnly succs).getInstructionCount = succs.length := by
  induction succs with
  | nil => rfl
  | cons s rest ih =>
    simp only [terminatorsOnly, Function.getInstructionCount, List.map_cons, List.sum_cons,
      List.length_cons] at ih ⊢
    rw [ih]
    simp [BasicBlock.sizeWithoutDebug, BasicBlock.instructionsWithoutDebug, Nat.add_comm]

/-! ## The properties stated by the specification -/

/-- C1. Whenever `McCabeMeasure` returns a value, the value is `M(entry)` for the reference
recursion `M(N) = decisionPointCount(N) + 1` at a block without successors and
`M(N) = decisionPointCount(N) + Σ M(S)` over the successor list (in order, with repetitions)
otherwise: the recursion is defined at the entry with that value, and it has no other value. -/
theorem McCabeMeasure_eq_reference (F : Function) (v : Int) (h : McCabeMeasure F = .ok v) :
    (∃ depth, refM F depth 0 = some v) ∧ ∀ depth m, refM F depth 0 = some m → m = v := by
  obtain ⟨⟨k, hk⟩, _, _⟩ := McCabeMeasure_ok_facts h
  exact ⟨⟨k, hk⟩, fun depth m hm => refM_unique F hm hk⟩

/-- Witness of C1 on a function whose entry branches twice to the same block. -/
theorem McCabeMeasure_eq_reference_witness :
    McCabeMeasure repeatedTarget = .ok 4 ∧
      ((∃ depth, refM repeatedTarget depth 0 = some 4) ∧
        ∀ depth m, refM repeatedTarget depth 0 = some m → m = 4) :=
  ⟨by decide, McCabeMeasure_eq_reference repeatedTarget 4 (by decide)⟩

/-- C2. On a well-formed function whose part reachable from the entry is a tree (no reachable
cycle, every block the target of at most one edge leaving a reachable block), `McCabeMeasure`
returns the number of reachable sinks plus the number of selects in reachable blocks, `R` being any
enumeration without repetition of the reachable blocks; unreachable blocks contribute nothing. -/
theorem McCabeMeasure_tree_value (F : Function) (wf : F.WellFormed) (h : F.TreeLike)
    (R : List Nat) (hR : R.Nodup) (hmem : ∀ z, z ∈ R ↔ F.Reachable z) :
    McCabeMeasure F = .ok (((R.countP (fun z => decide (F.succs z = [])) : Nat) : Int)
        + (((R.map (fun z => (F.block z).selectCount)).sum : Nat) : Int)) :=
  McCabeMeasure_of_tree wf h hR hmem

/-- Witness of C2: the switch of the unit test (three cases and a default give `4`, the
unreachable block `end` does not count) and a chain of three blocks holding three selects. -/
theorem McCabeMeasure_tree_value_witness :
    (switchFunction.WellFormed ∧ switchFunction.TreeLike ∧ [0, 4, 1, 2, 3].Nodup ∧
      (∀ z, z ∈ [0, 4, 1, 2, 3] ↔ switchFunction.Reachable z) ∧
      McCabeMeasure switchFunction = .ok 4) ∧
    (selectChain.WellFormed ∧ selectChain.TreeLike ∧ [0, 1, 2].Nodup ∧
      (∀ z, z ∈ [0, 1, 2] ↔ selectChain.Reachable z) ∧
      McCabeMeasure selectChain = .ok (1 + 3)) :=
  ⟨⟨by decide, forward_treeLike (by decide) (by decide), by decide,
      enumerates_mem_iff (by decide),
      McCabeMeasure_tree_value switchFunction (by decide)
        (forward_treeLike (by decide) (by decide)) [0, 4, 1, 2, 3] (by decide)
        (enumerates_mem_iff (by decide))⟩,
    ⟨by decide, forward_treeLike (by decide) (by decide), by decide,
      enumerates_mem_iff (by decide),
      McCabeMeasure_tree_value selectChain (by decide)
        (forward_treeLike (by decide) (by decide)) [0, 1, 2] (by decide)
        (enumerates_mem_iff (by decide))⟩⟩

/-- C3 fails on the code: the if/else with a common return block is well formed and acyclic, yet
`McCabeMeasure` ends in the failed assertion, because the sink branch of the worker returns
without replacing the in-progress marker. -/
theorem McCabeMeasure_diamond_fails :
    diamondFunction.WellFormed ∧ diamondFunction.Acyclic ∧
      McCabeMeasure diamondFunction = .assertFailed :=
  ⟨by decide, forward_acyclic (by decide), by decide⟩

/-- C4 fails on the code: with the shared tail listed first, the count is `3`, while the
reference recursion `L` gives `(4, 6)` at the entry; the memo entry written by the worker is the
pair of the chosen successor, not the pair it returns. -/
theorem countInstructionsOnLongestPath_sharedTail :
    twoPathWithOneEndSwapped.WellFormed ∧ twoPathWithOneEndSwapped.Acyclic ∧
      refL twoPathWithOneEndSwapped 4 0 = some (4, 6) ∧
      countInstructionsOnLongestPath twoPathWithOneEndSwapped = .ok 3 ∧
      countInstructionsOnLongestPath twoPathWithOneEnd = .ok 6 :=
  ⟨by decide, forward_acyclic (by decide), by decide, by decide, by decide⟩

/-- C5. Block depth dominates instruction count: when the entry of a well-formed function has
two successors that head two disjoint chains ending in distinct sinks, and the chain `a :: r1`
has strictly more blocks than the chain `b :: r2`, then `countInstructionsOnLongestPath` returns
the instruction count of the entry plus the instruction total of the chain `a :: r1`, whatever
the instruction counts of the other chain and whichever of the two successors comes first. -/
theorem countInstructionsOnLongestPath_depth_dominates (F : Function) (wf : F.WellFormed)
    (a b : Nat) (r1 r2 : List Nat) (h1 : IsChain F (a :: r1)) (h2 : IsChain F (b :: r2))
    (hnd : (0 :: ((a :: r1) ++ (b :: r2))).Nodup)
    (hentry : F.succs 0 = [a, b] ∨ F.succs 0 = [b, a]) (hlen : r2.length < r1.length) :
    countInstructionsOnLongestPath F
      = .ok (((F.block 0).sizeWithoutDebug : Int) + pathInstructions F (a :: r1)) := by
  rw [← pathInstructions_cons]
  exact countInstructionsOnLongestPath_chains wf h1 h2 hnd hentry hlen

/-- Witness of C5: the function of the unit test `SmallerPathBiggerInstructions`, where the
shorter chain holds more instructions. -/
theorem countInstructionsOnLongestPath_depth_dominates_witness :
    smallerPathBiggerInstructions.WellFormed ∧
      IsChain smallerPathBiggerInstructions (1 :: [2]) ∧
      IsChain smallerPathBiggerInstructions (3 :: []) ∧
      (0 :: ((1 :: [2]) ++ (3 :: []))).Nodup ∧
      (smallerPathBiggerInstructions.succs 0 = [1, 3] ∨
        smallerPathBiggerInstructions.succs 0 = [3, 1]) ∧
      ([] : List Nat).length < [2].length ∧
      countInstructionsOnLongestPath smallerPathBiggerInstructions = .ok 3 :=
  ⟨by decide, by decide, by decide, by decide, by decide, by decide,
    countInstructionsOnLongestPath_depth_dominates smallerPathBiggerInstructions (by decide)
      1 3 [2] [] (by decide) (by decide) (by decide) (by decide) (by decide)⟩

/-- C6 fails on the code: the function of the unit test `SmallerPathBiggerInstructions` is well
formed and acyclic, the path `entry, bb3` holds four instructions, and the count returned is `3`,
so the count is not the greatest instruction total over the paths from the entry to a sink. -/
theorem countInstructionsOnLongestPath_not_max_total :
    smallerPathBiggerInstructions.WellFormed ∧ smallerPathBiggerInstructions.Acyclic ∧
      ¬ ∃ v, countInstructionsOnLongestPath smallerPathBiggerInstructions = .ok v ∧
        IsMaxPathTotal smallerPathBiggerInstructions v := by
  refine ⟨by decide, forward_acyclic (by decide), ?_⟩
  rintro ⟨v, hv, _, hmax⟩
  have h3 : countInstructionsOnLongestPath smallerPathBiggerInstructions = .ok 3 := by decide
  rw [h3] at hv
  cases hv
  have := hmax [0, 3] (by decide)
  revert this
  decide

/-- C6, amended. On a well-formed function whose part reachable from the entry is a tree,
`countInstructionsOnLongestPath` returns the instruction total of a path from the entry to a sink
that has the greatest number of blocks and, among the paths with that many blocks, the greatest
instruction total. -/
theorem countInstructionsOnLongestPath_deepest_path (F : Function) (wf : F.WellFormed)
    (h : F.TreeLike) :
    ∃ P, IsSinkPath F 0 P ∧ countInstructionsOnLongestPath F = .ok (pathInstructions F P) ∧
      ∀ Q, IsSinkPath F 0 Q → Q.length < P.length ∨
        (Q.length = P.length ∧ pathInstructions F Q ≤ pathInstructions F P) :=
  countInstructionsOnLongestPath_tree wf h

/-- Witness of the amended C6 on the function of `SmallerPathBiggerInstructions`. -/
theorem countInstructionsOnLongestPath_deepest_path_witness :
    smallerPathBiggerInstructions.WellFormed ∧ smallerPathBiggerInstructions.TreeLike ∧
      ∃ P, IsSinkPath smallerPathBiggerInstructions 0 P ∧
        countInstructionsOnLongestPath smallerPathBiggerInstructions
          = .ok (pathInstructions smallerPathBiggerInstructions P) ∧
        ∀ Q, IsSinkPath smallerPathBiggerInstructions 0 Q → Q.length < P.length ∨
          (Q.length = P.length ∧ pathInstructions smallerPathBiggerInstructions Q
            ≤ pathInstructions smallerPathBiggerInstructions P) :=
  ⟨by decide, forward_treeLike (by decide) (by decide),
    countInstructionsOnLongestPath_deepest_path smallerPathBiggerInstructions (by decide)
      (forward_treeLike (by decide) (by decide))⟩

/-- C7 fails on the code: exchanging the two targets of the entry's branch in the function of the
unit test `TwoPathWithOneEnd` changes the count from `6` to `3`. -/
theorem countInstructionsOnLongestPath_order_dependent :
    twoPathWithOneEnd.WellFormed ∧ SuccsPermuted twoPathWithOneEnd twoPathWithOneEndSwapped ∧
      countInstructionsOnLongestPath twoPathWithOneEnd = .ok 6 ∧
      countInstructionsOnLongestPath twoPathWithOneEndSwapped = .ok 3 :=
  ⟨by decide, by decide, by decide, by decide⟩

/-- C8. `McCabeMeasure` does not depend on successor order: on a well-formed function, permuting
the successor lists of any blocks leaves the outcome unchanged, be it a value or the failed
assertion. -/
theorem McCabeMeasure_order_independent (F F' : Function) (wf : F.WellFormed)
    (h : SuccsPermuted F F') : McCabeMeasure F = McCabeMeasure F' :=
  McCabeMeasure_perm wf h

/-- Witness of C8: the switch of the unit test with its targets in two orders, and the loop with
the two targets of the header exchanged. -/
theorem McCabeMeasure_order_independent_witness :
    (switchFunction.WellFormed ∧ SuccsPermuted switchFunction switchFunctionPermuted ∧
      McCabeMeasure switchFunction = McCabeMeasure switchFunctionPermuted) ∧
    (loopFunction.WellFormed ∧
      SuccsPermuted loopFunction
        ⟨[plainBlock 0 [1], plainBlock 0 [3, 2], plainBlock 0 [1], plainBlock 0 []]⟩ ∧
      McCabeMeasure loopFunction = McCabeMeasure
        ⟨[plainBlock 0 [1], plainBlock 0 [3, 2], plainBlock 0 [1], plainBlock 0 []]⟩) :=
  ⟨⟨by decide, by decide,
      McCabeMeasure_order_independent switchFunction switchFunctionPermuted (by decide)
        (by decide)⟩,
    ⟨by decide, by decide,
      McCabeMeasure_order_independent loopFunction _ (by decide) (by decide)⟩⟩

/-- C9. Both traversals terminate on every well-formed function, cyclic or not: run with the
bookkeeping, which does not change the run, each worker stays within the call depth
`F.size() + 1`, expands no block twice, and is called at most `edgeCount F + 1` times. -/
theorem traversals_terminate (F : Function) (wf : F.WellFormed) :
    (untrace (McCabeMeasureT F)
        = basicBlockMcCabeMeasure F (F.blocks.length + 1) 0 Memo.empty ∧
      (McCabeMeasureT F).1 ≠ .outOfFuel ∧
      (McCabeMeasureT F).2.2.expanded.Nodup ∧
      (McCabeMeasureT F).2.2.calls ≤ edgeCount F + 1) ∧
    (untrace (countInstructionsOnLongestPathT F)
        = instructionsOnLongestPath F (F.blocks.length + 1) 0 Memo.empty ∧
      (countInstructionsOnLongestPathT F).1 ≠ .outOfFuel ∧
      (countInstructionsOnLongestPathT F).2.2.expanded.Nodup ∧
      (countInstructionsOnLongestPathT F).2.2.calls ≤ edgeCount F + 1) := by
  have e1 := untrace_basicBlockMcCabeMeasureT F (F.blocks.length + 1) 0 Memo.empty ⟨0, []⟩
  have e2 := untrace_instructionsOnLongestPathT F (F.blocks.length + 1) 0 Memo.empty ⟨0, []⟩
  have b1 := step_bounds (basicBlockMcCabeMeasureT_step wf (F.blocks.length + 1) 0 Memo.empty
    ⟨0, []⟩ wf.1)
  have b2 := step_bounds (instructionsOnLongestPathT_step wf (F.blocks.length + 1) 0 Memo.empty
    ⟨0, []⟩ wf.1)
  refine ⟨⟨e1, ?_, b1.1, b1.2⟩, ⟨e2, ?_, b2.1, b2.2⟩⟩
  · intro h
    have := untrace_eq_outOfFuel.2 h
    rw [McCabeMeasureT, e1] at this
    exact basicBlockMcCabeMeasure_fuel wf _ 0 Memo.empty valuesOk_empty wf.1
      (by rw [unvisited_empty]; omega) this
  · intro h
    have := untrace_eq_outOfFuel.2 h
    rw [countInstructionsOnLongestPathT, e2] at this
    exact instructionsOnLongestPath_fuel wf _ 0 Memo.empty wf.1
      (by rw [unvisited_empty]; omega) this

/-- Witness of C9 on the loop. -/
theorem traversals_terminate_witness :
    loopFunction.WellFormed ∧
    ((untrace (McCabeMeasureT loopFunction)
        = basicBlockMcCabeMeasure loopFunction (loopFunction.blocks.length + 1) 0 Memo.empty ∧
      (McCabeMeasureT loopFunction).1 ≠ .outOfFuel ∧
      (McCabeMeasureT loopFunction).2.2.expanded.Nodup ∧
      (McCabeMeasureT loopFunction).2.2.calls ≤ edgeCount loopFunction + 1) ∧
    (untrace (countInstructionsOnLongestPathT loopFunction)
        = instructionsOnLongestPath loopFunction (loopFunction.blocks.length + 1) 0 Memo.empty ∧
      (countInstructionsOnLongestPathT loopFunction).1 ≠ .outOfFuel ∧
      (countInstructionsOnLongestPathT loopFunction).2.2.expanded.Nodup ∧
      (countInstructionsOnLongestPathT loopFunction).2.2.calls ≤ edgeCount loopFunction + 1)) :=
  ⟨by decide, traversals_terminate loopFunction (by decide)⟩

/-- C10 fails on the code: in the loop function the header lies on a cycle reachable from the
entry and reaches the sink `exit`, yet `McCabeMeasure` returns no value. -/
theorem McCabeMeasure_loop_fails :
    loopFunction.WellFormed ∧
      (loopFunction.Reachable 1 ∧ Relation.TransGen loopFunction.Edge 1 1 ∧
        loopFunction.Reach 1 3 ∧ loopFunction.succs 3 = []) ∧
      ¬ ∃ v, McCabeMeasure loopFunction = .ok v := by
  have e01 : loopFunction.Edge 0 1 := by decide
  have e12 : loopFunction.Edge 1 2 := by decide
  have e21 : loopFunction.Edge 2 1 := by decide
  have e13 : loopFunction.Edge 1 3 := by decide
  refine ⟨by decide, ⟨Relation.ReflTransGen.single e01,
    Relation.TransGen.tail (Relation.TransGen.single e12) e21,
    Relation.ReflTransGen.single e13, by decide⟩, ?_⟩
  rintro ⟨v, hv⟩
  have hfail : McCabeMeasure loopFunction = .assertFailed := by decide
  rw [hfail] at hv
  cases hv

/-- C10, amended. On a well-formed function with a cycle reachable from the entry,
`McCabeMeasure` returns no value: the run ends in the failed in-progress assertion. -/
theorem McCabeMeasure_cycle_fails (F : Function) (wf : F.WellFormed)
    (h : F.HasReachableCycle) : McCabeMeasure F = .assertFailed := by
  obtain ⟨c, hc, hcyc⟩ := h
  cases hF : McCabeMeasure F with
  | ok v => exact absurd hcyc ((McCabeMeasure_ok_facts hF).2.1 c hc)
  | assertFailed => rfl
  | outOfFuel => exact absurd hF (McCabeMeasure_ne_outOfFuel wf)

/-- Witness of the amended C10 on the loop function. -/
theorem McCabeMeasure_cycle_fails_witness :
    loopFunction.WellFormed ∧ loopFunction.HasReachableCycle ∧
      McCabeMeasure loopFunction = .assertFailed :=
  have hcyc : loopFunction.HasReachableCycle :=
    ⟨1, Relation.ReflTransGen.single (show loopFunction.Edge 0 1 by decide),
      Relation.TransGen.tail
        (Relation.TransGen.single (show loopFunction.Edge 1 2 by decide))
        (show loopFunction.Edge 2 1 by decide)⟩
  ⟨by decide, hcyc, McCabeMeasure_cycle_fails loopFunction (by decide) hcyc⟩

/-- C11. On a well-formed function `countInstructionsOnLongestPath` ends in the failed
in-progress assertion if and only if a cycle is reachable from the entry; on every function
without a reachable cycle, whatever blocks or sinks its paths share, it returns a value. -/
theorem countInstructionsOnLongestPath_fails_iff_cycle (F : Function) (wf : F.WellFormed) :
    (countInstructionsOnLongestPath F = .assertFailed ↔ F.HasReachableCycle) ∧
      (F.Acyclic → ∃ v, countInstructionsOnLongestPath F = .ok v) :=
  ⟨countInstructionsOnLongestPath_fails_iff wf,
    fun hacyc => countInstructionsOnLongestPath_ok_of_acyclic wf hacyc⟩

/-- Witness of C11: the loop function fails and so has a reachable cycle; the if/else with a
common return block returns a value. -/
theorem countInstructionsOnLongestPath_fails_iff_cycle_witness :
    (loopFunction.WellFormed ∧ loopFunction.HasReachableCycle) ∧
      (diamondFunction.WellFormed ∧ diamondFunction.Acyclic ∧
        ∃ v, countInstructionsOnLongestPath diamondFunction = .ok v) :=
  ⟨⟨by decide,
      (countInstructionsOnLongestPath_fails_iff_cycle loopFunction (by decide)).1.1 (by decide)⟩,
    ⟨by decide, forward_acyclic (by decide),
      (countInstructionsOnLongestPath_fails_iff_cycle diamondFunction (by decide)).2
        (forward_acyclic (by decide))⟩⟩

/-- C12. For every loop forest, the traversal of `geomean` (accumulator `1`, counter `0`,
`loopGeomeanDepth` at depth `1` on each top-level loop) ends with the counter equal to the
number of leaf loops of the forest and the accumulator equal to the product of the nesting
depths of the leaf loops; loops with sub-loops contribute no factor. The arithmetic of the
accumulator is exact. On the forest of a loop without sub-loops and a loop that holds a leaf loop
and a loop around a leaf loop, the leaf depths are `1`, `2`, `3`, the counter is `3` and the
accumulator is `6`. -/
theorem geomeanTraversal_leaf_loops (LI : List Loop) :
    ((geomeanTraversal LI).CountLoops = ((forestLeafDepths LI).length : Nat) ∧
      (geomeanTraversal LI).Accum = ((forestLeafDepths LI).map (fun d => (d : ℚ))).prod) ∧
    (forestLeafDepths [Loop.mk [], Loop.mk [Loop.mk [], Loop.mk [Loop.mk []]]] = [1, 2, 3] ∧
      geomeanTraversal [Loop.mk [], Loop.mk [Loop.mk [], Loop.mk [Loop.mk []]]] = ⟨3, 6⟩) := by
  refine ⟨?_, by decide, ?_⟩
  · rw [geomeanTraversal_eq]
    exact ⟨rfl, rfl⟩
  · simp [geomeanTraversal, loopGeomeanDepth, loopGeomeanDepthSubLoops]
    norm_num

/-- C13. With the power function of the real numbers, the score of the forest made of a single
chain of `d` nested loops is `d`, for every `d` from `1` on; the score of the forest without
loops is `0`. -/
theorem geomean_nested_chain (d : Nat) (h : 1 ≤ d) :
    geomean (fun a e => ((a : ℝ)) ^ ((e : ℝ))) [nestedLoops (d - 1)] = (d : ℝ) ∧
      geomean (fun a e => ((a : ℝ)) ^ ((e : ℝ))) [] = 0 := by
  refine ⟨?_, geomean_nil _⟩
  rw [geomean_nestedLoops, Nat.sub_add_cancel h]

/-- Witness of C13 at the four nested loops of the unit test `LoopWithForthLevels`. -/
theorem geomean_nested_chain_witness :
    geomean (fun a e => ((a : ℝ)) ^ ((e : ℝ))) [Loop.mk [Loop.mk [Loop.mk [Loop.mk []]]]]
        = ((4 : Nat) : ℝ) ∧
      geomean (fun a e => ((a : ℝ)) ^ ((e : ℝ))) [] = 0 :=
  geomean_nested_chain 4 (by decide)

/-- C14. For every function `countIRInstructions` is the sum, over all blocks of the function,
reachable or not, of the number of non-debug instructions of the block, the terminator included;
on `n` blocks that hold only a terminator it is `n`. The unit tests expect `1`, `3` and `6`. -/
theorem countIRInstructions_sum_of_blocks (F : Function) :
    countIRInstructions F
        = (((F.blocks.map (fun BB => BB.instructionsWithoutDebug.length + 1)).sum : Nat) : Int) ∧
      (∀ succs : List (List Nat),
        countIRInstructions (terminatorsOnly succs) = (succs.length : Int)) ∧
      countIRInstructions singleBB = 1 ∧ countIRInstructions fewInstructionInOneBlock = 3 ∧
      countIRInstructions fewInstructionsInFewBlocks = 6 ∧
      countIRInstructions withUnreachableBlock = 4 := by
  refine ⟨rfl, ?_, by decide, by decide, by decide, by decide⟩
  intro succs
  simp only [countIRInstructions, getInstructionCount_terminatorsOnly]

/-- C15. For every function `countBasicBlock` is the number of blocks of the function, reachable
or not: `1` for a single block, `2` for two sequential blocks, `3` for an entry with two branch
targets, `2` for a block followed by an unreachable one. -/
theorem countBasicBlock_number_of_blocks (F : Function) :
    countBasicBlock F = (F.blocks.length : Int) ∧
      countBasicBlock singleBB = 1 ∧ countBasicBlock twoSequentiallyBB = 2 ∧
      countBasicBlock freeBBWithIf = 3 ∧ countBasicBlock withUnreachableBlock = 2 :=
  ⟨rfl, by decide, by decide, by decide, by decide⟩

/-- C16 fails on the code: in the function of the unit test `TwoPathWithOneEnd`, which is
acyclic, a first call of the worker on the return block returns `(1, 3)` and a second call with
the resulting memo table returns `(0, 0)`; on the entry block the two calls return `(4, 6)` and
`(3, 5)`. The memo entry written is the pair of the chosen successor, not the returned pair. -/
theorem instructionsOnLongestPath_memo_differs :
    twoPathWithOneEnd.WellFormed ∧ twoPathWithOneEnd.Acyclic ∧
      (instructionsOnLongestPath twoPathWithOneEnd 5 3 Memo.empty).bind
          (fun r => (instructionsOnLongestPath twoPathWithOneEnd 5 3 r.2).bind
            (fun r' => .ok (r.1, r'.1)))
        = .ok ((1, 3), (0, 0)) ∧
      (instructionsOnLongestPath twoPathWithOneEnd 5 0 Memo.empty).bind
          (fun r => (instructionsOnLongestPath twoPathWithOneEnd 5 0 r.2).bind
            (fun r' => .ok (r.1, r'.1)))
        = .ok ((4, 6), (3, 5)) :=
  ⟨by decide, forward_acyclic (by decide), by decide, by decide⟩

/-- C17. On a well-formed acyclic function in which some sink is the target of two or more edges
that leave reachable blocks (two blocks that branch to it, or one block that lists it twice),
`McCabeMeasure` does not return a value: it ends in the failed in-progress assertion. -/
theorem McCabeMeasure_shared_sink_fails (F : Function) (wf : F.WellFormed) (_hacyc : F.Acyclic)
    (z u u' : Nat) (hz : F.succs z = []) (hu : F.Reachable u) (hu' : F.Reachable u')
    (hzu : z ∈ F.succs u) (hzu' : z ∈ F.succs u')
    (hshared : u ≠ u' ∨ 2 ≤ (F.succs u).count z) :
    McCabeMeasure F = .assertFailed ∧ ¬ ∃ v, McCabeMeasure F = .ok v := by
  have h := McCabeMeasure_fails_of_shared_sink wf hz hu hu' hzu hzu' hshared
  refine ⟨h, ?_⟩
  rintro ⟨v, hv⟩
  rw [h] at hv
  cases hv

/-- Witness of C17: the if/else whose branches jump to one common return block, and the
conditional branch with both targets the same return block. -/
theorem McCabeMeasure_shared_sink_fails_witness :
    (diamondFunction.WellFormed ∧ diamondFunction.Acyclic ∧
      McCabeMeasure diamondFunction = .assertFailed) ∧
    (sharedSinkBranch.WellFormed ∧ sharedSinkBranch.Acyclic ∧
      McCabeMeasure sharedSinkBranch = .assertFailed) :=
  ⟨⟨by decide, forward_acyclic (by decide),
      (McCabeMeasure_shared_sink_fails diamondFunction (by decide) (forward_acyclic (by decide))
        3 1 2 (by decide)
        ((enumerates_mem_iff (by decide : diamondFunction.Enumerates [0, 1, 2, 3]) 1).1
          (by decide))
        ((enumerates_mem_iff (by decide : diamondFunction.Enumerates [0, 1, 2, 3]) 2).1
          (by decide))
        (by decide) (by decide) (Or.inl (by decide))).1⟩,
    ⟨by decide, forward_acyclic (by decide),
      (McCabeMeasure_shared_sink_fails sharedSinkBranch (by decide)
        (forward_acyclic (by decide)) 1 0 0 (by decide)
        (Function.reach_refl sharedSinkBranch 0) (Function.reach_refl sharedSinkBranch 0)
        (by decide) (by decide) (Or.inr (by decide))).1⟩⟩

/-- C18. Whenever `McCabeMeasure` returns a value, the paths from the entry are finitely many
(a path being the sequence of successor positions taken, so that parallel edges give distinct
paths), and the value is the number of paths from the entry to a sink plus the sum, over the
reachable blocks `N`, of the number of selects of `N` times the number of paths from the entry
to `N`; when no reachable block holds a select, the value is the number of paths from the entry
to a sink. -/
theorem McCabeMeasure_counts_paths (F : Function) (v : Int) (h : McCabeMeasure F = .ok v) :
    (∃ paths : List (List Nat), paths.Nodup ∧ ∀ P, P ∈ paths ↔ (walk F 0 P).isSome) ∧
      ∀ (paths : List (List Nat)) (R : List Nat), paths.Nodup →
        (∀ P, P ∈ paths ↔ (walk F 0 P).isSome) → R.Nodup → (∀ z, z ∈ R ↔ F.Reachable z) →
        v = ((pathsToSink F paths : Nat) : Int)
              + (R.map (fun N => (((F.block N).selectCount : Nat) : Int)
                  * ((pathsTo F paths N : Nat) : Int))).sum ∧
        ((∀ N, F.Reachable N → (F.block N).selectCount = 0) →
          v = ((pathsToSink F paths : Nat) : Int)) := by
  obtain ⟨hex, hall⟩ := McCabeMeasure_path_count h
  refine ⟨hex, ?_⟩
  intro paths R hp hpaths hR hreach
  have hv := hall paths R hp hpaths hR hreach
  refine ⟨hv, ?_⟩
  intro hsel
  rw [hv, List.sum_eq_zero, add_zero]
  intro x hx
  obtain ⟨N, hN, rfl⟩ := List.mem_map.1 hx
  rw [hsel N ((hreach N).1 hN)]
  simp

/-- Witness of C18 on an if/else behind a select whose branches join in a block with a select:
the value is `5`, two paths to the return block, one path to the entry, two paths to the join.
On the conditional branch with both targets the same block, above a return block with one select,
the value is `4`: the two parallel edges give two paths to the return block. -/
theorem McCabeMeasure_counts_paths_witness :
    (McCabeMeasure repeatedTarget = .ok 4 ∧
      pathsToSink repeatedTarget [[], [0], [1], [0, 0], [1, 0]] = 2 ∧
      pathsTo repeatedTarget [[], [0], [1], [0, 0], [1, 0]] 2 = 2) ∧
    McCabeMeasure joinedSelects = .ok 5 ∧
      pathsToSink joinedSelects [[], [0], [1], [0, 0], [1, 0], [0, 0, 0], [1, 0, 0]] = 2 ∧
      pathsTo joinedSelects [[], [0], [1], [0, 0], [1, 0], [0, 0, 0], [1, 0, 0]] 0 = 1 ∧
      pathsTo joinedSelects [[], [0], [1], [0, 0], [1, 0], [0, 0, 0], [1, 0, 0]] 3 = 2 ∧
      ∀ (paths : List (List Nat)) (R : List Nat), paths.Nodup →
        (∀ P, P ∈ paths ↔ (walk joinedSelects 0 P).isSome) → R.Nodup →
        (∀ z, z ∈ R ↔ joinedSelects.Reachable z) →
        (5 : Int) = ((pathsToSink joinedSelects paths : Nat) : Int)
              + (R.map (fun N => (((joinedSelects.block N).selectCount : Nat) : Int)
                  * ((pathsTo joinedSelects paths N : Nat) : Int))).sum :=
  ⟨⟨by decide, by decide, by decide⟩, by decide, by decide, by decide, by decide,
    fun paths R hp hpaths hR hreach =>
      ((McCabeMeasure_counts_paths joinedSelects 5 (by decide)).2 paths R hp hpaths hR
        hreach).1⟩

/-- C19. On a well-formed function without a reachable cycle `countInstructionsOnLongestPath`
returns a value that is at least the instruction count of the entry block and at most
`countIRInstructions` of the function. -/
theorem countInstructionsOnLongestPath_between (F : Function) (wf : F.WellFormed)
    (hacyc : F.Acyclic) :
    ∃ v, countInstructionsOnLongestPath F = .ok v ∧
      ((F.block 0).sizeWithoutDebug : Int) ≤ v ∧ v ≤ countIRInstructions F :=
  countInstructionsOnLongestPath_bounds wf hacyc

/-- Witness of C19 on the function of the unit test `TwoPathWithOneEnd`, in both successor
orders. -/
theorem countInstructionsOnLongestPath_between_witness :
    (twoPathWithOneEnd.WellFormed ∧ twoPathWithOneEnd.Acyclic ∧
      ∃ v, countInstructionsOnLongestPath twoPathWithOneEnd = .ok v ∧
        ((twoPathWithOneEnd.block 0).sizeWithoutDebug : Int) ≤ v ∧
        v ≤ countIRInstructions twoPathWithOneEnd) ∧
    (twoPathWithOneEndSwapped.WellFormed ∧ twoPathWithOneEndSwapped.Acyclic ∧
      ∃ v, countInstructionsOnLongestPath twoPathWithOneEndSwapped = .ok v ∧
        ((twoPathWithOneEndSwapped.block 0).sizeWithoutDebug : Int) ≤ v ∧
        v ≤ countIRInstructions twoPathWithOneEndSwapped) :=
  ⟨⟨by decide, forward_acyclic (by decide),
      countInstructionsOnLongestPath_between twoPathWithOneEnd (by decide)
        (forward_acyclic (by decide))⟩,
    ⟨by decide, forward_acyclic (by decide),
      countInstructionsOnLongestPath_between twoPathWithOneEndSwapped (by decide)
        (forward_acyclic (by decide))⟩⟩

/-- C20. For every non-empty loop forest the traversal of `geomean` ends with the counter at
least `1` and the accumulator at least `1`; so `geomean` returns
`pow(Accum, 1.0 / CountLoops)`, the branch `CountLoops == 0` not being taken, and with the power
function of the real numbers the score is at least `1`, hence not `0`. -/
theorem geomean_nonempty_forest (LI : List Loop) (h : LI ≠ []) :
    1 ≤ (geomeanTraversal LI).CountLoops ∧ 1 ≤ (geomeanTraversal LI).Accum ∧
      (∀ (R : Type) (_ : Zero R) (pow : ℚ → ℚ → R), geomean pow LI
        = pow (geomeanTraversal LI).Accum (1 / ((geomeanTraversal LI).CountLoops : ℚ))) ∧
      1 ≤ geomean (fun a e => ((a : ℝ)) ^ ((e : ℝ))) LI ∧
      geomean (fun a e => ((a : ℝ)) ^ ((e : ℝ))) LI ≠ 0 := by
  obtain ⟨hc, ha⟩ := geomeanTraversal_pos h
  have hpos := geomean_real_pos h
  refine ⟨hc, ha, fun R _ pow => geomean_eq_pow pow h, hpos, ?_⟩
  intro h0
  rw [h0] at hpos
  norm_num at hpos

/-- Witness of C20 on a forest of two top-level loops, the second with two sub-loops. -/
theorem geomean_nonempty_forest_witness :
    1 ≤ (geomeanTraversal [Loop.mk [], Loop.mk [Loop.mk [], Loop.mk []]]).CountLoops ∧
      1 ≤ (geomeanTraversal [Loop.mk [], Loop.mk [Loop.mk [], Loop.mk []]]).Accum ∧
      geomean (fun a e => ((a : ℝ)) ^ ((e : ℝ))) [Loop.mk [], Loop.mk [Loop.mk [], Loop.mk []]]
        ≠ 0 :=
  have h := geomean_nonempty_forest [Loop.mk [], Loop.mk [Loop.mk [], Loop.mk []]]
    (by simp)
  ⟨h.1, h.2.1, h.2.2.2.2⟩

end TestTaskAnalysis
